import Mathlib

/-!
# Series analysers of `Task1`

A shallow embedding of the two recognisers of the series language
`1 + 1/(a*b) + 1/(c*d) + ...`:

* `LLAnalysator.c`  (namespace `LLAnalysator`): a lexer with one token of lookahead and a
  recursive-descent parser;
* `RecursionAnalysator.c` (namespace `RecursionAnalysator`): a character-level parser.

The fraction evaluator `analysator.c` (namespace `Analysator`) and the lexer of
`Task2/main.cpp` (namespace `Task2`) follow, each with its own conventions.

Conventions of the embedding.

* A C string is a `List Char`; reading at the end of the list reads the terminating NUL.
* `int` positions and token values are `Nat` (they are never negative; the lexer's guard keeps
  token values at most `INT_MAX`, which is proved below, not assumed).
* `long long` values are `Int`; every `long long` multiplication, addition and division
  result is wrapped into the 64-bit two's-complement range by `wrap64`.
* A division by zero is a fault (`Fault.div_by_zero`), and so is the division of `LLONG_MIN`
  by `-1` (`Fault.div_overflow`), whose quotient is not representable: both end the program
  with the signal SIGFPE. The functions that divide return `Except Fault _`.
* `sprintf` into `error_msg` is modelled by storing the format used together with its
  arguments (`Msg`); an `error_msg` that has never been written is `none`.
-/

/-- The constant `INT_MAX` of `limits.h` (32-bit `int`). -/
def INT_MAX : Nat := 2147483647

/-- The constant `LLONG_MAX` of `limits.h` (64-bit `long long`). -/
def LLONG_MAX : Int := 9223372036854775807

/-- The constant `LLONG_MIN` of `limits.h` (64-bit `long long`). -/
def LLONG_MIN : Int := -9223372036854775808

/-- Two's-complement wrapping of an integer into the range of `long long`. -/
def wrap64 (x : Int) : Int := (x + 9223372036854775808) % 18446744073709551616 - 9223372036854775808

/-- The terminating character of a C string. -/
def NUL : Char := Char.ofNat 0

/-- The C expression `input[i]`; at the end of the list it is the terminator. -/
def char_at (input : List Char) (i : Nat) : Char := (input.drop i).headD NUL

/-- The function `isspace` of `ctype.h` in the C locale. -/
def isspace (c : Char) : Bool := c.toNat == 32 || (9 ≤ c.toNat && c.toNat ≤ 13)

/-- The function `isdigit` of `ctype.h`. -/
def isdigit (c : Char) : Bool := 48 ≤ c.toNat && c.toNat ≤ 57

/-- The loop of `skip_whitespace` (same in both files), run on the part of the input that
starts at `pos`; it returns the new value of `pos`. -/
def skip_whitespace_from : List Char → Nat → Nat
  | [], pos => pos
  | c :: cs, pos => if c ≠ NUL ∧ isspace c = true then skip_whitespace_from cs (pos + 1) else pos

/-- The loop of `compute_gcd` (same in both files): `while (b != 0) { t = b; b = a % b; a = t; }`.
The C operator `%` truncates towards zero (`Int.tmod`). The first argument bounds the number
of iterations. The operation `a % b` traps when `a` is the least value of the type and `b` is
`-1`: whether the loop meets this operation is computed by `gcd_traps_loop`, and the callers
of `compute_gcd` end with a fault when it does. -/
def compute_gcd_loop : Nat → Int → Int → Int
  | 0, a, _ => a
  | fuel + 1, a, b => if b = 0 then a else compute_gcd_loop fuel b (a.tmod b)

/-- Whether the loop `while (b != 0) { t = b; b = a % b; a = t; }` meets the operation
`min % -1`, which traps, `min` being the least value of the type of `a` and `b`. -/
def gcd_traps_loop (min : Int) : Nat → Int → Int → Bool
  | 0, _, _ => false
  | fuel + 1, a, b =>
    if b = 0 then false
    else if a = min ∧ b = -1 then true
    else gcd_traps_loop min fuel b (a.tmod b)

/-- The function `compute_gcd`. The loop strictly decreases `|b|`, so `|b| + 1` iterations
are enough (`compute_gcd_unfold` below). -/
def compute_gcd (a b : Int) : Int := compute_gcd_loop (b.natAbs + 1) a b

/-- Whether a call of `compute_gcd` is ended by the trap of `LLONG_MIN % -1`. -/
def compute_gcd_traps (a b : Int) : Bool := gcd_traps_loop LLONG_MIN (b.natAbs + 1) a b

/-- The reduction step `gcd = compute_gcd(num, den); num / gcd; den / gcd` of both parsers is
ended by a trap (the signal SIGFPE): `compute_gcd` meets `LLONG_MIN % -1`, or the divisor
`gcd` is zero, or a division is `LLONG_MIN / -1`. -/
def reduction_traps (num den : Int) : Prop :=
  compute_gcd_traps num den = true ∨ compute_gcd num den = 0 ∨
  ((num = LLONG_MIN ∨ den = LLONG_MIN) ∧ compute_gcd num den = -1)

instance (num den : Int) : Decidable (reduction_traps num den) :=
  inferInstanceAs (Decidable (compute_gcd_traps num den = true ∨ compute_gcd num den = 0 ∨
    ((num = LLONG_MIN ∨ den = LLONG_MIN) ∧ compute_gcd num den = -1)))

/-- The value obtained from `v` by appending the decimal digits of `s`, most significant digit
first: one step is `v * 10 + (c - 0x30)`. -/
def digits_value (v : Nat) (s : List Char) : Nat := s.foldl (fun v c => v * 10 + (c.toNat - 48)) v

/-- The decimal value of a string of digits. -/
def decimal_value (s : List Char) : Nat := digits_value 0 s

/-- The decimal writing of a natural number, without leading zeros. -/
def decimal (n : Nat) : List Char := Nat.toDigits 10 n

/-- What can go wrong at run time in the arithmetic: a division by zero (`div_by_zero`), or a
division or remainder of `LLONG_MIN` by `-1` (`div_overflow`), both of which end the program
with the signal SIGFPE; and the exhaustion of the recursion bound that the embedding gives to
`parse_S_prime` and to the loop of `parse_series` (`out_of_fuel`). -/
inductive Fault
  | div_by_zero
  | div_overflow
  | out_of_fuel
  deriving DecidableEq, Repr

namespace LLAnalysator

/-- The enumeration `TokenType`. -/
inductive TokenType
  | TOK_1 | TOK_PLUS | TOK_SLASH | TOK_LPAREN | TOK_RPAREN | TOK_MUL | TOK_DIGIT | TOK_END
  | TOK_INVALID
  deriving DecidableEq, Repr

open TokenType

/-- The structure `Token`. -/
structure Token where
  type : TokenType
  value : Nat
  pos : Nat
  deriving DecidableEq, Repr

/-- The diagnostics written into `error_msg`, one constructor per `sprintf` format:
* `number_overflow`: "Число превышает INT_MAX (позиция %d)" (lexer);
* `leading_zero`: "Натуральное число не может начинаться с 0 (позиция %d)" (lexer);
* `unknown_char`: "Неизвестный символ %c (позиция %d)" (lexer);
* `expected_found`: "Ожидалось %s, но найдено %s (позиция %d)" (`match`);
* `expected_natural`: "Ожидалось натуральное число ≥1 (позиция %d)" (`parse_N`);
* `product_overflow`: "Произведение %d*%d превышает INT_MAX (позиция %d)" (`parse_F`);
* `expected_one`: "Ожидалось 1 (позиция %d)" (`parse_S`). -/
inductive Msg
  | number_overflow (pos : Nat)
  | leading_zero (pos : Nat)
  | unknown_char (c : Char) (pos : Nat)
  | expected_found (expected found : TokenType) (pos : Nat)
  | expected_natural (pos : Nat)
  | product_overflow (a b : Nat) (pos : Nat)
  | expected_one (pos : Nat)
  deriving DecidableEq, Repr

/-- The structure `Parser`. -/
structure Parser where
  input : List Char
  pos : Nat
  lookahead : Token
  has_error : Bool
  error_msg : Option Msg
  sum_num : Int
  sum_den : Int
  current_a : Nat
  current_b : Nat
  deriving DecidableEq, Repr

/-- The function `skip_whitespace`. -/
def skip_whitespace (p : Parser) : Parser :=
  { p with pos := skip_whitespace_from (p.input.drop p.pos) p.pos }

/-- The digit loop of `get_next_token`, run on the part of the input that starts at `pos`
with the accumulated `tok.value`. It returns whether the overflow guard fired, the value and
the position reached. -/
def scan_digits : List Char → Nat → Nat → Bool × Nat × Nat
  | [], value, pos => (false, value, pos)
  | c :: cs, value, pos =>
    if isdigit c = true then
      let digit := c.toNat - 48
      if value > (INT_MAX - digit) / 10 then (true, value, pos)
      else scan_digits cs (value * 10 + digit) (pos + 1)
    else (false, value, pos)

/-- The function `get_next_token`: the token returned and the parser after the call. -/
def get_next_token (p0 : Parser) : Token × Parser :=
  let p := skip_whitespace p0
  let tok : Token := ⟨TOK_INVALID, 0, p.pos⟩
  let c := char_at p.input p.pos
  if c = NUL then ({ tok with type := TOK_END }, p)
  else if c = '1' ∧ (char_at p.input (p.pos + 1) = '/' ∨ p.pos = 0) then
    ({ tok with type := TOK_1 }, { p with pos := p.pos + 1 })
  else if c = '+' then ({ tok with type := TOK_PLUS }, { p with pos := p.pos + 1 })
  else if c = '/' then ({ tok with type := TOK_SLASH }, { p with pos := p.pos + 1 })
  else if c = '(' then ({ tok with type := TOK_LPAREN }, { p with pos := p.pos + 1 })
  else if c = ')' then ({ tok with type := TOK_RPAREN }, { p with pos := p.pos + 1 })
  else if c = '*' then ({ tok with type := TOK_MUL }, { p with pos := p.pos + 1 })
  else if isdigit c = true then
    let start_pos := p.pos
    match scan_digits (p.input.drop p.pos) 0 p.pos with
    | (true, value, pos) =>
      ({ tok with type := TOK_DIGIT, value := value },
       { p with pos := pos, error_msg := some (Msg.number_overflow start_pos),
                has_error := true })
    | (false, value, pos) =>
      if char_at p.input start_pos = '0' ∧ value ≠ 0 then
        ({ tok with type := TOK_DIGIT, value := value },
         { p with pos := pos, error_msg := some (Msg.leading_zero start_pos),
                  has_error := true })
      else ({ tok with type := TOK_DIGIT, value := value }, { p with pos := pos })
  else (tok, { p with error_msg := some (Msg.unknown_char c p.pos), has_error := true })

/-- The function `init_parser`, on the automatic variable `Parser p` of `parse`, whose
`error_msg`, `current_a` and `current_b` have not been written yet. -/
def parser_init (input : List Char) : Parser :=
  let p : Parser :=
    { input := input, pos := 0, lookahead := ⟨TOK_INVALID, 0, 0⟩, has_error := false,
      error_msg := none, sum_num := 1, sum_den := 1, current_a := 0, current_b := 0 }
  let r := get_next_token p
  { r.2 with lookahead := r.1 }

/-- The function `advance`. -/
def advance (p : Parser) : Parser :=
  if p.has_error = false ∧ p.lookahead.type ≠ TOK_END then
    let r := get_next_token p
    { r.2 with lookahead := r.1 }
  else p

/-- The function `match`: its result and the parser after the call. -/
def match_ (p : Parser) (expected : TokenType) : Bool × Parser :=
  if p.lookahead.type = expected then (true, advance p)
  else
    let msg := Msg.expected_found expected p.lookahead.type p.lookahead.pos
    (false, { p with error_msg := some msg, has_error := true })

/-- The function `parse_N`: `some value` when it returns true, and the parser after the call. -/
def parse_N (p : Parser) : Option Nat × Parser :=
  if p.lookahead.type ≠ TOK_DIGIT ∨ p.lookahead.value < 1 then
    (none, { p with error_msg := some (Msg.expected_natural p.lookahead.pos),
                    has_error := true })
  else (some p.lookahead.value, (match_ p TOK_DIGIT).2)

/-- The function `parse_F`. The results of `match` are not looked at, those of `parse_N` are. -/
def parse_F (p : Parser) : Parser :=
  let p := (match_ p TOK_1).2
  let p := (match_ p TOK_SLASH).2
  let p := (match_ p TOK_LPAREN).2
  match parse_N p with
  | (none, p) => p
  | (some a, p) =>
    let p := (match_ p TOK_MUL).2
    match parse_N p with
    | (none, p) => p
    | (some b, p) =>
      let p := (match_ p TOK_RPAREN).2
      let product := a * b
      if product > INT_MAX then
        { p with error_msg := some (Msg.product_overflow a b p.lookahead.pos),
                 has_error := true }
      else { p with current_a := a, current_b := b }

/-- The function `parse_S_prime`; the first argument bounds the depth of the recursion. -/
def parse_S_prime : Nat → Parser → Except Fault Parser
  | 0, p => if p.lookahead.type = TOK_PLUS then .error Fault.out_of_fuel else .ok p
  | fuel + 1, p =>
    if p.lookahead.type = TOK_PLUS then
      let p := (match_ p TOK_PLUS).2
      let p := parse_F p
      if p.has_error = true then .ok p
      else
        let a : Int := p.current_a
        let b : Int := p.current_b
        let den := wrap64 (a * b)
        let num : Int := 1
        let new_num := wrap64 (wrap64 (p.sum_num * den) + wrap64 (p.sum_den * num))
        let new_den := wrap64 (p.sum_den * den)
        let gcd := compute_gcd new_num new_den
        if reduction_traps new_num new_den then
          .error (if gcd = 0 then Fault.div_by_zero else Fault.div_overflow)
        else
          parse_S_prime fuel
            { p with sum_num := wrap64 (new_num.tdiv gcd), sum_den := wrap64 (new_den.tdiv gcd) }
    else .ok p

/-- The function `parse_S`. Every recursive call of `parse_S_prime` follows a consumed `+`, so
the length of the input bounds the depth. -/
def parse_S (p : Parser) : Except Fault Parser :=
  if p.lookahead.type = TOK_1 then
    let p := { p with sum_num := 1, sum_den := 1 }
    let p := (match_ p TOK_1).2
    if p.lookahead.type = TOK_SLASH then
      let p := parse_F p
      if p.has_error = true then .ok p
      else
        let a : Int := p.current_a
        let b : Int := p.current_b
        parse_S_prime p.input.length { p with sum_num := 1, sum_den := wrap64 (a * b) }
    else parse_S_prime p.input.length p
  else
    .ok { p with error_msg := some (Msg.expected_one p.lookahead.pos), has_error := true }

/-- The parser state at the end of `parse`, before printing. -/
def run (input : List Char) : Except Fault Parser := parse_S (parser_init input)

/-- The test of `parse` that selects the line printed. -/
def accepted (p : Parser) : Bool := p.has_error = false ∧ p.lookahead.type = TOK_END

/-- What `parse` prints: the sum of a correct series, or the content of `error_msg`. -/
inductive Output
  | correct (sum_num sum_den : Int)
  | error (error_msg : Option Msg)
  deriving DecidableEq, Repr

/-- The function `parse`. -/
def parse (input : List Char) : Except Fault Output :=
  match run input with
  | .error f => .error f
  | .ok p => if accepted p = true then .ok (Output.correct p.sum_num p.sum_den)
             else .ok (Output.error p.error_msg)

end LLAnalysator

namespace RecursionAnalysator

/-- The diagnostics written into `error_msg`, one constructor per `snprintf` format:
* `expected_char`: "Ожидалось %c, но найдено %c (позиция %d)" (`expect`);
* `expected_natural`: "Ожидалось натуральное число (позиция %d)" (`parse_natural`);
* `leading_zero`: "Натуральное число не может начинаться с 0 (позиция %d)" (`parse_natural`);
* `number_too_long`: "Число слишком длинное (позиция %d)" (`parse_natural`);
* `number_overflow`: "Число превышает максимальное значение int (позиция %d)"
  (`parse_natural`);
* `product_overflow`: "Произведение %d*%d превышает максимальное значение int (позиция %d)"
  (`parse_fraction`);
* `sum_overflow`: "Переполнение при вычислении суммы (позиция %d)" (`parse_series`);
* `unexpected_char`: "Неожиданный символ %c (позиция %d)" (`parse_series`). -/
inductive Msg
  | expected_char (expected found : Char) (pos : Nat)
  | expected_natural (pos : Nat)
  | leading_zero (pos : Nat)
  | number_too_long (pos : Nat)
  | number_overflow (pos : Nat)
  | product_overflow (a b : Nat) (pos : Nat)
  | sum_overflow (pos : Nat)
  | unexpected_char (c : Char) (pos : Nat)
  deriving DecidableEq, Repr

/-- The structure `Parser`. -/
structure Parser where
  input : List Char
  pos : Nat
  error : Bool
  error_msg : Option Msg
  sum_num : Int
  sum_den : Int
  deriving DecidableEq, Repr

/-- The function `skip_whitespace`. -/
def skip_whitespace (p : Parser) : Parser :=
  { p with pos := skip_whitespace_from (p.input.drop p.pos) p.pos }

/-- The function `expect`: its result and the parser after the call. -/
def expect (p0 : Parser) (expected : Char) : Bool × Parser :=
  let p := skip_whitespace p0
  if char_at p.input p.pos ≠ expected then
    let msg := Msg.expected_char expected (char_at p.input p.pos) p.pos
    (false, { p with error_msg := some msg, error := true })
  else (true, { p with pos := p.pos + 1 })

/-- The loop `while (isdigit(p->input[p->pos])) p->pos++` of `parse_natural`, run on the part
of the input that starts at `pos`; it returns the new value of `pos`. -/
def scan_digit_run : List Char → Nat → Nat
  | [], pos => pos
  | c :: cs, pos => if isdigit c = true then scan_digit_run cs (pos + 1) else pos

/-- Modelled from the spec: the library function `atoll` of `stdlib.h`, which is not part of
the repository, on a string of digits: the decimal value, and `LLONG_MAX` when the value is
not representable (the result of `strtoll`, by which `atoll` is implemented). -/
def atoll (s : List Char) : Int := min (decimal_value s : Int) LLONG_MAX

/-- The function `parse_natural`: `some result` when it returns true, and the parser after the
call. -/
def parse_natural (p0 : Parser) : Option Nat × Parser :=
  let p := skip_whitespace p0
  if isdigit (char_at p.input p.pos) = false then
    (none, { p with error_msg := some (Msg.expected_natural p.pos), error := true })
  else
    let start_pos := p.pos
    let p := { p with pos := scan_digit_run (p.input.drop p.pos) p.pos }
    if p.pos - start_pos > 1 ∧ char_at p.input start_pos = '0' then
      (none, { p with error_msg := some (Msg.leading_zero start_pos), error := true })
    else
      let len := p.pos - start_pos
      if len ≥ 20 then
        (none, { p with error_msg := some (Msg.number_too_long start_pos), error := true })
      else
        let num_str := (p.input.drop start_pos).take len
        let num := atoll num_str
        if num > INT_MAX then
          (none, { p with error_msg := some (Msg.number_overflow start_pos), error := true })
        else (some num.toNat, p)

/-- The function `parse_fraction`: `some (a, b)` when it returns true, and the parser after the
call. -/
def parse_fraction (p : Parser) : Option (Nat × Nat) × Parser :=
  match expect p '1' with
  | (false, p) => (none, p)
  | (true, p) =>
  match expect p '/' with
  | (false, p) => (none, p)
  | (true, p) =>
  match expect p '(' with
  | (false, p) => (none, p)
  | (true, p) =>
  match parse_natural p with
  | (none, p) => (none, p)
  | (some a, p) =>
  match expect p '*' with
  | (false, p) => (none, p)
  | (true, p) =>
  match parse_natural p with
  | (none, p) => (none, p)
  | (some b, p) =>
  match expect p ')' with
  | (false, p) => (none, p)
  | (true, p) =>
    let product := a * b
    if product > INT_MAX then
      (none, { p with error_msg := some (Msg.product_overflow a b p.pos), error := true })
    else (some (a, b), p)

/-- The end of `parse_series`, after the loop: the input must be exhausted. -/
def parse_series_end (p : Parser) : Bool × Parser :=
  if char_at p.input p.pos ≠ NUL then
    let msg := Msg.unexpected_char (char_at p.input p.pos) p.pos
    (false, { p with error_msg := some msg, error := true })
  else (true, p)

/-- The `while` loop of `parse_series` followed by the end of the function; the first argument
bounds the number of iterations. The result is the value returned by `parse_series` and the
parser after the call. -/
def parse_series_loop : Nat → Parser → Except Fault (Bool × Parser)
  | 0, p => if char_at p.input p.pos = '+' then .error Fault.out_of_fuel
            else .ok (parse_series_end p)
  | fuel + 1, p =>
    if char_at p.input p.pos = '+' then
      let p := { p with pos := p.pos + 1 }
      match parse_fraction p with
      | (none, p) => .ok (false, p)
      | (some (a, b), p) =>
        let d : Int := (a : Int) * (b : Int)
        let new_num := wrap64 (wrap64 (p.sum_num * d) + p.sum_den)
        let new_den := wrap64 (p.sum_den * d)
        if (d > 0 ∧ p.sum_den > LLONG_MAX.tdiv d) ∨
           (p.sum_num > 0 ∧ d > LLONG_MAX.tdiv p.sum_num) then
          (.ok (false, { p with error_msg := some (Msg.sum_overflow p.pos), error := true }))
        else
          let gcd := compute_gcd new_num new_den
          if reduction_traps new_num new_den then
            .error (if gcd = 0 then Fault.div_by_zero else Fault.div_overflow)
          else
            let p := { p with sum_num := wrap64 (new_num.tdiv gcd),
                              sum_den := wrap64 (new_den.tdiv gcd) }
            parse_series_loop fuel (skip_whitespace p)
    else .ok (parse_series_end p)

/-- The function `parse_series`. Every iteration of the loop consumes a `+`, so the length of
the input bounds the number of iterations. -/
def parse_series (p : Parser) : Except Fault (Bool × Parser) :=
  let p := { p with sum_num := 1, sum_den := 1 }
  match expect p '1' with
  | (false, p) => .ok (false, p)
  | (true, p) => parse_series_loop p.input.length (skip_whitespace p)

/-- What `parse` prints: the sum of a correct series, or the content of `error_msg`. -/
inductive Output
  | correct (sum_num sum_den : Int)
  | error (error_msg : Option Msg)
  deriving DecidableEq, Repr

/-- The function `parse`. -/
def parse (input : List Char) : Except Fault Output :=
  let p : Parser :=
    { input := input, pos := 0, error := false, error_msg := none, sum_num := 0, sum_den := 0 }
  match parse_series p with
  | .error f => .error f
  | .ok (true, p) => .ok (Output.correct p.sum_num p.sum_den)
  | .ok (false, p) => .ok (Output.error p.error_msg)

end RecursionAnalysator


/-! ## Series texts and exact sums (specification side) -/

/-- The text ` + 1/(a*b)` of one term of a series. -/
def term_text (a b : Nat) : List Char :=
  [' ', '+', ' ', '1', '/', '('] ++ decimal a ++ ['*'] ++ decimal b ++ [')']

/-- The texts of the terms of a series, one after the other. -/
def tail_text : List (Nat × Nat) → List Char
  | [] => []
  | t :: ts => term_text t.1 t.2 ++ tail_text ts

/-- The text `1 + 1/(a1*b1) + 1/(a2*b2) + ...` of a series. -/
def series_text (ts : List (Nat × Nat)) : List Char := '1' :: tail_text ts

/-- The exact value, a rational number, of the terms `1/(a*b)` of a series. -/
def terms_sum (ts : List (Nat × Nat)) : ℚ := (ts.map (fun t => (1 : ℚ) / ((t.1 : ℚ) * (t.2 : ℚ)))).sum

/-- The fraction `n/d` in lowest terms. -/
def lowest_terms (n d : Nat) : Nat × Nat := (n / Nat.gcd n d, d / Nat.gcd n d)

/-- The exact sum, in lowest terms after every addition, of the accumulator `acc.1/acc.2`
and of the terms `1/(a*b)` of `ts`, added one by one by cross multiplication. -/
def exact_sum_from : Nat × Nat → List (Nat × Nat) → Nat × Nat
  | acc, [] => acc
  | acc, t :: ts =>
    exact_sum_from (lowest_terms (acc.1 * (t.1 * t.2) + acc.2) (acc.2 * (t.1 * t.2))) ts

/-- Starting from the exact accumulator `acc.1/acc.2` in lowest terms, every cross product
`sum_num*d + sum_den` and `sum_den*d` met while adding the terms `ts` exactly, one by one, is
at most `LLONG_MAX`. -/
def fits64 : Nat × Nat → List (Nat × Nat) → Bool
  | _, [] => true
  | acc, t :: ts =>
    decide (acc.1 * (t.1 * t.2) + acc.2 ≤ 9223372036854775807) &&
    decide (acc.2 * (t.1 * t.2) ≤ 9223372036854775807) &&
    fits64 (lowest_terms (acc.1 * (t.1 * t.2) + acc.2) (acc.2 * (t.1 * t.2))) ts

/-! ## The series grammar (specification side) -/

/-- A run of whitespace characters. -/
def is_ws (w : List Char) : Prop := ∀ c ∈ w, isspace c = true

/-- The text of a natural number of the grammar: a non-empty run of decimal digits without a
leading zero, whose value is between 1 and `INT_MAX`. -/
def is_natural_text (ds : List Char) : Prop :=
  ds ≠ [] ∧ (∀ c ∈ ds, isdigit c = true) ∧ ds.head? ≠ some '0' ∧
  1 ≤ decimal_value ds ∧ decimal_value ds ≤ INT_MAX

/-- The texts made of zero or more groups `+ 1 / ( N * N )`, each token preceded by
optional whitespace, followed by optional whitespace and the end of the input. -/
inductive SeriesTail : List Char → Prop
  | done (w : List Char) (hw : is_ws w) : SeriesTail w
  | term (w1 w2 w3 w4 w5 w6 w7 w8 a b rest : List Char)
      (h1 : is_ws w1) (h2 : is_ws w2) (h3 : is_ws w3) (h4 : is_ws w4) (h5 : is_ws w5)
      (h6 : is_ws w6) (h7 : is_ws w7) (h8 : is_ws w8)
      (ha : is_natural_text a) (hb : is_natural_text b) (hrest : SeriesTail rest) :
      SeriesTail (w1 ++ '+' :: (w2 ++ '1' :: (w3 ++ '/' :: (w4 ++ '(' :: (w5 ++ (a ++ (w6 ++
        '*' :: (w7 ++ (b ++ (w8 ++ ')' :: rest))))))))))

/-- The texts of the series grammar: the token `1`, then zero or more groups
`+ 1 / ( N * N )`, then the end of the input, the tokens separated only by whitespace. -/
def Series (s : List Char) : Prop :=
  ∃ w rest, is_ws w ∧ s = w ++ '1' :: rest ∧ SeriesTail rest

namespace LLAnalysator

open TokenType

/-- The text `txt` from which the lexer makes the token `tok` without error, `rest` being what
follows it in the input. -/
def token_text (tok : Token) (txt rest : List Char) : Prop :=
  match tok.type with
  | TOK_1 => txt = ['1']
  | TOK_PLUS => txt = ['+']
  | TOK_SLASH => txt = ['/']
  | TOK_LPAREN => txt = ['(']
  | TOK_RPAREN => txt = [')']
  | TOK_MUL => txt = ['*']
  | TOK_DIGIT =>
    txt ≠ [] ∧ (∀ c ∈ txt, isdigit c = true) ∧ (∀ c ∈ rest.head?, isdigit c = false) ∧
    tok.value = decimal_value txt ∧ tok.value ≤ INT_MAX ∧ (txt.head? = some '0' → tok.value = 0)
  | TOK_END => txt = [] ∧ rest = []
  | TOK_INVALID => False

/-- The position `%d` printed in a diagnostic. -/
def Msg.pos : Msg → Nat
  | Msg.number_overflow pos => pos
  | Msg.leading_zero pos => pos
  | Msg.unknown_char _ pos => pos
  | Msg.expected_found _ _ pos => pos
  | Msg.expected_natural pos => pos
  | Msg.product_overflow _ _ pos => pos
  | Msg.expected_one pos => pos

/-- Invariant of the parser: when `has_error` is set, `error_msg` has been written and the
position it carries is that of the lookahead. -/
def error_at_lookahead (p : Parser) : Prop :=
  p.has_error = true → ∃ m, p.error_msg = some m ∧ m.pos = p.lookahead.pos

/-- Invariant of the parser: the lookahead is the token that starts, after whitespace, at the
position `s` of the input, and the cursor `pos` is right after that token. -/
def lexed_from (p : Parser) (s : Nat) : Prop :=
  ∃ ws txt rest, p.input.drop s = ws ++ (txt ++ rest) ∧ is_ws ws ∧
    p.pos = s + ws.length + txt.length ∧ token_text p.lookahead txt rest

/-- Invariant of the parser on the input `s`: the lookahead is the token that the lexer reads
when it is started at the position `lookahead.pos` of `s`, whatever the other fields of the
parser are, and the cursor `pos` is where the lexer stops after that token. -/
def lookahead_read (s : List Char) (p : Parser) : Prop :=
  p.input = s ∧ ∀ b : Parser, b.input = s → b.pos = p.lookahead.pos →
    (get_next_token b).1 = p.lookahead ∧ (get_next_token b).2.pos = p.pos

end LLAnalysator

/-! ## The lexer of `Task2/main.cpp`

Conventions of the embedding.

* A `std::string` is a `List Char`, `size_t pos` and the `int` counters `line` and `column`
  are `Nat`.
* Every `while` loop of the lexer advances `pos` and stops at the end of the input, where
  `current()` is `'\0'`; it is run for at most `input.size() - pos` iterations, which is
  proved to be enough (the condition of the loop is false where it stops).
* The output of `main` is the list of the tokens printed.
-/

/-- The function `isalpha` of `cctype` in the C locale. -/
def isalpha (c : Char) : Bool :=
  (65 ≤ c.toNat && c.toNat ≤ 90) || (97 ≤ c.toNat && c.toNat ≤ 122)

/-- The function `isalnum` of `cctype` in the C locale. -/
def isalnum (c : Char) : Bool := isalpha c || isdigit c

/-- The function `tolower` of `cctype` in the C locale. -/
def tolower (c : Char) : Char :=
  if 65 ≤ c.toNat ∧ c.toNat ≤ 90 then Char.ofNat (c.toNat + 32) else c

/-- The character `\n`. -/
def NEWLINE : Char := Char.ofNat 10

/-- The character `"`. -/
def DQUOTE : Char := Char.ofNat 34

/-- The character `'`. -/
def SQUOTE : Char := Char.ofNat 39

/-- The character `\`. -/
def BACKSLASH : Char := Char.ofNat 92

namespace Task2

/-- The enumeration `TokenType`. -/
inductive TokenType
  | AND | BREAK | DO | ELSE | ELSEIF | END | FALSE | FOR | FUNCTION
  | GOTO | IF | IN | LOCAL | NIL | NOT | OR | REPEAT | RETURN
  | THEN | TRUE | UNTIL | WHILE
  | IDENTIFIER | NUMBER | STRING
  | PLUS | MINUS | MUL | DIV | MOD | POW | LEN
  | EQ | NEQ | LTE | GTE | LT | GT | ASSIGN
  | LPAREN | RPAREN | LBRACE | RBRACE | LBRACKET | RBRACKET
  | SEMI | COLON | COMMA | CONCAT | DOTS
  | EOF_TOKEN | UNKNOWN
  deriving DecidableEq, Repr

open TokenType

/-- The structure `Token`. -/
structure Token where
  type : TokenType
  value : List Char
  line : Nat
  column : Nat
  deriving DecidableEq, Repr

/-- The data members `input`, `pos`, `line` and `column` of the class `Lexer`. -/
structure Lexer where
  input : List Char
  pos : Nat
  line : Nat
  column : Nat
  deriving DecidableEq, Repr

/-- The data member `keywords` of the class `Lexer`. -/
def keywords : List (List Char × TokenType) :=
  [("and".toList, AND), ("break".toList, BREAK), ("do".toList, DO), ("else".toList, ELSE),
   ("elseif".toList, ELSEIF), ("end".toList, END), ("false".toList, FALSE),
   ("for".toList, FOR), ("function".toList, FUNCTION), ("goto".toList, GOTO),
   ("if".toList, IF), ("in".toList, IN), ("local".toList, LOCAL), ("nil".toList, NIL),
   ("not".toList, NOT), ("or".toList, OR), ("repeat".toList, REPEAT),
   ("return".toList, RETURN), ("then".toList, THEN), ("true".toList, TRUE),
   ("until".toList, UNTIL), ("while".toList, WHILE)]

/-- The member function `current`. -/
def current (l : Lexer) : Char :=
  if l.pos < l.input.length then char_at l.input l.pos else NUL

/-- The member function `advance`: the character returned and the lexer after the call. -/
def advance (l : Lexer) : Char × Lexer :=
  let c := current l
  let l1 := if c = NEWLINE then { l with line := l.line + 1, column := 0 } else l
  (c, { l1 with pos := l1.pos + 1, column := l1.column + 1 })

/-- The loop of `skipWhitespace`, for at most the given number of iterations. -/
def skipWhitespace_loop : Nat → Lexer → Lexer
  | 0, l => l
  | fuel + 1, l =>
    if isspace (current l) = true then skipWhitespace_loop fuel (advance l).2 else l

/-- The member function `skipWhitespace`. -/
def skipWhitespace (l : Lexer) : Lexer := skipWhitespace_loop (l.input.length - l.pos) l

/-- The loop of `readNumber`, for at most the given number of iterations: the string `num` and
the lexer at the end. -/
def readNumber_loop : Nat → Lexer → List Char → List Char × Lexer
  | 0, l, num => (num, l)
  | fuel + 1, l, num =>
    if isdigit (current l) = true ∨ current l = '.' ∨ tolower (current l) = 'e' ∨
        current l = '+' ∨ current l = '-' then
      let r := advance l
      readNumber_loop fuel r.2 (num ++ [r.1])
    else (num, l)

/-- The member function `readNumber`. -/
def readNumber (l : Lexer) : List Char × Lexer :=
  readNumber_loop (l.input.length - l.pos) l []

/-- The loop of `readString`, for at most the given number of iterations: the string `str` and
the lexer at the end. -/
def readString_loop (delim : Char) : Nat → Lexer → List Char → List Char × Lexer
  | 0, l, str => (str, l)
  | fuel + 1, l, str =>
    if current l ≠ delim ∧ current l ≠ NUL then
      let l1 := if current l = BACKSLASH then (advance l).2 else l
      let r := advance l1
      readString_loop delim fuel r.2 (str ++ [r.1])
    else (str, l)

/-- The member function `readString`. -/
def readString (l : Lexer) (delim : Char) : List Char × Lexer :=
  let l1 := (advance l).2
  let r := readString_loop delim (l1.input.length - l1.pos) l1 []
  (r.1, (advance r.2).2)

/-- The loop of `readIdentifier`, for at most the given number of iterations: the string `id`
and the lexer at the end. -/
def readIdentifier_loop : Nat → Lexer → List Char → List Char × Lexer
  | 0, l, id => (id, l)
  | fuel + 1, l, id =>
    if isalnum (current l) = true ∨ current l = '_' then
      let r := advance l
      readIdentifier_loop fuel r.2 (id ++ [r.1])
    else (id, l)

/-- The member function `readIdentifier`. -/
def readIdentifier (l : Lexer) : List Char × Lexer :=
  readIdentifier_loop (l.input.length - l.pos) l []

/-- A `case` of the `switch` of `nextToken` that is `advance(); return {type, value, ...}`. -/
def single (l : Lexer) (type : TokenType) (value : List Char) : Token × Lexer :=
  let l1 := (advance l).2
  (⟨type, value, l1.line, l1.column⟩, l1)

/-- The `case` of `=`, `<` and `>` in the `switch` of `nextToken`: the token `long` when a `=`
follows, the token `short` otherwise. -/
def with_equals (l : Lexer) (long : TokenType) (long_value : List Char) (short : TokenType)
    (short_value : List Char) : Token × Lexer :=
  let l1 := (advance l).2
  if current l1 = '=' then
    let l2 := (advance l1).2
    (⟨long, long_value, l2.line, l2.column⟩, l2)
  else (⟨short, short_value, l1.line, l1.column⟩, l1)

/-- The member function `nextToken`: the token returned and the lexer after the call. -/
def nextToken (l0 : Lexer) : Token × Lexer :=
  let l := skipWhitespace l0
  if current l = NUL then (⟨EOF_TOKEN, [], l.line, l.column⟩, l)
  else
    let c := current l
    if c = DQUOTE ∨ c = SQUOTE then
      let r := readString l c
      (⟨STRING, r.1, r.2.line, r.2.column⟩, r.2)
    else if isdigit c = true then
      let r := readNumber l
      (⟨NUMBER, r.1, r.2.line, r.2.column⟩, r.2)
    else if isalpha c = true ∨ c = '_' then
      let r := readIdentifier l
      (⟨(keywords.lookup r.1).getD IDENTIFIER, r.1, r.2.line, r.2.column⟩, r.2)
    else if c = '+' then single l PLUS ['+']
    else if c = '-' then single l MINUS ['-']
    else if c = '*' then single l MUL ['*']
    else if c = '/' then single l DIV ['/']
    else if c = '%' then single l MOD ['%']
    else if c = '^' then single l POW ['^']
    else if c = '#' then single l LEN ['#']
    else if c = '=' then with_equals l EQ ['=', '='] ASSIGN ['=']
    else if c = '<' then with_equals l LTE ['<', '='] LT ['<']
    else if c = '>' then with_equals l GTE ['>', '='] GT ['>']
    else if c = '~' then
      let l1 := (advance l).2
      if current l1 = '=' then
        let l2 := (advance l1).2
        (⟨NEQ, ['~', '='], l2.line, l2.column⟩, l2)
      else single l1 UNKNOWN [c]
    else if c = '.' then
      let l1 := (advance l).2
      if current l1 = '.' then
        let l2 := (advance l1).2
        if current l2 = '.' then
          let l3 := (advance l2).2
          (⟨DOTS, ['.', '.', '.'], l3.line, l3.column⟩, l3)
        else (⟨CONCAT, ['.', '.'], l2.line, l2.column⟩, l2)
      else (⟨UNKNOWN, ['.'], l1.line, l1.column⟩, l1)
    else if c = '(' then single l LPAREN ['(']
    else if c = ')' then single l RPAREN [')']
    else if c = '{' then single l LBRACE ['{']
    else if c = '}' then single l RBRACE ['}']
    else if c = '[' then single l LBRACKET ['[']
    else if c = ']' then single l RBRACKET [']']
    else if c = ';' then single l SEMI [';']
    else if c = ':' then single l COLON [':']
    else if c = ',' then single l COMMA [',']
    else single l UNKNOWN [c]

/-- A call of `nextToken` made in the state `l` with the result `x` returns a token other than
`EOF_TOKEN`, keeps the input and moves `pos` strictly forward. -/
def progresses (l : Lexer) (x : Token × Lexer) : Prop :=
  x.1.type ≠ EOF_TOKEN ∧ x.2.input = l.input ∧ l.pos < x.2.pos

/-- The loop of `main`, for at most the given number of iterations: the tokens printed, or
`none` when the bound is exhausted. -/
def main_loop : Nat → Lexer → Option (List Token)
  | 0, _ => none
  | fuel + 1, l =>
    let r := nextToken l
    if r.1.type = EOF_TOKEN then some []
    else (main_loop fuel r.2).map (fun toks => r.1 :: toks)

/-- The function `main` on the content `code` of the file `init.lua`: the tokens printed. Every
token printed starts at a position of its own, so `code.size() + 1` iterations of the loop are
enough. -/
def main (code : List Char) : Option (List Token) :=
  main_loop (code.length + 1) ⟨code, 0, 1, 1⟩

end Task2

/-! ## The fraction evaluator of `Task1/analysator.c`

Conventions of the embedding.

* A pointer into the input (`const char *p`) is the list of the characters from `p` on; `*p`
  is its first character, or the terminator at the end (`deref`).
* An `int` is an `Int`; every `int` multiplication, addition, division and negation result is
  wrapped into the 32-bit two's-complement range by `wrap32`.
* `exit(1)`, a trap of the integer division (a division by zero, or `INT_MIN` divided by `-1`)
  and the exhaustion of the bound that the embedding gives to a loop are the three ways of
  ending without a result (`Stop`).
* The array `tokens` is the list of its elements, a token is the list of its characters.
-/

/-- The constant `INT_MIN` of `limits.h` (32-bit `int`). -/
def INT_MIN : Int := -2147483648

/-- Two's-complement wrapping of an integer into the range of `int`. -/
def wrap32 (x : Int) : Int := (x + 2147483648) % 4294967296 - 2147483648

/-- The C expression `*p` for a pointer `p` into a string. -/
def deref (p : List Char) : Char := p.headD NUL

namespace Analysator

/-- The structure `Fraction`. -/
structure Fraction where
  numerator : Int
  denominator : Int
  deriving DecidableEq, Repr

/-- The structure `Tokenizer`. -/
structure Tokenizer where
  tokens : List (List Char)
  count : Nat
  pos : Nat
  deriving DecidableEq, Repr

/-- The ways of ending without a result:
* `unknown_char`: `exit(1)` of `tokenize`, "Неизвестный символ: %c";
* `expected`: `exit(1)` of `consume`, "Ошибка: ожидалось '%s', получено '%s'";
* `expected_number`: `exit(1)` of `parse_number`, "Ошибка: ожидалось число, получено '%s'";
* `zero_denominator`: `exit(1)` of `parse_T`, "Ошибка: деление на ноль";
* `division_fault`: a trap of the division (the signal SIGFPE) in `simplify_fraction`: a
  division by zero, or `INT_MIN` divided by `-1`;
* `out_of_fuel`: the bound given to a loop by the embedding is exhausted. -/
inductive Stop
  | unknown_char (c : Char)
  | expected (expected : List Char) (found : Option (List Char))
  | expected_number (found : Option (List Char))
  | zero_denominator
  | division_fault
  | out_of_fuel
  deriving DecidableEq, Repr

/-- The function `add_fractions`. -/
def add_fractions (a b : Fraction) : Fraction :=
  { numerator := wrap32 (wrap32 (a.numerator * b.denominator)
      + wrap32 (b.numerator * a.denominator)),
    denominator := wrap32 (a.denominator * b.denominator) }

/-- The function `gcd`: its loop is the loop of `compute_gcd`, on `int`. -/
def gcd (a b : Int) : Int := compute_gcd_loop (b.natAbs + 1) a b

/-- Modelled from the spec: the library function `abs` of `stdlib.h`, which is not part of the
repository; on `INT_MIN`, whose absolute value is not representable, the result wraps. -/
def abs (x : Int) : Int := wrap32 (x.natAbs : Int)

/-- Whether a call of `gcd` is ended by the trap of `INT_MIN % -1`. -/
def gcd_traps (a b : Int) : Bool := gcd_traps_loop INT_MIN (b.natAbs + 1) a b

/-- The function `simplify_fraction`. It is ended by a trap when `gcd` meets `INT_MIN % -1`,
when `common_divisor` is zero, and when `INT_MIN` is divided by a `common_divisor` of `-1`. -/
def simplify_fraction (f : Fraction) : Except Stop Fraction :=
  let common_divisor := gcd (abs f.numerator) (abs f.denominator)
  if gcd_traps (abs f.numerator) (abs f.denominator) = true ∨ common_divisor = 0 ∨
      ((f.numerator = INT_MIN ∨ f.denominator = INT_MIN) ∧ common_divisor = -1) then
    .error Stop.division_fault
  else
    let f : Fraction := { numerator := wrap32 (f.numerator.tdiv common_divisor),
                          denominator := wrap32 (f.denominator.tdiv common_divisor) }
    if f.denominator < 0 then
      .ok { numerator := wrap32 (f.numerator * -1), denominator := wrap32 (f.denominator * -1) }
    else .ok f

/-- The test `isdigit(*p) || (*p == '-' && isdigit(*(p+1)))` of `tokenize`. -/
def starts_number (p : List Char) : Bool :=
  isdigit (deref p) || (deref p == '-' && isdigit (deref (p.drop 1)))

/-- The statements `if (*p == '-') p++; while (isdigit(*p)) p++;` of `tokenize`. -/
def skip_number (p : List Char) : List Char :=
  (if deref p = '-' then p.drop 1 else p).dropWhile isdigit

/-- The first loop of `tokenize`, which counts the tokens; the first argument bounds the number
of iterations. -/
def count_loop : Nat → List Char → Nat → Except Stop Nat
  | 0, p, count => if deref p = NUL then .ok count else .error Stop.out_of_fuel
  | fuel + 1, p, count =>
    if deref p = NUL then .ok count
    else
      let p := p.dropWhile isspace
      if deref p = NUL then .ok count
      else if deref p = '+' ∨ deref p = '/' then count_loop fuel (p.drop 1) (count + 1)
      else if starts_number p = true then count_loop fuel (skip_number p) (count + 1)
      else .error (Stop.unknown_char (deref p))

/-- The second loop of `tokenize`, which fills the array `tokens`; the first argument bounds
the number of iterations. -/
def fill_loop : Nat → List Char → List (List Char) → Except Stop (List (List Char))
  | 0, p, tokens => if deref p = NUL then .ok tokens else .error Stop.out_of_fuel
  | fuel + 1, p, tokens =>
    if deref p = NUL then .ok tokens
    else
      let p := p.dropWhile isspace
      if deref p = NUL then .ok tokens
      else
        let start := p
        let p := if deref p = '+' ∨ deref p = '/' then p.drop 1
                 else if starts_number p = true then skip_number p
                 else p
        let len := start.length - p.length
        fill_loop fuel p (tokens ++ [start.take len])

/-- The function `tokenize`. Every iteration of its loops consumes a character, so the length
of the input bounds their number. -/
def tokenize (input : List Char) : Except Stop Tokenizer :=
  match count_loop input.length input 0 with
  | .error e => .error e
  | .ok count =>
    match fill_loop input.length input [] with
    | .error e => .error e
    | .ok tokens => .ok { tokens := tokens, count := count, pos := 0 }

/-- The function `current_token`; `none` is `NULL`. -/
def current_token (t : Tokenizer) : Option (List Char) :=
  if t.pos < t.count then t.tokens.get? t.pos else none

/-- The function `consume`. -/
def consume (t : Tokenizer) (expected : List Char) : Except Stop Tokenizer :=
  match current_token t with
  | some token =>
    if token = expected then .ok { t with pos := t.pos + 1 }
    else .error (Stop.expected expected (some token))
  | none => .error (Stop.expected expected none)

/-- Modelled from the spec: the library function `atoi` of `stdlib.h`, which is not part of the
repository, on a token (digits, or `-` and digits): the value of the token; when the value is
not representable the behaviour is undefined, and the result here is that of the C library of
the platform, `(int) strtol(token, NULL, 10)`. -/
def atoi (token : List Char) : Int :=
  let v : Int := if deref token = '-' then -(decimal_value (token.drop 1) : Int)
                 else (decimal_value token : Int)
  wrap32 (max (-9223372036854775808) (min v 9223372036854775807))

/-- The function `parse_number`. -/
def parse_number (t : Tokenizer) : Except Stop (Fraction × Tokenizer) :=
  match current_token t with
  | some token =>
    if starts_number token = true then
      .ok ({ numerator := atoi token, denominator := 1 }, { t with pos := t.pos + 1 })
    else .error (Stop.expected_number (some token))
  | none => .error (Stop.expected_number none)

/-- The function `parse_T`. -/
def parse_T (t : Tokenizer) : Except Stop (Fraction × Tokenizer) :=
  match parse_number t with
  | .error e => .error e
  | .ok (numerator, t) =>
    match consume t ['/'] with
    | .error e => .error e
    | .ok t =>
      match parse_number t with
      | .error e => .error e
      | .ok (denominator, t) =>
        if denominator.numerator = 0 then .error Stop.zero_denominator
        else .ok ({ numerator := numerator.numerator, denominator := denominator.numerator }, t)

/-- The `while` loop of `parse_E`; the first argument bounds the number of iterations. -/
def parse_E_loop : Nat → Fraction → Tokenizer → Except Stop (Fraction × Tokenizer)
  | 0, result, t =>
    if current_token t = some ['+'] then .error Stop.out_of_fuel else .ok (result, t)
  | fuel + 1, result, t =>
    if current_token t = some ['+'] then
      match consume t ['+'] with
      | .error e => .error e
      | .ok t =>
        match parse_T t with
        | .error e => .error e
        | .ok (term, t) => parse_E_loop fuel (add_fractions result term) t
    else .ok (result, t)

/-- The function `parse_E`. Every iteration of the loop consumes a token, so the number of
tokens bounds the number of iterations. -/
def parse_E (t : Tokenizer) : Except Stop (Fraction × Tokenizer) :=
  match parse_T t with
  | .error e => .error e
  | .ok (result, t) => parse_E_loop t.count result t

/-- The function `parse_S`. -/
def parse_S (t : Tokenizer) : Except Stop (Fraction × Tokenizer) := parse_E t

/-- The statements of `main` after the input has been read: `tokenize`, `parse_S` and
`simplify_fraction`; the result is the fraction printed. -/
def evaluate (input : List Char) : Except Stop Fraction :=
  match tokenize input with
  | .error e => .error e
  | .ok tokenizer =>
    match parse_S tokenizer with
    | .error e => .error e
    | .ok (result, _) => simplify_fraction result

/-- The statements `fgets(input, sizeof(input), stdin)` and
`input[strcspn(input, "\n")] = '\0'` of `main`, on the characters `line` waiting on the
standard input: at most 99 characters are read, up to a newline. -/
def read_input (line : List Char) : List Char := (line.take 99).takeWhile (fun c => c != NEWLINE)

/-- The function `main` on the characters waiting on the standard input. -/
def main (line : List Char) : Except Stop Fraction := evaluate (read_input line)

end Analysator

/-- The decimal writing of an integer, with `-` in front of a negative one. -/
def int_text (n : Int) : List Char :=
  if n < 0 then '-' :: decimal n.natAbs else decimal n.natAbs

/-- The text `n/d` of a fraction. -/
def fraction_text (t : Int × Int) : List Char := int_text t.1 ++ '/' :: int_text t.2

/-- The text ` + n/d + ...` of the fractions that follow the first. -/
def expr_tail : List (Int × Int) → List Char
  | [] => []
  | t :: ts => ' ' :: '+' :: ' ' :: (fraction_text t ++ expr_tail ts)

/-- The text `n1/d1 + n2/d2 + ... + nk/dk` of an expression. -/
def expr_text (t : Int × Int) (ts : List (Int × Int)) : List Char :=
  fraction_text t ++ expr_tail ts

/-- The tokens of the text ` + n/d + ...`. -/
def expr_tail_tokens : List (Int × Int) → List (List Char)
  | [] => []
  | t :: ts => ['+'] :: int_text t.1 :: ['/'] :: int_text t.2 :: expr_tail_tokens ts

/-- The tokens of the text `n1/d1 + n2/d2 + ... + nk/dk`. -/
def expr_tokens (t : Int × Int) (ts : List (Int × Int)) : List (List Char) :=
  int_text t.1 :: ['/'] :: int_text t.2 :: expr_tail_tokens ts

/-- The value of an `int` expression fits in 32 bits. -/
def fits32 (x : Int) : Prop := INT_MIN ≤ x ∧ x ≤ (INT_MAX : Int)

/-- The unreduced sum that `add_fractions` accumulates, in exact arithmetic: from `a` and `n/d`
it makes `(a.1 * d + n * a.2) / (a.2 * d)`. -/
def exact_acc : Int × Int → List (Int × Int) → Int × Int
  | a, [] => a
  | a, t :: ts => exact_acc (a.1 * t.2 + t.1 * a.2, a.2 * t.2) ts

/-- Every cross product and every sum computed by `add_fractions` fits in 32 bits. -/
def acc_fits : Int × Int → List (Int × Int) → Prop
  | _, [] => True
  | a, t :: ts =>
    fits32 (a.1 * t.2) ∧ fits32 (t.1 * a.2) ∧ fits32 (a.1 * t.2 + t.1 * a.2) ∧
    fits32 (a.2 * t.2) ∧ acc_fits (a.1 * t.2 + t.1 * a.2, a.2 * t.2) ts

/-- The rational sum `n1/d1 + ... + nk/dk`. -/
def expr_sum (t : Int × Int) (ts : List (Int × Int)) : ℚ :=
  (t.1 : ℚ) / (t.2 : ℚ) + (ts.map (fun u => (u.1 : ℚ) / (u.2 : ℚ))).sum

/-! ## Theorems -/
/-! ### Characters and positions -/

theorem drop_cons_next {l : List Char} {i : Nat} {c : Char} {r : List Char}
    (h : l.drop i = c :: r) : l.drop (i + 1) = r := by
  have : l.drop (i + 1) = (l.drop i).drop 1 := by rw [List.drop_drop, Nat.add_comm]
  rw [this, h]; rfl

theorem drop_append_next {l : List Char} {i : Nat} {a b : List Char}
    (h : l.drop i = a ++ b) : l.drop (i + a.length) = b := by
  have : l.drop (i + a.length) = (l.drop i).drop a.length := by
    rw [List.drop_drop, Nat.add_comm]
  rw [this, h]; simp

theorem char_at_of_drop {l : List Char} {i : Nat} {c : Char} {r : List Char}
    (h : l.drop i = c :: r) : char_at l i = c := by
  simp [char_at, h]

theorem char_at_of_drop_nil {l : List Char} {i : Nat}
    (h : l.drop i = []) : char_at l i = NUL := by
  simp [char_at, h]

theorem isspace_ne_NUL {c : Char} (h : isspace c = true) : c ≠ NUL := by
  intro hc
  subst hc
  revert h
  decide

theorem isdigit_ne_NUL {c : Char} (h : isdigit c = true) : c ≠ NUL := by
  intro hc
  subst hc
  revert h
  decide

theorem isdigit_not_isspace {c : Char} (h : isdigit c = true) : isspace c = false := by
  simp only [isdigit, isspace, Bool.and_eq_true, decide_eq_true_eq] at *
  rcases h with ⟨h1, h2⟩
  simp
  omega

/-- The whitespace loop skips a run of whitespace that is followed by the end of the input or by
a character that is not whitespace. -/
theorem skip_whitespace_from_run (ws rest : List Char) (pos : Nat)
    (hws : ∀ c ∈ ws, isspace c = true) (hrest : ∀ c ∈ rest.head?, isspace c = false) :
    skip_whitespace_from (ws ++ rest) pos = pos + ws.length := by
  induction ws generalizing pos with
  | nil =>
    cases rest with
    | nil => simp [skip_whitespace_from]
    | cons c r =>
      have : isspace c = false := hrest c (by simp)
      simp [skip_whitespace_from, this]
  | cons w ws ih =>
    have hw : isspace w = true := hws w (by simp)
    have hw0 : w ≠ NUL := isspace_ne_NUL hw
    have := ih (pos + 1) (fun c hc => hws c (by simp [hc]))
    simp [skip_whitespace_from, hw, hw0, this]
    omega

/-! ### The digit loop of the lexer -/

theorem digits_value_append (v : Nat) (a b : List Char) :
    digits_value v (a ++ b) = digits_value (digits_value v a) b := by
  simp [digits_value, List.foldl_append]

theorem digits_value_cons (v : Nat) (c : Char) (s : List Char) :
    digits_value v (c :: s) = digits_value (v * 10 + (c.toNat - 48)) s := rfl

theorem digits_value_mono (s : List Char) {v w : Nat} (h : v ≤ w) :
    digits_value v s ≤ digits_value w s := by
  induction s generalizing v w with
  | nil => simpa [digits_value] using h
  | cons c s ih =>
    rw [digits_value_cons, digits_value_cons]
    exact ih (by omega)

theorem le_digits_value (s : List Char) (v : Nat) : v ≤ digits_value v s := by
  induction s generalizing v with
  | nil => simp [digits_value]
  | cons c s ih =>
    rw [digits_value_cons]
    exact le_trans (by omega) (ih _)

namespace LLAnalysator

open TokenType

/-- The value kept by the digit loop never exceeds `INT_MAX`. -/
theorem scan_digits_value_le (l : List Char) (v pos : Nat) (hv : v ≤ INT_MAX) :
    (scan_digits l v pos).2.1 ≤ INT_MAX := by
  induction l generalizing v pos with
  | nil => simpa [scan_digits] using hv
  | cons c cs ih =>
    unfold scan_digits
    by_cases hd : isdigit c = true
    · simp only [hd, if_true]
      by_cases hg : v > (INT_MAX - (c.toNat - 48)) / 10
      · simpa [hg] using hv
      · simp only [hg, if_false]
        apply ih
        simp only [isdigit, Bool.and_eq_true, decide_eq_true_eq] at hd
        simp only [INT_MAX] at hg ⊢
        omega
    · simpa [hd] using hv

/-- On a run of digits that is not followed by a digit, the digit loop returns the decimal
value of the run, unless that value exceeds `INT_MAX`, in which case the guard fires. -/
theorem scan_digits_run (ds rest : List Char) (v pos : Nat) (hv : v ≤ INT_MAX)
    (hds : ∀ c ∈ ds, isdigit c = true) (hrest : ∀ c ∈ rest.head?, isdigit c = false) :
    (digits_value v ds ≤ INT_MAX →
      scan_digits (ds ++ rest) v pos = (false, digits_value v ds, pos + ds.length)) ∧
    (INT_MAX < digits_value v ds → (scan_digits (ds ++ rest) v pos).1 = true) := by
  induction ds generalizing v pos with
  | nil =>
    cases rest with
    | nil => simpa [scan_digits, digits_value] using hv
    | cons c r =>
      have : isdigit c = false := hrest c (by simp)
      simpa [scan_digits, digits_value, this] using hv
  | cons d ds ih =>
    have hd : isdigit d = true := hds d (by simp)
    have hdig : d.toNat - 48 ≤ 9 := by
      simp only [isdigit, Bool.and_eq_true, decide_eq_true_eq] at hd
      omega
    rw [digits_value_cons]
    simp only [List.cons_append, scan_digits, hd, if_true, List.length_cons]
    by_cases hg : v > (INT_MAX - (d.toNat - 48)) / 10
    · have hbig : INT_MAX < v * 10 + (d.toNat - 48) := by
        simp only [INT_MAX] at hg ⊢
        omega
      have := le_digits_value ds (v * 10 + (d.toNat - 48))
      constructor
      · intro h
        omega
      · intro _
        simp [hg]
    · simp only [hg, if_false]
      have hv2 : v * 10 + (d.toNat - 48) ≤ INT_MAX := by
        simp only [INT_MAX] at hg ⊢
        omega
      have ih2 := ih (v * 10 + (d.toNat - 48)) (pos + 1) hv2 (fun c hc => hds c (by simp [hc]))
      constructor
      · intro h
        have := ih2.1 h
        simp only [List.append_eq] at this ⊢
        rw [this]
        congr 2
        omega
      · intro h
        exact ih2.2 h

end LLAnalysator

/-! ### The loop of `compute_gcd` terminates -/

theorem natAbs_tmod_lt (a b : Int) (hb : b ≠ 0) : (a.tmod b).natAbs < b.natAbs := by
  have h : (a.tmod b).natAbs = a.natAbs % b.natAbs := by
    cases a <;> cases b <;> simp [Int.tmod, Int.natAbs_neg] <;> rfl
  rw [h]
  exact Nat.mod_lt _ (Int.natAbs_pos.mpr hb)

theorem compute_gcd_loop_fuel (f1 : Nat) :
    ∀ (f2 : Nat) (a b : Int), b.natAbs < f1 → b.natAbs < f2 →
      compute_gcd_loop f1 a b = compute_gcd_loop f2 a b := by
  induction f1 with
  | zero => intro f2 a b h1 _; omega
  | succ k ih =>
    intro f2 a b h1 h2
    cases f2 with
    | zero => omega
    | succ m =>
      unfold compute_gcd_loop
      by_cases hb : b = 0
      · simp [hb]
      · simp only [hb, if_false]
        have := natAbs_tmod_lt a b hb
        exact ih m b (a.tmod b) (by omega) (by omega)

/-- The bound on the iterations in `compute_gcd` is never reached: the function satisfies the
equation of the `while` loop of the source. -/
theorem compute_gcd_unfold (a b : Int) :
    compute_gcd a b = if b = 0 then a else compute_gcd b (a.tmod b) := by
  unfold compute_gcd
  by_cases hb : b = 0
  · simp [hb, compute_gcd_loop]
  · simp only [hb, if_false]
    rw [compute_gcd_loop]
    simp only [hb, if_false]
    have := natAbs_tmod_lt a b hb
    exact compute_gcd_loop_fuel _ _ _ _ (by omega) (by omega)

namespace LLAnalysator

open TokenType

theorem isdigit_not_symbol {c : Char} (h : isdigit c = true) :
    c ≠ NUL ∧ c ≠ '+' ∧ c ≠ '/' ∧ c ≠ '(' ∧ c ≠ ')' ∧ c ≠ '*' := by
  refine ⟨?_, ?_, ?_, ?_, ?_, ?_⟩ <;> (rintro rfl; revert h; decide)

/-- The whitespace skipped by `skip_whitespace` when the input at the cursor is the run `ws`
followed by `rest`. -/
theorem skip_whitespace_run (p : Parser) (ws rest : List Char)
    (h : p.input.drop p.pos = ws ++ rest)
    (hws : ∀ c ∈ ws, isspace c = true) (hrest : ∀ c ∈ rest.head?, isspace c = false) :
    skip_whitespace p = { p with pos := p.pos + ws.length } := by
  unfold skip_whitespace
  rw [h, skip_whitespace_from_run ws rest p.pos hws hrest]

/-- The lexer on a token that starts with a digit and is not recognised as `TOK_1`: the digit
loop decides. -/
theorem get_next_token_digit (p : Parser) (ws : List Char) (d : Char) (rest : List Char)
    (h : p.input.drop p.pos = ws ++ d :: rest)
    (hws : ∀ c ∈ ws, isspace c = true) (hd : isdigit d = true)
    (hone : ¬ (d = '1' ∧
      (char_at p.input (p.pos + ws.length + 1) = '/' ∨ p.pos + ws.length = 0))) :
    get_next_token p =
      (match scan_digits (d :: rest) 0 (p.pos + ws.length) with
       | (true, value, pos) =>
         (⟨TOK_DIGIT, value, p.pos + ws.length⟩,
          { p with pos := pos, error_msg := some (Msg.number_overflow (p.pos + ws.length)),
                   has_error := true })
       | (false, value, pos) =>
         if d = '0' ∧ value ≠ 0 then
           (⟨TOK_DIGIT, value, p.pos + ws.length⟩,
            { p with pos := pos, error_msg := some (Msg.leading_zero (p.pos + ws.length)),
                     has_error := true })
         else (⟨TOK_DIGIT, value, p.pos + ws.length⟩, { p with pos := pos })) := by
  have hsk := skip_whitespace_run p ws (d :: rest) h hws
    (by intro c hc; simp at hc; subst hc; exact isdigit_not_isspace hd)
  have hdrop : p.input.drop (p.pos + ws.length) = d :: rest := drop_append_next h
  have hc : char_at p.input (p.pos + ws.length) = d := char_at_of_drop hdrop
  obtain ⟨h0, h1, h2, h3, h4, h5⟩ := isdigit_not_symbol hd
  unfold get_next_token
  simp only [hsk, hc, hdrop, h0, h1, h2, h3, h4, h5, hd, hone, if_false, if_true]

end LLAnalysator

/-! ### Decimal writing -/

theorem digitChar_isdigit {d : Nat} (h : d < 10) : isdigit (Nat.digitChar d) = true := by
  interval_cases d <;> rfl

theorem digitChar_toNat {d : Nat} (h : d < 10) : (Nat.digitChar d).toNat - 48 = d := by
  interval_cases d <;> rfl

theorem digitChar_ne_zero {d : Nat} (h : d < 10) (h0 : d ≠ 0) : Nat.digitChar d ≠ '0' := by
  interval_cases d <;> first | exact absurd rfl h0 | decide

theorem toDigitsCore_isdigit (fuel n : Nat) (acc : List Char)
    (hacc : ∀ c ∈ acc, isdigit c = true) :
    ∀ c ∈ Nat.toDigitsCore 10 fuel n acc, isdigit c = true := by
  induction fuel generalizing n acc with
  | zero => simpa [Nat.toDigitsCore] using hacc
  | succ f ih =>
    have hd : isdigit (Nat.digitChar (n % 10)) = true := digitChar_isdigit (Nat.mod_lt _ (by omega))
    have hacc2 : ∀ c ∈ Nat.digitChar (n % 10) :: acc, isdigit c = true := by
      intro c hc
      rcases List.mem_cons.mp hc with rfl | hc
      · exact hd
      · exact hacc c hc
    simp only [Nat.toDigitsCore]
    split
    · exact hacc2
    · exact ih _ _ hacc2

theorem toDigitsCore_append (fuel n : Nat) (acc : List Char) :
    Nat.toDigitsCore 10 fuel n acc = Nat.toDigitsCore 10 fuel n [] ++ acc := by
  induction fuel generalizing n acc with
  | zero => simp [Nat.toDigitsCore]
  | succ f ih =>
    simp only [Nat.toDigitsCore]
    split
    · simp
    · rw [ih (n / 10) (Nat.digitChar (n % 10) :: acc), ih (n / 10) [Nat.digitChar (n % 10)]]
      simp

theorem toDigitsCore_value (fuel n : Nat) (h : n < fuel) :
    digits_value 0 (Nat.toDigitsCore 10 fuel n []) = n := by
  induction fuel generalizing n with
  | zero => omega
  | succ f ih =>
    have hd := digitChar_toNat (Nat.mod_lt n (by omega : 10 > 0))
    simp only [Nat.toDigitsCore]
    split
    · rename_i h0
      simp only [digits_value, List.foldl_cons, List.foldl_nil, hd]
      omega
    · rename_i h0
      rw [toDigitsCore_append, digits_value_append, ih (n / 10) (by omega)]
      simp only [digits_value, List.foldl_cons, List.foldl_nil, hd]
      omega

theorem toDigitsCore_head (fuel n : Nat) (acc : List Char) (h : n < fuel) (h1 : 1 ≤ n) :
    ∃ c r, Nat.toDigitsCore 10 fuel n acc = c :: r ∧ c ≠ '0' := by
  induction fuel generalizing n acc with
  | zero => omega
  | succ f ih =>
    simp only [Nat.toDigitsCore]
    split
    · rename_i h0
      refine ⟨_, _, rfl, ?_⟩
      apply digitChar_ne_zero (Nat.mod_lt n (by omega : 10 > 0))
      omega
    · rename_i h0
      exact ih (n / 10) _ (by omega) (by omega)

/-- The decimal writing consists of digits. -/
theorem decimal_isdigit (n : Nat) : ∀ c ∈ decimal n, isdigit c = true :=
  toDigitsCore_isdigit _ _ _ (by simp)

/-- The decimal writing of `n` has the value `n`. -/
theorem decimal_value_decimal (n : Nat) : decimal_value (decimal n) = n :=
  toDigitsCore_value _ _ (by omega)

/-- The decimal writing of a positive number is not empty and does not start with `0`. -/
theorem decimal_head (n : Nat) (h : 1 ≤ n) : ∃ c r, decimal n = c :: r ∧ c ≠ '0' :=
  toDigitsCore_head _ _ _ (by omega) h

namespace LLAnalysator

open TokenType

/-! ### The lexer, token by token -/

/-- The lexer at the end of the input, after whitespace. -/
theorem get_next_token_end (p : Parser) (ws rest : List Char)
    (h : p.input.drop p.pos = ws ++ rest)
    (hws : ∀ c ∈ ws, isspace c = true) (hrest : ∀ c ∈ rest.head?, c = NUL) :
    get_next_token p = (⟨TOK_END, 0, p.pos + ws.length⟩, { p with pos := p.pos + ws.length }) := by
  have hsk := skip_whitespace_run p ws rest h hws
    (by intro c hc; rw [hrest c hc]; rfl)
  have hdrop : p.input.drop (p.pos + ws.length) = rest := drop_append_next h
  have hc : char_at p.input (p.pos + ws.length) = NUL := by
    cases rest with
    | nil => exact char_at_of_drop_nil hdrop
    | cons c r =>
      rw [char_at_of_drop hdrop]
      exact hrest c (by simp)
  unfold get_next_token
  simp only [hsk, hc, if_true]

/-- The lexer on one of the five punctuation characters, after whitespace. -/
theorem get_next_token_symbol (p : Parser) (ws : List Char) (c : Char) (rest : List Char)
    (ty : TokenType)
    (h : p.input.drop p.pos = ws ++ c :: rest)
    (hws : ∀ c ∈ ws, isspace c = true)
    (hc : (c = '+' ∧ ty = TOK_PLUS) ∨ (c = '/' ∧ ty = TOK_SLASH) ∨ (c = '(' ∧ ty = TOK_LPAREN) ∨
      (c = ')' ∧ ty = TOK_RPAREN) ∨ (c = '*' ∧ ty = TOK_MUL)) :
    get_next_token p =
      (⟨ty, 0, p.pos + ws.length⟩, { p with pos := p.pos + ws.length + 1 }) := by
  have hsp : isspace c = false := by
    rcases hc with ⟨rfl, _⟩ | ⟨rfl, _⟩ | ⟨rfl, _⟩ | ⟨rfl, _⟩ | ⟨rfl, _⟩ <;> rfl
  have hsk := skip_whitespace_run p ws (c :: rest) h hws
    (by intro c' hc'; simp at hc'; subst hc'; exact hsp)
  have hdrop : p.input.drop (p.pos + ws.length) = c :: rest := drop_append_next h
  have hch : char_at p.input (p.pos + ws.length) = c := char_at_of_drop hdrop
  unfold get_next_token
  simp only [hsk, hch]
  rcases hc with ⟨rfl, rfl⟩ | ⟨rfl, rfl⟩ | ⟨rfl, rfl⟩ | ⟨rfl, rfl⟩ | ⟨rfl, rfl⟩ <;>
    simp [NUL]

/-- The lexer on a `1` that is directly followed by `/`, after whitespace. -/
theorem get_next_token_one_slash (p : Parser) (ws rest : List Char)
    (h : p.input.drop p.pos = ws ++ '1' :: '/' :: rest)
    (hws : ∀ c ∈ ws, isspace c = true) :
    get_next_token p =
      (⟨TOK_1, 0, p.pos + ws.length⟩, { p with pos := p.pos + ws.length + 1 }) := by
  have hsk := skip_whitespace_run p ws ('1' :: '/' :: rest) h hws
    (by intro c' hc'; simp at hc'; subst hc'; rfl)
  have hdrop : p.input.drop (p.pos + ws.length) = '1' :: '/' :: rest := drop_append_next h
  have hch : char_at p.input (p.pos + ws.length) = '1' := char_at_of_drop hdrop
  have hch2 : char_at p.input (p.pos + ws.length + 1) = '/' :=
    char_at_of_drop (drop_cons_next hdrop)
  unfold get_next_token
  simp [hsk, hch, hch2, NUL]

/-- The lexer on a `1` that is the first character of the input. -/
theorem get_next_token_one_start (p : Parser) (rest : List Char)
    (h : p.input.drop p.pos = '1' :: rest) (hpos : p.pos = 0) :
    get_next_token p = (⟨TOK_1, 0, 0⟩, { p with pos := 1 }) := by
  have hsk := skip_whitespace_run p [] ('1' :: rest) h (by simp)
    (by intro c' hc'; simp at hc'; subst hc'; rfl)
  have hch : char_at p.input 0 = '1' := by
    rw [← hpos]
    exact char_at_of_drop h
  have hne : ('1' : Char) ≠ NUL := by decide
  simp only [List.length_nil, Nat.add_zero] at hsk
  unfold get_next_token
  rw [hsk]
  simp only [hpos, hch, hne, if_false, or_true, and_self, if_true]

/-- The lexer on a digit run without leading zero, of value at most `INT_MAX`, that is not
at the start of the input and is followed by a character that is neither a digit nor `/`. -/
theorem get_next_token_run (p : Parser) (ws ds rest : List Char)
    (h : p.input.drop p.pos = ws ++ (ds ++ rest))
    (hws : ∀ c ∈ ws, isspace c = true)
    (hds : ∀ c ∈ ds, isdigit c = true)
    (hhead : ∃ c r, ds = c :: r ∧ c ≠ '0')
    (hrest : ∀ c ∈ rest.head?, isdigit c = false ∧ c ≠ '/')
    (hval : decimal_value ds ≤ INT_MAX)
    (hpos : p.pos + ws.length ≠ 0) :
    get_next_token p =
      (⟨TOK_DIGIT, decimal_value ds, p.pos + ws.length⟩,
       { p with pos := p.pos + ws.length + ds.length }) := by
  obtain ⟨d, r, rfl, hd0⟩ := hhead
  have hd : isdigit d = true := hds d (by simp)
  have h' : p.input.drop p.pos = ws ++ d :: (r ++ rest) := by simpa using h
  have hdrop : p.input.drop (p.pos + ws.length) = d :: (r ++ rest) := drop_append_next h'
  have hnext : char_at p.input (p.pos + ws.length + 1) ≠ '/' := by
    have h2 : p.input.drop (p.pos + ws.length + 1) = r ++ rest := drop_cons_next hdrop
    cases r with
    | nil =>
      cases rest with
      | nil =>
        rw [char_at_of_drop_nil (by simpa using h2)]
        decide
      | cons c rest' =>
        rw [char_at_of_drop (by simpa using h2)]
        exact (hrest c (by simp)).2
    | cons c r' =>
      rw [char_at_of_drop (by simpa using h2)]
      have : isdigit c = true := hds c (by simp)
      exact (isdigit_not_symbol this).2.2.1
  have hg := get_next_token_digit p ws d (r ++ rest) h' hws hd
    (by rintro ⟨_, h1 | h1⟩
        · exact hnext h1
        · exact hpos h1)
  have hrun := (scan_digits_run (d :: r) rest 0 (p.pos + ws.length) (by simp [INT_MAX]) hds
    (fun c hc => (hrest c hc).1)).1 hval
  simp only [List.cons_append] at hrun
  rw [hrun] at hg
  simp only [hd0, false_and, if_false] at hg
  rw [hg]
  rfl

end LLAnalysator

namespace LLAnalysator

open TokenType

/-! ### One term of the canonical text -/

theorem match_ok (p : Parser) (ty : TokenType) (h : p.lookahead.type = ty)
    (herr : p.has_error = false) (hend : ty ≠ TOK_END) :
    (match_ p ty).2 = { (get_next_token p).2 with lookahead := (get_next_token p).1 } := by
  subst h
  simp [match_, advance, herr, hend]

/-- The function `parse_F` on the text `1/(a*b)` whose `1` is the lookahead, for two numbers
between 1 and `INT_MAX`: the parser is left as by `advance` after the closing parenthesis, with
the product-overflow diagnostic when `a*b` exceeds `INT_MAX` and with the two numbers stored
otherwise. -/
theorem parse_F_term_general (input : List Char) (pos tokpos : Nat) (em : Option Msg)
    (sn sd : Int) (ca cb a b : Nat) (R : List Char)
    (h : input.drop pos = '/' :: '(' :: (decimal a ++ '*' :: (decimal b ++ ')' :: R)))
    (ha : 1 ≤ a) (hb : 1 ≤ b) (ha' : a ≤ INT_MAX) (hb' : b ≤ INT_MAX) :
    parse_F ⟨input, pos, ⟨TOK_1, 0, tokpos⟩, false, em, sn, sd, ca, cb⟩ =
      if a * b > INT_MAX then
        { advance ⟨input, pos + 2 + (decimal a).length + 1 + (decimal b).length + 1,
            ⟨TOK_RPAREN, 0, pos + 2 + (decimal a).length + 1 + (decimal b).length⟩,
            false, em, sn, sd, ca, cb⟩ with
          error_msg := some (Msg.product_overflow a b
            (advance ⟨input, pos + 2 + (decimal a).length + 1 + (decimal b).length + 1,
              ⟨TOK_RPAREN, 0, pos + 2 + (decimal a).length + 1 + (decimal b).length⟩,
              false, em, sn, sd, ca, cb⟩).lookahead.pos),
          has_error := true }
      else
        { advance ⟨input, pos + 2 + (decimal a).length + 1 + (decimal b).length + 1,
            ⟨TOK_RPAREN, 0, pos + 2 + (decimal a).length + 1 + (decimal b).length⟩,
            false, em, sn, sd, ca, cb⟩ with current_a := a, current_b := b } := by
  -- the tokens, one after the other
  have h1 := get_next_token_symbol ⟨input, pos, ⟨TOK_1, 0, tokpos⟩, false, em, sn, sd, ca, cb⟩
    [] '/' _ TOK_SLASH h (by simp) (by simp)
  have d1 : input.drop (pos + 1) = '(' :: (decimal a ++ '*' :: (decimal b ++ ')' :: R)) :=
    drop_cons_next h
  have h2 := get_next_token_symbol
    ⟨input, pos + 1, ⟨TOK_SLASH, 0, pos⟩, false, em, sn, sd, ca, cb⟩
    [] '(' _ TOK_LPAREN d1 (by simp) (by simp)
  have d2 : input.drop (pos + 2) = decimal a ++ '*' :: (decimal b ++ ')' :: R) :=
    drop_cons_next d1
  have h3 := get_next_token_run
    ⟨input, pos + 2, ⟨TOK_LPAREN, 0, pos + 1⟩, false, em, sn, sd, ca, cb⟩
    [] (decimal a) _ d2 (by simp) (decimal_isdigit a) (decimal_head a ha)
    (by intro c hc; simp at hc; subst hc; exact ⟨rfl, by decide⟩)
    (by rw [decimal_value_decimal]; exact ha') (by simp)
  have d3 : input.drop (pos + 2 + (decimal a).length) = '*' :: (decimal b ++ ')' :: R) :=
    drop_append_next d2
  have h4 := get_next_token_symbol
    ⟨input, pos + 2 + (decimal a).length, ⟨TOK_DIGIT, a, pos + 2⟩, false, em, sn, sd, ca, cb⟩
    [] '*' _ TOK_MUL d3 (by simp) (by simp)
  have d4 : input.drop (pos + 2 + (decimal a).length + 1) = decimal b ++ ')' :: R :=
    drop_cons_next d3
  have h5 := get_next_token_run
    ⟨input, pos + 2 + (decimal a).length + 1, ⟨TOK_MUL, 0, pos + 2 + (decimal a).length⟩,
      false, em, sn, sd, ca, cb⟩
    [] (decimal b) _ d4 (by simp) (decimal_isdigit b) (decimal_head b hb)
    (by intro c hc; simp at hc; subst hc; exact ⟨rfl, by decide⟩)
    (by rw [decimal_value_decimal]; exact hb') (by simp)
  have d5 : input.drop (pos + 2 + (decimal a).length + 1 + (decimal b).length) = ')' :: R :=
    drop_append_next d4
  have h6 := get_next_token_symbol
    ⟨input, pos + 2 + (decimal a).length + 1 + (decimal b).length,
      ⟨TOK_DIGIT, b, pos + 2 + (decimal a).length + 1⟩, false, em, sn, sd, ca, cb⟩
    [] ')' _ TOK_RPAREN d5 (by simp) (by simp)
  simp only [List.length_nil, Nat.add_zero, decimal_value_decimal] at h1 h2 h3 h4 h5 h6
  have ha0 : ¬ (a < 1) := by omega
  have hb0 : ¬ (b < 1) := by omega
  by_cases hab : a * b > INT_MAX
  · simp [parse_F, match_, advance, parse_N, h1, h2, h3, h4, h5, h6, ha0, hb0, hab]
  · simp [parse_F, match_, advance, parse_N, h1, h2, h3, h4, h5, h6, ha0, hb0, hab]

/-- The function `parse_F` on the text `1/(a*b)` whose `1` is the lookahead: the two numbers are
stored and the parser is left as by `advance` after the closing parenthesis. -/
theorem parse_F_term (input : List Char) (pos tokpos : Nat) (em : Option Msg) (sn sd : Int)
    (ca cb a b : Nat) (R : List Char)
    (h : input.drop pos = '/' :: '(' :: (decimal a ++ '*' :: (decimal b ++ ')' :: R)))
    (ha : 1 ≤ a) (hb : 1 ≤ b) (hab : a * b ≤ INT_MAX) :
    parse_F ⟨input, pos, ⟨TOK_1, 0, tokpos⟩, false, em, sn, sd, ca, cb⟩ =
      { advance ⟨input, pos + 2 + (decimal a).length + 1 + (decimal b).length + 1,
          ⟨TOK_RPAREN, 0, pos + 2 + (decimal a).length + 1 + (decimal b).length⟩,
          false, em, sn, sd, ca, cb⟩ with current_a := a, current_b := b } := by
  have ha' : a ≤ INT_MAX := le_trans (Nat.le_mul_of_pos_right a (by omega)) hab
  have hb' : b ≤ INT_MAX := le_trans (Nat.le_mul_of_pos_left b (by omega)) hab
  rw [parse_F_term_general input pos tokpos em sn sd ca cb a b R h ha hb ha' hb']
  rw [if_neg (by omega)]

end LLAnalysator

/-! ### Arithmetic of the accumulator -/

theorem wrap64_of_range {x : Int} (h1 : -9223372036854775808 ≤ x) (h2 : x ≤ 9223372036854775807) :
    wrap64 x = x := by
  unfold wrap64
  omega

theorem compute_gcd_loop_natCast (fuel a b : Nat) (h : b < fuel) :
    compute_gcd_loop fuel (a : Int) (b : Int) = ((Nat.gcd a b : Nat) : Int) := by
  induction fuel generalizing a b with
  | zero => omega
  | succ f ih =>
    unfold compute_gcd_loop
    by_cases hb : b = 0
    · subst hb
      simp
    · have hb' : (b : Int) ≠ 0 := by exact_mod_cast hb
      simp only [hb', if_false]
      rw [← Int.ofNat_tmod, ih b (a % b) (by have := Nat.mod_lt a (Nat.pos_of_ne_zero hb); omega)]
      congr 1
      rw [Nat.gcd_comm b (a % b), ← Nat.gcd_rec b a, Nat.gcd_comm]

/-- On non-negative arguments `compute_gcd` is the greatest common divisor. -/
theorem compute_gcd_natCast (a b : Nat) : compute_gcd (a : Int) (b : Int) = ((Nat.gcd a b : Nat) : Int) := by
  unfold compute_gcd
  apply compute_gcd_loop_natCast
  simp

/-- One addition of a term `1/D` to the accumulator `n/d`, as both parsers compute it (`den` is
the 64-bit value of `D`), when the two cross products fit in 64 bits: the divisor is not zero
and the result is the exact sum in lowest terms. -/
theorem accumulate_exact (n d D : Nat) (den : Int) (hden : den = (D : Int)) (hd : 0 < d)
    (hD : 0 < D)
    (h1 : n * D + d ≤ 9223372036854775807) (h2 : d * D ≤ 9223372036854775807) :
    compute_gcd (wrap64 (wrap64 ((n : Int) * den) + (d : Int))) (wrap64 ((d : Int) * den)) ≠ 0 ∧
    wrap64 ((wrap64 (wrap64 ((n : Int) * den) + (d : Int))).tdiv
        (compute_gcd (wrap64 (wrap64 ((n : Int) * den) + (d : Int))) (wrap64 ((d : Int) * den))))
      = (((lowest_terms (n * D + d) (d * D)).1 : Nat) : Int) ∧
    wrap64 ((wrap64 ((d : Int) * den)).tdiv
        (compute_gcd (wrap64 (wrap64 ((n : Int) * den) + (d : Int))) (wrap64 ((d : Int) * den))))
      = (((lowest_terms (n * D + d) (d * D)).2 : Nat) : Int) := by
  subst hden
  have hw : ∀ q : Nat, q ≤ 9223372036854775807 → wrap64 (q : Int) = (q : Int) := by
    intro q hq
    apply wrap64_of_range <;> omega
  have hnD : n * D ≤ 9223372036854775807 := le_trans (Nat.le_add_right _ _) h1
  have e1 : wrap64 ((n : Int) * (D : Int)) = ((n * D : Nat) : Int) := by
    rw [← Nat.cast_mul]
    exact hw _ hnD
  have e2 : wrap64 (((n * D : Nat) : Int) + (d : Int)) = ((n * D + d : Nat) : Int) := by
    rw [← Nat.cast_add]
    exact hw _ h1
  have e3 : wrap64 ((d : Int) * (D : Int)) = ((d * D : Nat) : Int) := by
    rw [← Nat.cast_mul]
    exact hw _ h2
  rw [e1, e2, e3, compute_gcd_natCast]
  have hg : 0 < Nat.gcd (n * D + d) (d * D) :=
    Nat.gcd_pos_of_pos_right _ (Nat.mul_pos hd hD)
  refine ⟨by exact_mod_cast hg.ne', ?_, ?_⟩
  · rw [← Int.ofNat_tdiv]
    exact hw _ (le_trans (Nat.div_le_self _ _) h1)
  · rw [← Int.ofNat_tdiv]
    exact hw _ (le_trans (Nat.div_le_self _ _) h2)

/-- The same addition, written as `parse_S_prime` of `LLAnalysator.c` writes it, with the
numerator `1` of the term multiplied in. -/
theorem accumulate_exact_ll (n d a b : Nat) (hd : 0 < d) (ha : 1 ≤ a) (hb : 1 ≤ b)
    (h1 : n * (a * b) + d ≤ 9223372036854775807) (h2 : d * (a * b) ≤ 9223372036854775807) :
    compute_gcd (wrap64 (wrap64 ((n : Int) * ((a : Int) * (b : Int))) + wrap64 (d : Int)))
        (wrap64 ((d : Int) * ((a : Int) * (b : Int)))) ≠ 0 ∧
    wrap64 ((wrap64 (wrap64 ((n : Int) * ((a : Int) * (b : Int))) + wrap64 (d : Int))).tdiv
        (compute_gcd (wrap64 (wrap64 ((n : Int) * ((a : Int) * (b : Int))) + wrap64 (d : Int)))
          (wrap64 ((d : Int) * ((a : Int) * (b : Int))))))
      = (((lowest_terms (n * (a * b) + d) (d * (a * b))).1 : Nat) : Int) ∧
    wrap64 ((wrap64 ((d : Int) * ((a : Int) * (b : Int)))).tdiv
        (compute_gcd (wrap64 (wrap64 ((n : Int) * ((a : Int) * (b : Int))) + wrap64 (d : Int)))
          (wrap64 ((d : Int) * ((a : Int) * (b : Int))))))
      = (((lowest_terms (n * (a * b) + d) (d * (a * b))).2 : Nat) : Int) := by
  have hD : 0 < a * b := Nat.mul_pos ha hb
  have hdd : wrap64 (d : Int) = (d : Int) := by
    apply wrap64_of_range
    · have : (0 : Int) ≤ (d : Int) := Int.natCast_nonneg d
      omega
    · have : d ≤ 9223372036854775807 := le_trans (Nat.le_mul_of_pos_right d hD) h2
      exact_mod_cast this
  rw [hdd]
  exact accumulate_exact n d (a * b) ((a : Int) * (b : Int)) (by push_cast; rfl) hd hD h1 h2

/-! ### The reduction step without trap -/

theorem gcd_traps_loop_natCast (min : Int) (fuel : Nat) :
    ∀ a b : Nat, gcd_traps_loop min fuel (a : Int) (b : Int) = false := by
  induction fuel with
  | zero =>
    intro a b
    rfl
  | succ f ih =>
    intro a b
    unfold gcd_traps_loop
    by_cases hb : b = 0
    · subst hb
      simp
    · have hb' : (b : Int) ≠ 0 := by exact_mod_cast hb
      have ha : ¬ ((a : Int) = min ∧ (b : Int) = -1) := by
        intro hc
        have : (0 : Int) ≤ (a : Int) := Int.natCast_nonneg a
        omega
      rw [if_neg hb', if_neg ha, ← Int.ofNat_tmod]
      exact ih b (a % b)

/-- On non-negative arguments that are not both zero the reduction step does not trap. -/
theorem reduction_traps_natCast (a b : Nat) (h : Nat.gcd a b ≠ 0) :
    ¬ reduction_traps (a : Int) (b : Int) := by
  unfold reduction_traps compute_gcd_traps
  rw [gcd_traps_loop_natCast LLONG_MIN, compute_gcd_natCast]
  rintro (h1 | h2 | ⟨_, h3⟩)
  · cases h1
  · exact h (by exact_mod_cast h2)
  · have : (0 : Int) ≤ ((Nat.gcd a b : Nat) : Int) := Int.natCast_nonneg _
    omega

/-- The addition of `accumulate_exact` does not trap. -/
theorem accumulate_no_trap (n d D : Nat) (den : Int) (hden : den = (D : Int)) (hd : 0 < d)
    (hD : 0 < D)
    (h1 : n * D + d ≤ 9223372036854775807) (h2 : d * D ≤ 9223372036854775807) :
    ¬ reduction_traps (wrap64 (wrap64 ((n : Int) * den) + (d : Int)))
      (wrap64 ((d : Int) * den)) := by
  subst hden
  have hw : ∀ q : Nat, q ≤ 9223372036854775807 → wrap64 (q : Int) = (q : Int) := by
    intro q hq
    apply wrap64_of_range <;> omega
  have hnD : n * D ≤ 9223372036854775807 := le_trans (Nat.le_add_right _ _) h1
  have e1 : wrap64 ((n : Int) * (D : Int)) = ((n * D : Nat) : Int) := by
    rw [← Nat.cast_mul]
    exact hw _ hnD
  have e2 : wrap64 (((n * D : Nat) : Int) + (d : Int)) = ((n * D + d : Nat) : Int) := by
    rw [← Nat.cast_add]
    exact hw _ h1
  have e3 : wrap64 ((d : Int) * (D : Int)) = ((d * D : Nat) : Int) := by
    rw [← Nat.cast_mul]
    exact hw _ h2
  rw [e1, e2, e3]
  exact reduction_traps_natCast _ _
    (Nat.gcd_pos_of_pos_right _ (Nat.mul_pos hd hD)).ne'

/-- The addition of `accumulate_exact_ll` does not trap. -/
theorem accumulate_no_trap_ll (n d a b : Nat) (hd : 0 < d) (ha : 1 ≤ a) (hb : 1 ≤ b)
    (h1 : n * (a * b) + d ≤ 9223372036854775807) (h2 : d * (a * b) ≤ 9223372036854775807) :
    ¬ reduction_traps
      (wrap64 (wrap64 ((n : Int) * ((a : Int) * (b : Int))) + wrap64 (d : Int)))
      (wrap64 ((d : Int) * ((a : Int) * (b : Int)))) := by
  have hD : 0 < a * b := Nat.mul_pos ha hb
  have hdd : wrap64 (d : Int) = (d : Int) := by
    apply wrap64_of_range
    · have : (0 : Int) ≤ (d : Int) := Int.natCast_nonneg d
      omega
    · have : d ≤ 9223372036854775807 := le_trans (Nat.le_mul_of_pos_right d hD) h2
      exact_mod_cast this
  rw [hdd]
  exact accumulate_no_trap n d (a * b) ((a : Int) * (b : Int)) (by push_cast; rfl) hd hD h1 h2

/-- The operation `LLONG_MIN % -1` of `compute_gcd` traps. -/
theorem compute_gcd_traps_min : compute_gcd_traps LLONG_MIN (-1) = true := rfl

theorem lowest_terms_spec (x y : Nat) (hx : 0 < x) (hy : 0 < y) :
    0 < (lowest_terms x y).1 ∧ 0 < (lowest_terms x y).2 ∧
    Nat.Coprime (lowest_terms x y).1 (lowest_terms x y).2 ∧
    (((lowest_terms x y).1 : ℚ) / ((lowest_terms x y).2 : ℚ) = (x : ℚ) / (y : ℚ)) := by
  have hg : 0 < Nat.gcd x y := Nat.gcd_pos_of_pos_left _ hx
  have hgx : Nat.gcd x y ∣ x := Nat.gcd_dvd_left x y
  have hgy : Nat.gcd x y ∣ y := Nat.gcd_dvd_right x y
  have hgq : ((Nat.gcd x y : Nat) : ℚ) ≠ 0 := by exact_mod_cast hg.ne'
  refine ⟨Nat.div_pos (Nat.le_of_dvd hx hgx) hg, Nat.div_pos (Nat.le_of_dvd hy hgy) hg,
    Nat.coprime_div_gcd_div_gcd hg, ?_⟩
  simp only [lowest_terms]
  rw [Nat.cast_div hgx hgq, Nat.cast_div hgy hgq]
  have hyq : (y : ℚ) ≠ 0 := by exact_mod_cast hy.ne'
  field_simp

/-- The accumulator `exact_sum_from acc ts` is the exact rational sum of `acc` and of the terms,
in lowest terms and with a positive denominator. -/
theorem exact_sum_from_spec (ts : List (Nat × Nat)) (acc : Nat × Nat)
    (hn : 0 < acc.1) (hd : 0 < acc.2) (hcop : Nat.Coprime acc.1 acc.2)
    (hts : ∀ t ∈ ts, 1 ≤ t.1 ∧ 1 ≤ t.2) :
    0 < (exact_sum_from acc ts).1 ∧ 0 < (exact_sum_from acc ts).2 ∧
    Nat.Coprime (exact_sum_from acc ts).1 (exact_sum_from acc ts).2 ∧
    (((exact_sum_from acc ts).1 : ℚ) / ((exact_sum_from acc ts).2 : ℚ)
      = (acc.1 : ℚ) / (acc.2 : ℚ) + terms_sum ts) := by
  induction ts generalizing acc with
  | nil => exact ⟨hn, hd, hcop, by simp [exact_sum_from, terms_sum]⟩
  | cons t ts ih =>
    obtain ⟨ht1, ht2⟩ := hts t (by simp)
    have hD : 0 < t.1 * t.2 := Nat.mul_pos ht1 ht2
    have hx : 0 < acc.1 * (t.1 * t.2) + acc.2 := by omega
    have hy : 0 < acc.2 * (t.1 * t.2) := Nat.mul_pos hd hD
    obtain ⟨l1, l2, l3, l4⟩ := lowest_terms_spec _ _ hx hy
    obtain ⟨r1, r2, r3, r4⟩ := ih _ l1 l2 l3 (fun t' ht' => hts t' (by simp [ht']))
    refine ⟨r1, r2, r3, ?_⟩
    simp only [exact_sum_from]
    rw [r4, l4]
    have hdq : (acc.2 : ℚ) ≠ 0 := by exact_mod_cast hd.ne'
    have h1q : (t.1 : ℚ) ≠ 0 := by exact_mod_cast (by omega : t.1 ≠ 0)
    have h2q : (t.2 : ℚ) ≠ 0 := by exact_mod_cast (by omega : t.2 ≠ 0)
    simp only [terms_sum, List.map_cons, List.sum_cons]
    push_cast
    field_simp
    ring

namespace LLAnalysator

open TokenType

theorem wrap64_natCast (q : Nat) (hq : q ≤ 9223372036854775807) : wrap64 (q : Int) = (q : Int) := by
  apply wrap64_of_range <;> omega

/-- The function `advance` in front of the canonical text of the remaining terms: the lookahead
becomes the end of the input, or the `+` of the next term. -/
theorem advance_tail (input : List Char) (e : Nat) (tok : Token) (em : Option Msg) (sn sd : Int)
    (ca cb : Nat) (ts : List (Nat × Nat)) (htok : tok.type ≠ TOK_END)
    (h : input.drop e = tail_text ts) :
    (ts = [] → advance ⟨input, e, tok, false, em, sn, sd, ca, cb⟩
        = ⟨input, e, ⟨TOK_END, 0, e⟩, false, em, sn, sd, ca, cb⟩) ∧
    (ts ≠ [] → advance ⟨input, e, tok, false, em, sn, sd, ca, cb⟩
        = ⟨input, e + 2, ⟨TOK_PLUS, 0, e + 1⟩, false, em, sn, sd, ca, cb⟩) := by
  constructor
  · intro hts
    subst hts
    have hg := get_next_token_end ⟨input, e, tok, false, em, sn, sd, ca, cb⟩ [] []
      (by simpa [tail_text] using h) (by simp) (by simp)
    simp [advance, htok, hg]
  · intro hts
    obtain ⟨t, ts', rfl⟩ := List.exists_cons_of_ne_nil hts
    have hg := get_next_token_symbol ⟨input, e, tok, false, em, sn, sd, ca, cb⟩ [' '] '+'
      _ TOK_PLUS (by simpa [tail_text, term_text] using h) (by simp; rfl) (by simp)
    simp [advance, htok, hg]

/-- The function `parse_S_prime` on the canonical text of the terms `ts`, with the accumulator
`n/d`, when no cross product exceeds `LLONG_MAX`: it returns, without error, at the end of the
input, with the exact sum in lowest terms. -/
theorem parse_S_prime_canonical (ts : List (Nat × Nat)) :
    ∀ (fuel : Nat) (input : List Char) (q : Nat) (p : Parser) (n d : Nat),
      p.input = input → p.has_error = false → input.drop q = tail_text ts →
      (ts = [] → p.lookahead.type = TOK_END) →
      (ts ≠ [] → p.lookahead.type = TOK_PLUS ∧ p.pos = q + 2) →
      p.sum_num = (n : Int) → p.sum_den = (d : Int) → 0 < d →
      (∀ t ∈ ts, 1 ≤ t.1 ∧ 1 ≤ t.2 ∧ t.1 * t.2 ≤ INT_MAX) →
      fits64 (n, d) ts = true → ts.length ≤ fuel →
      ∃ p', parse_S_prime fuel p = .ok p' ∧ p'.has_error = false ∧
        p'.lookahead.type = TOK_END ∧
        p'.sum_num = ((exact_sum_from (n, d) ts).1 : Int) ∧
        p'.sum_den = ((exact_sum_from (n, d) ts).2 : Int) := by
  induction ts with
  | nil =>
    intro fuel input q p n d _ herr _ hend _ hn hd _ _ _ _
    have hty : p.lookahead.type ≠ TOK_PLUS := by
      rw [hend rfl]
      decide
    refine ⟨p, ?_, herr, hend rfl, by simpa [exact_sum_from] using hn,
      by simpa [exact_sum_from] using hd⟩
    cases fuel <;> simp [parse_S_prime, hty]
  | cons t ts ih =>
    intro fuel input q p n d hin herr hdrop _ hplus hn hd hdpos hts hfit hfuel
    obtain ⟨a, b⟩ := t
    obtain ⟨hty, hpos⟩ := hplus (by simp)
    obtain ⟨ha, hb, hab⟩ := hts (a, b) (by simp)
    obtain ⟨f, rfl⟩ : ∃ f, fuel = f + 1 := ⟨fuel - 1, by simp at hfuel; omega⟩
    have hfuel' : ts.length ≤ f := by simp at hfuel; omega
    have hts' : ∀ t ∈ ts, 1 ≤ t.1 ∧ 1 ≤ t.2 ∧ t.1 * t.2 ≤ INT_MAX :=
      fun t' ht' => hts t' (by simp [ht'])
    obtain ⟨input', pos, ⟨ty, v, tp⟩, he, em, sn, sd, ca, cb⟩ := p
    simp only at hin herr hty hpos hn hd
    subst hin herr hty hpos hn hd
    -- the text of the term
    have hdrop' : input'.drop q = ' ' :: '+' :: ' ' :: '1' :: '/' :: '(' ::
        (decimal a ++ '*' :: (decimal b ++ ')' :: tail_text ts)) := by
      simpa [tail_text, term_text] using hdrop
    have d2 : input'.drop (q + 2) = ' ' :: '1' :: '/' :: '(' ::
        (decimal a ++ '*' :: (decimal b ++ ')' :: tail_text ts)) :=
      drop_cons_next (drop_cons_next hdrop')
    have d4 : input'.drop (q + 2 + 1 + 1) = '/' :: '(' ::
        (decimal a ++ '*' :: (decimal b ++ ')' :: tail_text ts)) :=
      drop_cons_next (drop_cons_next d2)
    have g1 := get_next_token_one_slash
      ⟨input', q + 2, ⟨TOK_PLUS, v, tp⟩, false, em, (n : Int), (d : Int), ca, cb⟩ [' '] _ d2
      (by simp; rfl)
    simp only [List.length_singleton] at g1
    have hF := parse_F_term input' (q + 2 + 1 + 1) (q + 2 + 1) em (n : Int) (d : Int) ca cb a b
      (tail_text ts) d4 ha hb hab
    have de : input'.drop (q + 2 + 1 + 1 + 2 + (decimal a).length + 1 + (decimal b).length + 1)
        = tail_text ts := by
      have := drop_cons_next (drop_append_next (drop_cons_next (drop_append_next
        (drop_cons_next (drop_cons_next d4)))))
      simpa [Nat.add_assoc] using this
    have hadv := advance_tail input'
      (q + 2 + 1 + 1 + 2 + (decimal a).length + 1 + (decimal b).length + 1)
      ⟨TOK_RPAREN, 0, q + 2 + 1 + 1 + 2 + (decimal a).length + 1 + (decimal b).length⟩
      em (n : Int) (d : Int) ca cb ts (by simp) de
    -- the arithmetic
    simp only [fits64, Bool.and_eq_true, decide_eq_true_eq] at hfit
    obtain ⟨⟨hf1, hf2⟩, hf3⟩ := hfit
    have hD : 0 < a * b := Nat.mul_pos ha hb
    have hwab : wrap64 ((a : Int) * (b : Int)) = (a : Int) * (b : Int) := by
      have := wrap64_natCast (a * b) (by simp only [INT_MAX] at hab; omega)
      rw [Nat.cast_mul] at this
      exact this
    obtain ⟨hg0, hnum', hden'⟩ := accumulate_exact_ll n d a b hdpos ha hb hf1 hf2
    have htr := accumulate_no_trap_ll n d a b hdpos ha hb hf1 hf2
    obtain ⟨_, l2, _, _⟩ := lowest_terms_spec (n * (a * b) + d) (d * (a * b))
      (Nat.add_pos_right _ hdpos) (Nat.mul_pos hdpos hD)
    by_cases hnil : ts = []
    · have hA := hadv.1 hnil
      rw [hA] at hF
      obtain ⟨p', h1, h2, h3, h4, h5⟩ := ih f input'
        (q + 2 + 1 + 1 + 2 + (decimal a).length + 1 + (decimal b).length + 1)
        ⟨input', q + 2 + 1 + 1 + 2 + (decimal a).length + 1 + (decimal b).length + 1,
          ⟨TOK_END, 0, q + 2 + 1 + 1 + 2 + (decimal a).length + 1 + (decimal b).length + 1⟩,
          false, em, ((lowest_terms (n * (a * b) + d) (d * (a * b))).1 : Int),
          ((lowest_terms (n * (a * b) + d) (d * (a * b))).2 : Int), a, b⟩
        _ _ rfl rfl de (fun _ => rfl) (fun h => absurd hnil h) rfl rfl l2
        hts' hf3 hfuel'
      refine ⟨p', ?_, h2, h3, h4, h5⟩
      rw [← h1]
      simp [parse_S_prime, match_, advance, g1, hF, hwab, htr, hnum', hden']
    · have hA := hadv.2 hnil
      rw [hA] at hF
      obtain ⟨p', h1, h2, h3, h4, h5⟩ := ih f input'
        (q + 2 + 1 + 1 + 2 + (decimal a).length + 1 + (decimal b).length + 1)
        ⟨input', q + 2 + 1 + 1 + 2 + (decimal a).length + 1 + (decimal b).length + 1 + 2,
          ⟨TOK_PLUS, 0, q + 2 + 1 + 1 + 2 + (decimal a).length + 1 + (decimal b).length + 1 + 1⟩,
          false, em, ((lowest_terms (n * (a * b) + d) (d * (a * b))).1 : Int),
          ((lowest_terms (n * (a * b) + d) (d * (a * b))).2 : Int), a, b⟩
        _ _ rfl rfl de (fun h => absurd h hnil) (fun _ => ⟨rfl, rfl⟩) rfl rfl l2
        hts' hf3 hfuel'
      refine ⟨p', ?_, h2, h3, h4, h5⟩
      rw [← h1]
      simp [parse_S_prime, match_, advance, g1, hF, hwab, htr, hnum', hden']

end LLAnalysator

/-! ### What the lexer has read -/

theorem split_run (P : Char → Bool) (l : List Char) :
    ∃ a b, l = a ++ b ∧ (∀ c ∈ a, P c = true) ∧ (∀ c ∈ b.head?, P c = false) := by
  induction l with
  | nil => exact ⟨[], [], rfl, by simp, by simp⟩
  | cons x l ih =>
    by_cases hx : P x = true
    · obtain ⟨a, b, rfl, ha, hb⟩ := ih
      refine ⟨x :: a, b, rfl, ?_, hb⟩
      intro c hc
      rcases List.mem_cons.mp hc with rfl | hc
      · exact hx
      · exact ha c hc
    · refine ⟨[], x :: l, rfl, by simp, ?_⟩
      intro c hc
      simp at hc
      subst hc
      simpa using hx

theorem mem_of_drop_eq {l : List Char} {i : Nat} {a : List Char} {c : Char} {r : List Char}
    (h : l.drop i = a ++ c :: r) : c ∈ l := by
  have : c ∈ l.drop i := by rw [h]; simp
  exact List.mem_of_mem_drop this

namespace LLAnalysator

open TokenType

/-- The lexer never changes anything but the cursor, `has_error` and `error_msg`. -/
theorem get_next_token_frame (p : Parser) :
    (get_next_token p).2.input = p.input ∧ (get_next_token p).2.lookahead = p.lookahead ∧
    (get_next_token p).2.sum_num = p.sum_num ∧ (get_next_token p).2.sum_den = p.sum_den ∧
    (get_next_token p).2.current_a = p.current_a ∧
    (get_next_token p).2.current_b = p.current_b := by
  unfold get_next_token skip_whitespace
  simp only
  split_ifs <;> first | exact ⟨rfl, rfl, rfl, rfl, rfl, rfl⟩ | skip
  split
  · exact ⟨rfl, rfl, rfl, rfl, rfl, rfl⟩
  · split_ifs <;> exact ⟨rfl, rfl, rfl, rfl, rfl, rfl⟩

/-- The lexer on a character that starts no token. -/
theorem get_next_token_unknown (p : Parser) (ws : List Char) (c : Char) (r : List Char)
    (h : p.input.drop p.pos = ws ++ c :: r) (hws : ∀ c ∈ ws, isspace c = true)
    (hc : isspace c = false) (hcN : c ≠ NUL)
    (hone : ¬ (c = '1' ∧
      (char_at p.input (p.pos + ws.length + 1) = '/' ∨ p.pos + ws.length = 0)))
    (s1 : c ≠ '+') (s2 : c ≠ '/') (s3 : c ≠ '(') (s4 : c ≠ ')') (s5 : c ≠ '*')
    (hd : ¬ isdigit c = true) :
    (get_next_token p).2.has_error = true := by
  have hsk := skip_whitespace_run p ws (c :: r) h hws
    (by intro c' hc'; simp at hc'; subst hc'; exact hc)
  have hdrop : p.input.drop (p.pos + ws.length) = c :: r := drop_append_next h
  have hch : char_at p.input (p.pos + ws.length) = c := char_at_of_drop hdrop
  unfold get_next_token
  simp only [hsk, hch]
  rw [if_neg hcN, if_neg hone, if_neg s1, if_neg s2, if_neg s3, if_neg s4, if_neg s5, if_neg hd]

/-- Characterisation of a call of the lexer that records no error, on an input without NUL:
the cursor was in front of whitespace `ws` followed by the text `txt` of the token returned. -/
theorem get_next_token_text (p : Parser) (hnul : NUL ∉ p.input)
    (hok : (get_next_token p).2.has_error = false) :
    ∃ ws txt rest, p.input.drop p.pos = ws ++ (txt ++ rest) ∧ is_ws ws ∧
      (get_next_token p).2.pos = p.pos + ws.length + txt.length ∧
      (get_next_token p).1.pos = p.pos + ws.length ∧
      token_text (get_next_token p).1 txt rest := by
  obtain ⟨ws, rest0, hsplit, hws, hrest0⟩ := split_run isspace (p.input.drop p.pos)
  cases rest0 with
  | nil =>
    have hg := get_next_token_end p ws [] hsplit hws (by simp)
    refine ⟨ws, [], [], by simpa using hsplit, hws, ?_, ?_, ?_⟩ <;> simp [hg, token_text]
  | cons c r =>
    have hcN : c ≠ NUL := by
      intro hc
      apply hnul
      rw [← hc]
      exact mem_of_drop_eq hsplit
    have hcsp : isspace c = false := hrest0 c (by simp)
    have hsk := skip_whitespace_run p ws (c :: r) hsplit hws hrest0
    have hdrop : p.input.drop (p.pos + ws.length) = c :: r := drop_append_next hsplit
    have hch : char_at p.input (p.pos + ws.length) = c := char_at_of_drop hdrop
    by_cases hone : c = '1' ∧
        (char_at p.input (p.pos + ws.length + 1) = '/' ∨ p.pos + ws.length = 0)
    · obtain ⟨hc1, hnext⟩ := hone
      subst hc1
      have hg : get_next_token p =
          (⟨TOK_1, 0, p.pos + ws.length⟩, { p with pos := p.pos + ws.length + 1 }) := by
        rcases hnext with hnext | hnext
        · have hr : ∃ r', r = '/' :: r' := by
            have h2 : p.input.drop (p.pos + ws.length + 1) = r := drop_cons_next hdrop
            cases r with
            | nil =>
              rw [char_at_of_drop_nil h2] at hnext
              exact absurd hnext (by decide)
            | cons x r' =>
              rw [char_at_of_drop h2] at hnext
              exact ⟨r', by rw [hnext]⟩
          obtain ⟨r', rfl⟩ := hr
          exact get_next_token_one_slash p ws r' hsplit hws
        · have hp0 : p.pos = 0 := by omega
          have hw0 : ws = [] := List.length_eq_zero.mp (by omega)
          subst hw0
          have := get_next_token_one_start p r (by simpa using hsplit) hp0
          rw [this]
          simp [hp0]
      refine ⟨ws, ['1'], r, by rw [hsplit]; rfl, hws, ?_, ?_, ?_⟩ <;>
        simp [hg, token_text]
    · by_cases hsym : (c = '+' ∨ c = '/' ∨ c = '(' ∨ c = ')' ∨ c = '*')
      · have key : ∀ ty, ((c = '+' ∧ ty = TOK_PLUS) ∨ (c = '/' ∧ ty = TOK_SLASH) ∨
            (c = '(' ∧ ty = TOK_LPAREN) ∨ (c = ')' ∧ ty = TOK_RPAREN) ∨
            (c = '*' ∧ ty = TOK_MUL)) →
            ∃ ws txt rest, p.input.drop p.pos = ws ++ (txt ++ rest) ∧ is_ws ws ∧
              (get_next_token p).2.pos = p.pos + ws.length + txt.length ∧
              (get_next_token p).1.pos = p.pos + ws.length ∧
              token_text (get_next_token p).1 txt rest := by
          intro ty hty
          have hg := get_next_token_symbol p ws c r ty hsplit hws hty
          refine ⟨ws, [c], r, by simpa using hsplit, hws, ?_, ?_, ?_⟩
          · simp [hg]
          · simp [hg]
          · rw [hg]
            rcases hty with ⟨rfl, rfl⟩ | ⟨rfl, rfl⟩ | ⟨rfl, rfl⟩ | ⟨rfl, rfl⟩ | ⟨rfl, rfl⟩ <;>
              simp [token_text]
        rcases hsym with h | h | h | h | h
        · exact key TOK_PLUS (Or.inl ⟨h, rfl⟩)
        · exact key TOK_SLASH (Or.inr (Or.inl ⟨h, rfl⟩))
        · exact key TOK_LPAREN (Or.inr (Or.inr (Or.inl ⟨h, rfl⟩)))
        · exact key TOK_RPAREN (Or.inr (Or.inr (Or.inr (Or.inl ⟨h, rfl⟩))))
        · exact key TOK_MUL (Or.inr (Or.inr (Or.inr (Or.inr ⟨h, rfl⟩))))
      · simp only [not_or] at hsym
        obtain ⟨s1, s2, s3, s4, s5⟩ := hsym
        by_cases hd : isdigit c = true
        · have hat := get_next_token_digit p ws c r hsplit hws hd hone
          obtain ⟨ds, rest, hds_split, hds, hmax⟩ := split_run isdigit r
          subst hds_split
          have hrun := scan_digits_run (c :: ds) rest 0 (p.pos + ws.length) (by simp [INT_MAX])
            (by intro x hx
                rcases List.mem_cons.mp hx with rfl | hx
                · exact hd
                · exact hds x hx) hmax
          simp only [List.cons_append] at hrun
          by_cases hv : digits_value 0 (c :: ds) ≤ INT_MAX
          · rw [hrun.1 hv] at hat
            simp only at hat
            by_cases hz : c = '0' ∧ digits_value 0 (c :: ds) ≠ 0
            · rw [if_pos hz] at hat
              rw [hat] at hok
              cases hok
            · rw [if_neg hz] at hat
              refine ⟨ws, c :: ds, rest, by simpa using hsplit, hws, ?_, ?_, ?_⟩
              · simp [hat]
              · simp [hat]
              · rw [hat]
                simp only [token_text]
                refine ⟨by simp, ?_, hmax, rfl, hv, ?_⟩
                · intro x hx
                  rcases List.mem_cons.mp hx with rfl | hx
                  · exact hd
                  · exact hds x hx
                · intro h0
                  simp at h0
                  by_contra hne
                  exact hz ⟨h0, hne⟩
          · have hb := hrun.2 (by omega)
            rcases hsc : scan_digits (c :: (ds ++ rest)) 0 (p.pos + ws.length) with ⟨b, v, q⟩
            rw [hsc] at hb hat
            simp only at hb
            subst hb
            simp only at hat
            rw [hat] at hok
            cases hok
        · exfalso
          have := get_next_token_unknown p ws c r hsplit hws hcsp hcN hone s1 s2 s3 s4 s5 hd
          rw [this] at hok
          cases hok

end LLAnalysator

namespace LLAnalysator

open TokenType

/-! ### Errors are never cleared -/

theorem advance_of_error (p : Parser) (h : p.has_error = true) : advance p = p := by
  simp [advance, h]

theorem match_error (p : Parser) (ty : TokenType) (h : p.has_error = true) :
    (match_ p ty).2.has_error = true := by
  unfold match_
  split
  · simpa [advance_of_error p h] using h
  · rfl

theorem parse_N_error (p : Parser) (h : p.has_error = true) :
    (parse_N p).2.has_error = true := by
  unfold parse_N
  split
  · rfl
  · exact match_error p TOK_DIGIT h

theorem parse_N_none (p p' : Parser) (h : parse_N p = (none, p')) : p'.has_error = true := by
  unfold parse_N at h
  split at h
  · simp only [Prod.mk.injEq, true_and] at h
    rw [← h]
  · simp at h

theorem parse_F_error_of_first (p : Parser) (h1 : (match_ p TOK_1).2.has_error = true) :
    (parse_F p).has_error = true := by
  have h2 := match_error _ TOK_SLASH h1
  have h3 := match_error _ TOK_LPAREN h2
  have h4 := parse_N_error _ h3
  unfold parse_F
  simp only
  rcases hN : parse_N (match_ (match_ (match_ p TOK_1).2 TOK_SLASH).2 TOK_LPAREN).2 with ⟨r, p4⟩
  rw [hN] at h4
  simp only at h4
  cases r with
  | none => exact h4
  | some a =>
    simp only
    have h5 := match_error p4 TOK_MUL h4
    have h6 := parse_N_error _ h5
    rcases hN2 : parse_N (match_ p4 TOK_MUL).2 with ⟨r2, p6⟩
    rw [hN2] at h6
    simp only at h6
    cases r2 with
    | none => exact h6
    | some b =>
      simp only
      have h7 := match_error p6 TOK_RPAREN h6
      split
      · rfl
      · exact h7

theorem parse_F_error (p : Parser) (h : p.has_error = true) : (parse_F p).has_error = true :=
  parse_F_error_of_first p (match_error p TOK_1 h)

theorem parse_S_prime_error (fuel : Nat) (p p' : Parser) (h : p.has_error = true)
    (hrun : parse_S_prime fuel p = .ok p') : p'.has_error = true := by
  cases fuel with
  | zero =>
    unfold parse_S_prime at hrun
    split at hrun
    · cases hrun
    · cases hrun
      exact h
  | succ f =>
    unfold parse_S_prime at hrun
    split at hrun
    · have hF := parse_F_error _ (match_error p TOK_PLUS h)
      simp only [hF, if_true] at hrun
      cases hrun
      exact hF
    · cases hrun
      exact h

/-! ### The invariant `lexed_from` along the parser -/

theorem advance_frame (p : Parser) :
    (advance p).input = p.input ∧ (advance p).sum_num = p.sum_num ∧
    (advance p).sum_den = p.sum_den ∧ (advance p).current_a = p.current_a ∧
    (advance p).current_b = p.current_b := by
  unfold advance
  obtain ⟨f1, _, f3, f4, f5, f6⟩ := get_next_token_frame p
  split
  · exact ⟨f1, f3, f4, f5, f6⟩
  · exact ⟨rfl, rfl, rfl, rfl, rfl⟩

theorem match_input (p : Parser) (ty : TokenType) : (match_ p ty).2.input = p.input := by
  unfold match_
  split
  · exact (advance_frame p).1
  · rfl

theorem parse_N_input (p : Parser) : (parse_N p).2.input = p.input := by
  unfold parse_N
  split
  · rfl
  · exact match_input p TOK_DIGIT

/-- A call of `advance` that moves on and leaves no error has lexed the next token from the
cursor. -/
theorem advance_lexed (p : Parser) (hnul : NUL ∉ p.input) (hty : p.lookahead.type ≠ TOK_END)
    (hok : (advance p).has_error = false) :
    p.has_error = false ∧ lexed_from (advance p) p.pos := by
  have herr : p.has_error = false := by
    by_contra hc
    have hc' : p.has_error = true := by simpa using hc
    rw [advance_of_error p hc', hc'] at hok
    cases hok
  refine ⟨herr, ?_⟩
  have hadv : advance p = { (get_next_token p).2 with lookahead := (get_next_token p).1 } := by
    simp [advance, herr, hty]
  rw [hadv] at hok ⊢
  obtain ⟨ws, txt, rest, h1, h2, h3, _, h5⟩ := get_next_token_text p hnul hok
  exact ⟨ws, txt, rest, by simpa [(get_next_token_frame p).1] using h1, h2, h3, h5⟩

/-- A call of `match` that leaves no error has found the expected token and lexed the next
one from the cursor. -/
theorem match_lexed (p : Parser) (ty : TokenType) (hnul : NUL ∉ p.input) (hty : ty ≠ TOK_END)
    (hok : (match_ p ty).2.has_error = false) :
    p.has_error = false ∧ p.lookahead.type = ty ∧ lexed_from (match_ p ty).2 p.pos ∧
    (match_ p ty).2.input = p.input := by
  unfold match_ at hok ⊢
  by_cases h : p.lookahead.type = ty
  · simp only [h, if_true] at hok ⊢
    obtain ⟨h1, h2⟩ := advance_lexed p hnul (by rw [h]; exact hty) hok
    exact ⟨h1, trivial, h2, (advance_frame p).1⟩
  · simp [h] at hok

/-- A call of `parse_N` that leaves no error has found a number token of value at least 1 and
lexed the next token from the cursor. -/
theorem parse_N_lexed (p p' : Parser) (r : Option Nat) (hnul : NUL ∉ p.input)
    (hN : parse_N p = (r, p')) (hok : p'.has_error = false) :
    p.has_error = false ∧ p.lookahead.type = TOK_DIGIT ∧ 1 ≤ p.lookahead.value ∧
    r = some p.lookahead.value ∧ lexed_from p' p.pos ∧ p'.input = p.input := by
  unfold parse_N at hN
  split at hN
  · simp only [Prod.mk.injEq] at hN
    rw [← hN.2] at hok
    cases hok
  · rename_i hcond
    simp only [Prod.mk.injEq] at hN
    obtain ⟨hr, hp⟩ := hN
    subst hp
    obtain ⟨h1, h2, h3, h4⟩ := match_lexed p TOK_DIGIT hnul (by decide) hok
    refine ⟨h1, h2, ?_, hr.symm, h3, h4⟩
    by_contra hlt
    exact hcond (Or.inr (by omega))

end LLAnalysator

namespace LLAnalysator

open TokenType

/-! ### The text under the lookahead -/

theorem lexed_rest (p : Parser) (s : Nat) (h : lexed_from p s) :
    ∃ ws txt, is_ws ws ∧ p.input.drop s = ws ++ (txt ++ p.input.drop p.pos) ∧
      token_text p.lookahead txt (p.input.drop p.pos) := by
  obtain ⟨ws, txt, rest, h1, h2, h3, h4⟩ := h
  have hr : p.input.drop p.pos = rest := by
    rw [h3]
    exact drop_append_next (drop_append_next h1)
  rw [hr]
  exact ⟨ws, txt, h2, h1, h4⟩

theorem lexed_symbol (p : Parser) (s : Nat) (ty : TokenType) (c : Char) (h : lexed_from p s)
    (hty : p.lookahead.type = ty)
    (hc : (ty = TOK_1 ∧ c = '1') ∨ (ty = TOK_PLUS ∧ c = '+') ∨ (ty = TOK_SLASH ∧ c = '/') ∨
      (ty = TOK_LPAREN ∧ c = '(') ∨ (ty = TOK_RPAREN ∧ c = ')') ∨ (ty = TOK_MUL ∧ c = '*')) :
    ∃ ws, is_ws ws ∧ p.input.drop s = ws ++ c :: p.input.drop p.pos := by
  obtain ⟨ws, txt, h1, h2, h3⟩ := lexed_rest p s h
  refine ⟨ws, h1, ?_⟩
  unfold token_text at h3
  rw [hty] at h3
  rcases hc with ⟨rfl, rfl⟩ | ⟨rfl, rfl⟩ | ⟨rfl, rfl⟩ | ⟨rfl, rfl⟩ | ⟨rfl, rfl⟩ | ⟨rfl, rfl⟩ <;>
    (simp only at h3; rw [h2, h3]; rfl)

theorem lexed_natural (p : Parser) (s : Nat) (h : lexed_from p s)
    (hty : p.lookahead.type = TOK_DIGIT) (hv : 1 ≤ p.lookahead.value) :
    ∃ ws ds, is_ws ws ∧ is_natural_text ds ∧ p.input.drop s = ws ++ (ds ++ p.input.drop p.pos) := by
  obtain ⟨ws, txt, h1, h2, h3⟩ := lexed_rest p s h
  unfold token_text at h3
  rw [hty] at h3
  simp only at h3
  obtain ⟨t1, t2, _, t4, t5, t6⟩ := h3
  refine ⟨ws, txt, h1, ⟨t1, t2, ?_, ?_, ?_⟩, h2⟩
  · intro h0
    have := t6 h0
    omega
  · omega
  · omega

theorem lexed_end (p : Parser) (s : Nat) (h : lexed_from p s) (hty : p.lookahead.type = TOK_END) :
    is_ws (p.input.drop s) := by
  obtain ⟨ws, txt, rest, h1, h2, _, h4⟩ := h
  unfold token_text at h4
  rw [hty] at h4
  simp only at h4
  rw [h1, h4.1, h4.2]
  simpa using h2

/-- Soundness of `parse_F`: when it leaves no error, the lookahead was the token `1` and the
input at the cursor is `/ ( N * N )`, with optional whitespace in front of every token; the
new lookahead has been lexed from the position `e` that follows the closing parenthesis. -/
theorem parse_F_sound (p : Parser) (hnul : NUL ∉ p.input)
    (hok : (parse_F p).has_error = false) :
    ∃ w3 w4 w5 a w6 w7 b w8 e,
      is_ws w3 ∧ is_ws w4 ∧ is_ws w5 ∧ is_ws w6 ∧ is_ws w7 ∧ is_ws w8 ∧
      is_natural_text a ∧ is_natural_text b ∧
      p.has_error = false ∧ p.lookahead.type = TOK_1 ∧
      p.input.drop p.pos = w3 ++ '/' :: (w4 ++ '(' :: (w5 ++ (a ++ (w6 ++ '*' :: (w7 ++ (b ++
        (w8 ++ ')' :: p.input.drop e))))))) ∧
      lexed_from (parse_F p) e ∧ (parse_F p).input = p.input := by
  have i1 := match_input p TOK_1
  have m1 := match_lexed p TOK_1 hnul (by decide)
  unfold parse_F at hok ⊢
  simp only at hok ⊢
  generalize (match_ p TOK_1).2 = p1 at *
  have hnul1 : NUL ∉ p1.input := by rw [i1]; exact hnul
  have i2 := match_input p1 TOK_SLASH
  have m2 := match_lexed p1 TOK_SLASH hnul1 (by decide)
  generalize (match_ p1 TOK_SLASH).2 = p2 at *
  have hnul2 : NUL ∉ p2.input := by rw [i2]; exact hnul1
  have i3 := match_input p2 TOK_LPAREN
  have m3 := match_lexed p2 TOK_LPAREN hnul2 (by decide)
  generalize (match_ p2 TOK_LPAREN).2 = p3 at *
  have hnul3 : NUL ∉ p3.input := by rw [i3]; exact hnul2
  have i4 := parse_N_input p3
  rcases hN1 : parse_N p3 with ⟨r1, p4⟩
  rw [hN1] at hok i4
  simp only at i4
  have hnul4 : NUL ∉ p4.input := by rw [i4]; exact hnul3
  cases r1 with
  | none =>
    simp only at hok
    rw [parse_N_none _ _ hN1] at hok
    cases hok
  | some a =>
    simp only at hok ⊢
    have i5 := match_input p4 TOK_MUL
    have m5 := match_lexed p4 TOK_MUL hnul4 (by decide)
    generalize (match_ p4 TOK_MUL).2 = p5 at *
    have hnul5 : NUL ∉ p5.input := by rw [i5]; exact hnul4
    have i6 := parse_N_input p5
    rcases hN2 : parse_N p5 with ⟨r2, p6⟩
    rw [hN2] at hok i6
    simp only at i6
    have hnul6 : NUL ∉ p6.input := by rw [i6]; exact hnul5
    cases r2 with
    | none =>
      simp only at hok
      rw [parse_N_none _ _ hN2] at hok
      cases hok
    | some b =>
      simp only at hok ⊢
      by_cases hprod : a * b > INT_MAX
      · simp [hprod] at hok
      · simp only [hprod, if_false] at hok ⊢
        have i7 := match_input p6 TOK_RPAREN
        -- backwards: every step has left no error
        obtain ⟨e6, t6, l7, _⟩ := match_lexed p6 TOK_RPAREN hnul6 (by decide) hok
        obtain ⟨e5, t5, v5, _, l6, _⟩ := parse_N_lexed p5 p6 _ hnul5 hN2 e6
        obtain ⟨e4, t4, l5, _⟩ := m5 e5
        obtain ⟨e3, t3, v3, _, l4, _⟩ := parse_N_lexed p3 p4 _ hnul3 hN1 e4
        obtain ⟨e2, t2, l3, _⟩ := m3 e3
        obtain ⟨e1, t1, l2, _⟩ := m2 e2
        obtain ⟨e0, t0, l1, _⟩ := m1 e1
        -- forwards: the text of every token
        obtain ⟨w3, hw3, x3⟩ := lexed_symbol p1 p.pos TOK_SLASH '/' l1 t1 (by simp)
        obtain ⟨w4, hw4, x4⟩ := lexed_symbol p2 p1.pos TOK_LPAREN '(' l2 t2 (by simp)
        obtain ⟨w5, da, hw5, hda, x5⟩ := lexed_natural p3 p2.pos l3 t3 v3
        obtain ⟨w6, hw6, x6⟩ := lexed_symbol p4 p3.pos TOK_MUL '*' l4 t4 (by simp)
        obtain ⟨w7, db, hw7, hdb, x7⟩ := lexed_natural p5 p4.pos l5 t5 v5
        obtain ⟨w8, hw8, x8⟩ := lexed_symbol p6 p5.pos TOK_RPAREN ')' l6 t6 (by simp)
        rw [i1] at x3
        rw [i2, i1] at x4
        rw [i3, i2, i1] at x5
        rw [i4, i3, i2, i1] at x6
        rw [i5, i4, i3, i2, i1] at x7
        rw [i6, i5, i4, i3, i2, i1] at x8
        refine ⟨w3, w4, w5, da, w6, w7, db, w8, p6.pos, hw3, hw4, hw5, hw6, hw7, hw8, hda, hdb,
          e0, t0, ?_, l7, ?_⟩
        · rw [x3, x4, x5, x6, x7, x8]
        · show (match_ p6 TOK_RPAREN).2.input = p.input
          rw [i7, i6, i5, i4, i3, i2, i1]

end LLAnalysator

namespace LLAnalysator

open TokenType

theorem length_le_tail_text (ts : List (Nat × Nat)) : ts.length ≤ (tail_text ts).length := by
  induction ts with
  | nil => simp
  | cons t ts ih =>
    simp only [tail_text, term_text, List.length_cons, List.length_append]
    omega

/-- The run of the parser on the canonical text of a series whose cross products fit in 64
bits: the state at the end of `parse_S`. -/
theorem run_series_text (ts : List (Nat × Nat))
    (hts : ∀ t ∈ ts, 1 ≤ t.1 ∧ 1 ≤ t.2 ∧ t.1 * t.2 ≤ INT_MAX)
    (hfit : fits64 (1, 1) ts = true) :
    ∃ p, run (series_text ts) = .ok p ∧ p.has_error = false ∧ p.lookahead.type = TOK_END ∧
      p.sum_num = ((exact_sum_from (1, 1) ts).1 : Int) ∧
      p.sum_den = ((exact_sum_from (1, 1) ts).2 : Int) := by
  have g0 := get_next_token_one_start
    ⟨series_text ts, 0, ⟨TOK_INVALID, 0, 0⟩, false, none, 1, 1, 0, 0⟩ (tail_text ts) rfl rfl
  have d1 : (series_text ts).drop 1 = tail_text ts := rfl
  have hadv := advance_tail (series_text ts) 1 ⟨TOK_1, 0, 0⟩ none 1 1 0 0 ts (by simp) d1
  have hlen : ts.length ≤ (series_text ts).length := by
    have := length_le_tail_text ts
    simp only [series_text, List.length_cons]
    omega
  by_cases hnil : ts = []
  · have hA := hadv.1 hnil
    obtain ⟨p', h1, h2, h3, h4, h5⟩ := parse_S_prime_canonical ts (series_text ts).length
      (series_text ts) 1 ⟨series_text ts, 1, ⟨TOK_END, 0, 1⟩, false, none, 1, 1, 0, 0⟩ 1 1
      rfl rfl d1 (fun _ => rfl) (fun h => absurd hnil h) rfl rfl (by omega) hts hfit hlen
    refine ⟨p', ?_, h2, h3, h4, h5⟩
    rw [← h1]
    simp [run, parser_init, parse_S, match_, g0, hA]
  · have hA := hadv.2 hnil
    obtain ⟨p', h1, h2, h3, h4, h5⟩ := parse_S_prime_canonical ts (series_text ts).length
      (series_text ts) 1 ⟨series_text ts, 1 + 2, ⟨TOK_PLUS, 0, 1 + 1⟩, false, none, 1, 1, 0, 0⟩
      1 1 rfl rfl d1 (fun h => absurd h hnil) (fun _ => ⟨rfl, rfl⟩) rfl rfl (by omega) hts hfit
      hlen
    refine ⟨p', ?_, h2, h3, h4, h5⟩
    rw [← h1]
    simp [run, parser_init, parse_S, match_, g0, hA]

/-- C1. For every list of pairs `(a, b)` with `a ≥ 1`, `b ≥ 1`, `a*b ≤ INT_MAX` whose cross
products `sum_num*d + sum_den` and `sum_den*d` all fit in a signed 64-bit integer, the input
`1` followed by ` + 1/(a*b)` for every pair, the numbers written in decimal, is accepted by the
token-lookahead parser (it returns, `has_error` is false, the lookahead is the end of the
input), `parse` prints `sum_num/sum_den`, and that fraction is the exact rational
`1 + Σ 1/(a*b)` in lowest terms with a positive denominator. -/
theorem C1_canonical_series_accepted_exact (ts : List (Nat × Nat))
    (hts : ∀ t ∈ ts, 1 ≤ t.1 ∧ 1 ≤ t.2 ∧ t.1 * t.2 ≤ INT_MAX)
    (hfit : fits64 (1, 1) ts = true) :
    ∃ p, run (series_text ts) = .ok p ∧ p.has_error = false ∧ p.lookahead.type = TOK_END ∧
      parse (series_text ts) = .ok (Output.correct p.sum_num p.sum_den) ∧
      0 < p.sum_den ∧ Int.gcd p.sum_num p.sum_den = 1 ∧
      (p.sum_num : ℚ) / (p.sum_den : ℚ) = 1 + terms_sum ts := by
  obtain ⟨p, h1, h2, h3, h4, h5⟩ := run_series_text ts hts hfit
  obtain ⟨_, s2, s3, s4⟩ := exact_sum_from_spec ts (1, 1) (by simp) (by simp) (by simp)
    (fun t ht => ⟨(hts t ht).1, (hts t ht).2.1⟩)
  refine ⟨p, h1, h2, h3, ?_, ?_, ?_, ?_⟩
  · simp [parse, h1, accepted, h2, h3]
  · rw [h5]
    exact_mod_cast s2
  · rw [h4, h5]
    exact_mod_cast s3
  · rw [h4, h5]
    simpa using s4

/-- C1, witness: the series `1 + 1/(2*3) + 1/(10*5)` of `main`, whose sum is `89/75`. -/
theorem C1_canonical_series_accepted_exact_witness :
    series_text [(2, 3), (10, 5)] = "1 + 1/(2*3) + 1/(10*5)".toList ∧
    parse "1 + 1/(2*3) + 1/(10*5)".toList = .ok (Output.correct 89 75) ∧
    ∃ p, run (series_text [(2, 3), (10, 5)]) = .ok p ∧ p.has_error = false ∧
      p.lookahead.type = TOK_END ∧
      parse (series_text [(2, 3), (10, 5)]) = .ok (Output.correct p.sum_num p.sum_den) ∧
      0 < p.sum_den ∧ Int.gcd p.sum_num p.sum_den = 1 ∧
      (p.sum_num : ℚ) / (p.sum_den : ℚ) = 1 + terms_sum [(2, 3), (10, 5)] :=
  ⟨by rfl, by rfl,
    C1_canonical_series_accepted_exact [(2, 3), (10, 5)] (by decide) (by rfl)⟩

end LLAnalysator

/-! ### Evaluations at concrete inputs -/

/-- C2. On the input `1/(2*3)` the token-lookahead parser does not succeed with `1/6`: after
`parse_S` has consumed the leading `1`, `parse_F` asks for a `1` again, finds the `/`, and the
input is rejected (the last message written is that of `parse_N`, at position 1). -/
theorem C2_leading_fraction_rejected :
    LLAnalysator.parse "1/(2*3)".toList
        = .ok (LLAnalysator.Output.error (some (LLAnalysator.Msg.expected_natural 1))) ∧
    LLAnalysator.parse "1/(2*3)".toList ≠ .ok (LLAnalysator.Output.correct 1 6) := by
  constructor
  · rfl
  · intro h
    have h2 : LLAnalysator.parse "1/(2*3)".toList
        = .ok (LLAnalysator.Output.error (some (LLAnalysator.Msg.expected_natural 1))) := rfl
    rw [h2] at h
    cases h

/-- C3. On the input `1 + 1/(1*2147483647) + 1/(1*2147483646) + 1/(1*2)` the token-lookahead
parser reports a correct series with the sum `164703072470171648/(-329406143713209783)`,
which is not the exact sum `1 + 1/2147483647 + 1/2147483646 + 1/2`: the third cross
multiplication exceeds `LLONG_MAX` and nothing checks it. -/
theorem C3_accepted_sum_altered_by_overflow :
    LLAnalysator.parse "1 + 1/(1*2147483647) + 1/(1*2147483646) + 1/(1*2)".toList
        = .ok (LLAnalysator.Output.correct 164703072470171648 (-329406143713209783)) ∧
    ((164703072470171648 : ℚ) / (-329406143713209783 : ℚ)
        ≠ 1 + terms_sum [(1, 2147483647), (1, 2147483646), (1, 2)]) := by
  constructor
  · rfl
  · simp only [terms_sum, List.map, List.sum_cons, List.sum_nil]
    norm_num

/-- C5. On the input `1 + 1/(1*2147483647) + 1/(1*2147483646) + 1/(1*2)` the token-lookahead
parser accepts and the denominator `sum_den` it reports is negative. -/
theorem C5_accepted_negative_denominator :
    ∃ p, LLAnalysator.run "1 + 1/(1*2147483647) + 1/(1*2147483646) + 1/(1*2)".toList = .ok p ∧
      LLAnalysator.accepted p = true ∧ p.sum_den = -329406143713209783 ∧ ¬ (0 < p.sum_den) :=
  ⟨_, rfl, rfl, rfl, by decide⟩

/-- C6. On the input `1 + 1/(0*5)` the character-level parser reports a correct series, with
the sum `1/0`: `parse_natural` accepts the literal `0`. -/
theorem C6_zero_natural_accepted :
    RecursionAnalysator.parse "1 + 1/(0*5)".toList
      = .ok (RecursionAnalysator.Output.correct 1 0) := rfl

/-- C7. On the input `1 + 2` the first diagnostic of the token-lookahead parser, written by the
first `match` of `parse_F` (a `1` was expected, position 4), is not the one printed: the later
calls of `match` in `parse_F` write `error_msg` again, and `parse` prints that a closing
parenthesis was expected. On the invalid series of `main` the number-overflow message of the
lexer is not the one printed either. -/
theorem C7_first_diagnostic_overwritten :
    (LLAnalysator.match_
        (LLAnalysator.match_
          (LLAnalysator.match_ (LLAnalysator.parser_init "1 + 2".toList)
            LLAnalysator.TokenType.TOK_1).2
          LLAnalysator.TokenType.TOK_PLUS).2
        LLAnalysator.TokenType.TOK_1).2.error_msg
      = some (LLAnalysator.Msg.expected_found LLAnalysator.TokenType.TOK_1
          LLAnalysator.TokenType.TOK_DIGIT 4) ∧
    LLAnalysator.parse "1 + 2".toList
      = .ok (LLAnalysator.Output.error (some (LLAnalysator.Msg.expected_found
          LLAnalysator.TokenType.TOK_RPAREN LLAnalysator.TokenType.TOK_DIGIT 4))) ∧
    LLAnalysator.parse
        "1 + 1/(10*5) + 1/(2*579465612786526758178457124675824781)".toList
      = .ok (LLAnalysator.Output.error (some (LLAnalysator.Msg.expected_found
          LLAnalysator.TokenType.TOK_RPAREN LLAnalysator.TokenType.TOK_DIGIT 20))) :=
  ⟨rfl, rfl, rfl⟩

/-- C9. The two implementations differ on the input ` 1` (a space, then `1`): the
token-lookahead parser rejects it, the character-level parser reports the correct series
`1/1`. They differ on `1 + 1/(0*5)` too, the other way round for the zero. -/
theorem C9_implementations_differ :
    LLAnalysator.parse " 1".toList
      = .ok (LLAnalysator.Output.error (some (LLAnalysator.Msg.expected_one 1))) ∧
    RecursionAnalysator.parse " 1".toList = .ok (RecursionAnalysator.Output.correct 1 1) ∧
    LLAnalysator.parse "1 + 1/(0*5)".toList
      = .ok (LLAnalysator.Output.error (some (LLAnalysator.Msg.expected_natural 7))) ∧
    RecursionAnalysator.parse "1 + 1/(0*5)".toList
      = .ok (RecursionAnalysator.Output.correct 1 0) :=
  ⟨rfl, rfl, rfl, rfl⟩

/-- C4. The overflow check of `parse_series` is not complete. On the input
`1 + 1/(1*2147483647) + 1/(1*2147483646) + 1/(1*2)`, whose naturals are all at least 1, the
accumulator before the third term is `4611686016279904255/4611686011984936962` and `d = 2`:
neither disjunct of the check holds, yet `sum_num*d + sum_den` exceeds `LLONG_MAX`, and
`parse` reports a correct series whose sum is not the exact one. -/
theorem C4_overflow_check_incomplete :
    RecursionAnalysator.parse "1 + 1/(1*2147483647) + 1/(1*2147483646)".toList
      = .ok (RecursionAnalysator.Output.correct 4611686016279904255 4611686011984936962) ∧
    ¬ ((2 : Int) > 0 ∧ (4611686011984936962 : Int) > LLONG_MAX.tdiv 2) ∧
    ¬ ((4611686016279904255 : Int) > 0 ∧ (2 : Int) > LLONG_MAX.tdiv 4611686016279904255) ∧
    (4611686016279904255 : Int) * 2 + 4611686011984936962 > LLONG_MAX ∧
    RecursionAnalysator.parse "1 + 1/(1*2147483647) + 1/(1*2147483646) + 1/(1*2)".toList
      = .ok (RecursionAnalysator.Output.correct 164703072470171648 (-329406143713209783)) ∧
    ((164703072470171648 : ℚ) / (-329406143713209783 : ℚ)
        ≠ 1 + terms_sum [(1, 2147483647), (1, 2147483646), (1, 2)]) := by
  refine ⟨rfl, by decide, by decide, by decide, rfl, ?_⟩
  simp only [terms_sum, List.map, List.sum_cons, List.sum_nil]
  norm_num

namespace LLAnalysator

open TokenType

/-- Soundness of `parse_S_prime`: when it returns at the end of the input without error, the
input from the place where the lookahead was lexed is a sequence of groups of the grammar. -/
theorem parse_S_prime_sound (fuel : Nat) :
    ∀ (p p' : Parser) (s : Nat), NUL ∉ p.input → lexed_from p s →
      parse_S_prime fuel p = .ok p' → p'.has_error = false → p'.lookahead.type = TOK_END →
      SeriesTail (p.input.drop s) := by
  induction fuel with
  | zero =>
    intro p p' s _ hlex hrun _ hend
    unfold parse_S_prime at hrun
    split at hrun
    · cases hrun
    · cases hrun
      exact SeriesTail.done _ (lexed_end p s hlex hend)
  | succ f ih =>
    intro p p' s hnul hlex hrun hok hend
    unfold parse_S_prime at hrun
    split at hrun
    · rename_i hty
      simp only at hrun
      have i1 := match_input p TOK_PLUS
      have m1 := match_lexed p TOK_PLUS hnul (by decide)
      generalize (match_ p TOK_PLUS).2 = p1 at *
      have hnul1 : NUL ∉ p1.input := by rw [i1]; exact hnul
      have hF := parse_F_sound p1 hnul1
      generalize parse_F p1 = p2 at *
      by_cases he : p2.has_error = true
      · simp only [he, if_true] at hrun
        cases hrun
        rw [he] at hok
        cases hok
      · have he' : p2.has_error = false := by simpa using he
        simp only [he', Bool.false_eq_true, if_false] at hrun
        split at hrun
        · cases hrun
        · obtain ⟨w3, w4, w5, a, w6, w7, b, w8, e, hw3, hw4, hw5, hw6, hw7, hw8, ha, hb, e1, t1,
            x, l2, i2⟩ := hF he'
          obtain ⟨_, _, l1, _⟩ := m1 e1
          have hnul2 : NUL ∉ p2.input := by rw [i2]; exact hnul1
          have htail := ih _ p' e (by exact hnul2) (by exact l2) hrun hok hend
          obtain ⟨w1, hw1, x1⟩ := lexed_symbol p s TOK_PLUS '+' hlex hty (by simp)
          obtain ⟨w2, hw2, x2⟩ := lexed_symbol p1 p.pos TOK_1 '1' l1 t1 (by simp)
          simp only at htail
          rw [i2, i1] at htail
          rw [i1] at x2 x
          rw [x1, x2, x]
          exact SeriesTail.term w1 w2 w3 w4 w5 w6 w7 w8 a b _ hw1 hw2 hw3 hw4 hw5 hw6 hw7 hw8
            ha hb htail
    · cases hrun
      exact SeriesTail.done _ (lexed_end p s hlex hend)

/-- C8. Soundness of the token-lookahead recogniser: if `parse` reports a correct series on an
input (a C string, so without NUL inside), then the input is the token `1` followed by zero or
more groups `+ 1 / ( N * N )` and the end of the input, the tokens being separated only by
whitespace and every `N` being a run of decimal digits without leading zero whose value is
between 1 and `INT_MAX`. -/
theorem C8_recogniser_sound (input : List Char) (sum_num sum_den : Int)
    (hnul : NUL ∉ input)
    (h : parse input = .ok (Output.correct sum_num sum_den)) :
    Series input := by
  -- the final state is accepted
  unfold parse at h
  rcases hrun : run input with f | p
  · rw [hrun] at h
    cases h
  rw [hrun] at h
  simp only at h
  by_cases hacc : accepted p = true
  swap
  · simp [hacc] at h
  simp only [accepted, Bool.decide_and, Bool.and_eq_true, decide_eq_true_eq] at hacc
  obtain ⟨hok, hend⟩ := hacc
  -- the first token
  unfold run parse_S at hrun
  have hi : (parser_init input).input = input := (get_next_token_frame _).1
  have hinit : (parser_init input).has_error = false →
      lexed_from (parser_init input) 0 := by
    intro h0
    obtain ⟨ws, txt, rest, h1, h2, h3, _, h5⟩ := get_next_token_text
      ⟨input, 0, ⟨TOK_INVALID, 0, 0⟩, false, none, 1, 1, 0, 0⟩ hnul h0
    exact ⟨ws, txt, rest, by rw [hi]; exact h1, h2, h3, h5⟩
  generalize parser_init input = p0 at *
  split at hrun
  swap
  · cases hrun
    cases hok
  rename_i hty0
  simp only at hrun
  have i1 := match_input { p0 with sum_num := 1, sum_den := 1 } TOK_1
  have m1 := match_lexed { p0 with sum_num := 1, sum_den := 1 } TOK_1
    (by rw [hi]; exact hnul) (by decide)
  generalize (match_ { p0 with sum_num := 1, sum_den := 1 } TOK_1).2 = p1 at *
  simp only at i1 m1
  have hnul1 : NUL ∉ p1.input := by rw [i1, hi]; exact hnul
  split at hrun
  · -- a `/` after the leading `1`: `parse_F` asks for the `1` again
    rename_i hslash
    by_cases he : (parse_F p1).has_error = true
    · simp only [he, if_true] at hrun
      cases hrun
      rw [he] at hok
      cases hok
    · have he' : (parse_F p1).has_error = false := by simpa using he
      obtain ⟨_, _, _, _, _, _, _, _, _, _, _, _, _, _, _, _, _, _, t1, _⟩ :=
        parse_F_sound p1 hnul1 he'
      rw [t1] at hslash
      cases hslash
  · have herr1 : p1.has_error = false := by
      by_contra hc
      have hc' : p1.has_error = true := by simpa using hc
      rw [parse_S_prime_error _ _ _ hc' hrun] at hok
      cases hok
    obtain ⟨e0, _, l1, _⟩ := m1 herr1
    have htail := parse_S_prime_sound _ p1 p p0.pos hnul1 l1 hrun hok hend
    obtain ⟨w, hw, x⟩ := lexed_symbol p0 0 TOK_1 '1' (hinit e0) hty0 (by simp)
    rw [i1] at htail
    rw [hi] at x htail
    exact ⟨w, _, hw, by simpa using x, htail⟩

/-- C8, witness: the valid series of `main`. -/
theorem C8_recogniser_sound_witness : Series "1 + 1/(2*3) + 1/(10*5)".toList :=
  C8_recogniser_sound "1 + 1/(2*3) + 1/(10*5)".toList 89 75 (by decide) (by rfl)

end LLAnalysator

namespace LLAnalysator

open TokenType

/-- C10. Lexer overflow boundary of `get_next_token`. The input at the cursor is whitespace
`ws`, then a maximal run of digits `ds` that does not start with `0` and is not lexed as
`TOK_1`, then `rest`. With `start` the position of the run: the token is `TOK_DIGIT` with the
decimal value of the run, at `start`, with no error, exactly when that value is at most
`INT_MAX` (and then the cursor is after the run); when the value exceeds `INT_MAX`,
`has_error` is set and `error_msg` is the number-overflow message carrying `start`; the value
accumulated by the digit loop never exceeds `INT_MAX`, whatever the number of digits read. -/
theorem C10_lexer_overflow_boundary (p : Parser) (ws ds rest : List Char)
    (h : p.input.drop p.pos = ws ++ (ds ++ rest))
    (hws : ∀ c ∈ ws, isspace c = true)
    (hne : ds ≠ [])
    (hds : ∀ c ∈ ds, isdigit c = true)
    (hmax : ∀ c ∈ rest.head?, isdigit c = false)
    (hzero : ds.head? ≠ some '0')
    (hnum : ¬ (char_at p.input (p.pos + ws.length) = '1' ∧
      (char_at p.input (p.pos + ws.length + 1) = '/' ∨ p.pos + ws.length = 0)))
    (herr : p.has_error = false) :
    (((get_next_token p).1 = ⟨TOK_DIGIT, decimal_value ds, p.pos + ws.length⟩ ∧
        (get_next_token p).2.has_error = false) ↔ decimal_value ds ≤ INT_MAX) ∧
    (decimal_value ds ≤ INT_MAX → (get_next_token p).2.pos = p.pos + ws.length + ds.length) ∧
    (INT_MAX < decimal_value ds →
      (get_next_token p).1.type = TOK_DIGIT ∧ (get_next_token p).1.pos = p.pos + ws.length ∧
      (get_next_token p).2.has_error = true ∧
      (get_next_token p).2.error_msg = some (Msg.number_overflow (p.pos + ws.length))) ∧
    (get_next_token p).1.value ≤ INT_MAX ∧
    (∀ k, (scan_digits (ds.take k) 0 (p.pos + ws.length)).2.1 ≤ INT_MAX) := by
  obtain ⟨d, ds', rfl⟩ : ∃ d ds', ds = d :: ds' := by
    cases ds with
    | nil => exact absurd rfl hne
    | cons d ds' => exact ⟨d, ds', rfl⟩
  have hd : isdigit d = true := hds d (by simp)
  have hd0 : d ≠ '0' := by
    intro hd0
    apply hzero
    simp [hd0]
  have h' : p.input.drop p.pos = ws ++ d :: (ds' ++ rest) := by simpa using h
  have hc : char_at p.input (p.pos + ws.length) = d := char_at_of_drop (drop_append_next h')
  rw [hc] at hnum
  have hg := get_next_token_digit p ws d (ds' ++ rest) h' hws hd hnum
  have hrun := scan_digits_run (d :: ds') rest 0 (p.pos + ws.length) (by simp [INT_MAX]) hds hmax
  have hle := scan_digits_value_le (d :: (ds' ++ rest)) 0 (p.pos + ws.length) (by simp [INT_MAX])
  have hsteps : ∀ k, (scan_digits ((d :: ds').take k) 0 (p.pos + ws.length)).2.1 ≤ INT_MAX :=
    fun k => scan_digits_value_le _ 0 _ (by simp [INT_MAX])
  simp only [List.cons_append] at hrun
  by_cases hv : decimal_value (d :: ds') ≤ INT_MAX
  · have hs := hrun.1 hv
    rw [hs] at hg
    simp only [hd0, false_and, if_false] at hg
    rw [hg]
    refine ⟨⟨fun _ => hv, fun _ => ⟨rfl, herr⟩⟩, fun _ => ?_, fun hgt => ?_, hv, hsteps⟩
    · simp
    · exact absurd hv (by omega)
  · have hgt : INT_MAX < decimal_value (d :: ds') := by omega
    have hs := hrun.2 hgt
    rcases hsc : scan_digits (d :: (ds' ++ rest)) 0 (p.pos + ws.length) with ⟨b, v, q⟩
    rw [hsc] at hs hle
    simp only at hs hle
    subst hs
    rw [hsc] at hg
    simp only at hg
    rw [hg]
    refine ⟨⟨fun hh => ?_, fun hh => absurd hh hv⟩, fun hh => absurd hh hv, fun _ => ?_, hle,
      hsteps⟩
    · simp at hh
    · simp

/-- C10, witness: the run `2147483647` (the value `INT_MAX`) after an opening parenthesis. -/
theorem C10_lexer_overflow_boundary_witness :
    (get_next_token
        { input := "(2147483647)".toList, pos := 1, lookahead := ⟨TOK_LPAREN, 0, 0⟩,
          has_error := false, error_msg := none, sum_num := 1, sum_den := 1,
          current_a := 0, current_b := 0 }).1 = ⟨TOK_DIGIT, 2147483647, 1⟩ ∧
    (get_next_token
        { input := "(2147483647)".toList, pos := 1, lookahead := ⟨TOK_LPAREN, 0, 0⟩,
          has_error := false, error_msg := none, sum_num := 1, sum_den := 1,
          current_a := 0, current_b := 0 }).2.has_error = false :=
  (C10_lexer_overflow_boundary
      { input := "(2147483647)".toList, pos := 1, lookahead := ⟨TOK_LPAREN, 0, 0⟩,
        has_error := false, error_msg := none, sum_num := 1, sum_den := 1,
        current_a := 0, current_b := 0 }
      [] "2147483647".toList [')'] (by rfl) (by simp) (by decide) (by decide) (by decide)
      (by decide) (by decide) rfl).1.mpr (by decide)

end LLAnalysator

namespace LLAnalysator

open TokenType

/-! ### The position carried by the diagnostic -/

/-- The lexer leaves `has_error` and `error_msg` as they are, or records an error that carries
the position of the token returned. -/
theorem get_next_token_error (p : Parser) :
    ((get_next_token p).2.has_error = p.has_error ∧
      (get_next_token p).2.error_msg = p.error_msg) ∨
    ((get_next_token p).2.has_error = true ∧
      ∃ m, (get_next_token p).2.error_msg = some m ∧ m.pos = (get_next_token p).1.pos) := by
  rcases hr : get_next_token p with ⟨tok, p'⟩
  simp only
  unfold get_next_token skip_whitespace at hr
  simp only at hr
  split_ifs at hr <;>
    first
    | (cases hr; exact Or.inl ⟨rfl, rfl⟩)
    | (cases hr; exact Or.inr ⟨rfl, _, rfl, rfl⟩)
    | skip
  split at hr
  · cases hr
    exact Or.inr ⟨rfl, _, rfl, rfl⟩
  · split_ifs at hr <;>
      first
      | (cases hr; exact Or.inl ⟨rfl, rfl⟩)
      | (cases hr; exact Or.inr ⟨rfl, _, rfl, rfl⟩)

/-- A lexer error carries the position of the token returned. -/
theorem get_next_token_error_pos (p : Parser) (herr : p.has_error = false)
    (h : (get_next_token p).2.has_error = true) :
    ∃ m, (get_next_token p).2.error_msg = some m ∧ m.pos = (get_next_token p).1.pos := by
  rcases get_next_token_error p with ⟨h1, _⟩ | ⟨_, h2⟩
  · rw [h1, herr] at h
    cases h
  · exact h2

theorem advance_error_at_lookahead (p : Parser) (h : error_at_lookahead p) :
    error_at_lookahead (advance p) := by
  unfold advance
  split
  · rename_i hc
    intro he
    exact get_next_token_error_pos p hc.1 he
  · exact h

theorem match_error_at_lookahead (p : Parser) (ty : TokenType) (h : error_at_lookahead p) :
    error_at_lookahead (match_ p ty).2 := by
  unfold match_
  split
  · exact advance_error_at_lookahead p h
  · intro _
    exact ⟨_, rfl, rfl⟩

theorem parse_N_error_at_lookahead (p : Parser) (h : error_at_lookahead p) :
    error_at_lookahead (parse_N p).2 := by
  unfold parse_N
  split
  · intro _
    exact ⟨_, rfl, rfl⟩
  · exact match_error_at_lookahead p TOK_DIGIT h

theorem parse_F_error_at_lookahead (p : Parser) (h : error_at_lookahead p) :
    error_at_lookahead (parse_F p) := by
  have h1 := match_error_at_lookahead p TOK_1 h
  have h2 := match_error_at_lookahead _ TOK_SLASH h1
  have h3 := match_error_at_lookahead _ TOK_LPAREN h2
  have h4 := parse_N_error_at_lookahead _ h3
  unfold parse_F
  simp only
  rcases hN : parse_N (match_ (match_ (match_ p TOK_1).2 TOK_SLASH).2 TOK_LPAREN).2 with ⟨r, p4⟩
  rw [hN] at h4
  simp only at h4
  cases r with
  | none => exact h4
  | some a =>
    simp only
    have h5 := match_error_at_lookahead p4 TOK_MUL h4
    have h6 := parse_N_error_at_lookahead _ h5
    rcases hN2 : parse_N (match_ p4 TOK_MUL).2 with ⟨r2, p6⟩
    rw [hN2] at h6
    simp only at h6
    cases r2 with
    | none => exact h6
    | some b =>
      simp only
      have h7 := match_error_at_lookahead p6 TOK_RPAREN h6
      split
      · intro _
        exact ⟨_, rfl, rfl⟩
      · exact h7

theorem parse_S_prime_error_at_lookahead (fuel : Nat) :
    ∀ (p p' : Parser), error_at_lookahead p → parse_S_prime fuel p = .ok p' →
      error_at_lookahead p' := by
  induction fuel with
  | zero =>
    intro p p' h hrun
    unfold parse_S_prime at hrun
    split at hrun
    · cases hrun
    · cases hrun
      exact h
  | succ f ih =>
    intro p p' h hrun
    unfold parse_S_prime at hrun
    split at hrun
    · have hF := parse_F_error_at_lookahead _ (match_error_at_lookahead p TOK_PLUS h)
      simp only at hrun
      generalize parse_F (match_ p TOK_PLUS).2 = p2 at *
      split at hrun
      · cases hrun
        exact hF
      · split at hrun
        · cases hrun
        · exact ih _ p' (by intro he; exact hF he) hrun
    · cases hrun
      exact h

theorem parse_S_error_at_lookahead (p p' : Parser) (h : error_at_lookahead p)
    (hrun : parse_S p = .ok p') : error_at_lookahead p' := by
  unfold parse_S at hrun
  split at hrun
  · simp only at hrun
    have h1 := match_error_at_lookahead { p with sum_num := 1, sum_den := 1 } TOK_1
      (by intro he; exact h he)
    generalize (match_ { p with sum_num := 1, sum_den := 1 } TOK_1).2 = p1 at *
    split at hrun
    · have hF := parse_F_error_at_lookahead p1 h1
      generalize parse_F p1 = p2 at *
      split at hrun
      · cases hrun
        exact hF
      · exact parse_S_prime_error_at_lookahead _ _ p' (by intro he; exact hF he) hrun
    · exact parse_S_prime_error_at_lookahead _ _ p' h1 hrun
  · cases hrun
    intro _
    exact ⟨_, rfl, rfl⟩

theorem parser_init_error_at_lookahead (input : List Char) :
    error_at_lookahead (parser_init input) := by
  intro he
  exact get_next_token_error_pos _ rfl he

/-! ### The lookahead is frozen by an error -/

end LLAnalysator

/-! ### The cursor only moves forward, and never past the end -/

theorem skip_whitespace_from_bounds (l : List Char) (pos : Nat) :
    pos ≤ skip_whitespace_from l pos ∧ skip_whitespace_from l pos ≤ pos + l.length := by
  induction l generalizing pos with
  | nil => simp [skip_whitespace_from]
  | cons c cs ih =>
    unfold skip_whitespace_from
    split
    · have := ih (pos + 1)
      simp only [List.length_cons]
      omega
    · simp

theorem char_at_lt_length {l : List Char} {i : Nat} (h : char_at l i ≠ NUL) : i < l.length := by
  by_contra hc
  apply h
  unfold char_at
  rw [List.drop_eq_nil_of_le (by omega)]
  rfl

namespace LLAnalysator

open TokenType

theorem scan_digits_bounds (l : List Char) (v pos : Nat) :
    pos ≤ (scan_digits l v pos).2.2 ∧ (scan_digits l v pos).2.2 ≤ pos + l.length := by
  induction l generalizing v pos with
  | nil => simp [scan_digits]
  | cons c cs ih =>
    unfold scan_digits
    split
    · simp only
      split
      · simp
      · have := ih (v * 10 + (c.toNat - 48)) (pos + 1)
        simp only [List.length_cons]
        omega
    · simp

/-- The lexer moves the cursor forward, not past the end of the input, and by at least one
character when it returns a `TOK_1`. -/
theorem get_next_token_pos (p : Parser) (hpos : p.pos ≤ p.input.length) :
    p.pos ≤ (get_next_token p).2.pos ∧ (get_next_token p).2.pos ≤ p.input.length ∧
    ((get_next_token p).1.type = TOK_1 → p.pos < (get_next_token p).2.pos) := by
  have hs := skip_whitespace_from_bounds (p.input.drop p.pos) p.pos
  have hlen : (p.input.drop p.pos).length = p.input.length - p.pos := List.length_drop _ _
  have hd := scan_digits_bounds
    (p.input.drop (skip_whitespace_from (p.input.drop p.pos) p.pos)) 0
    (skip_whitespace_from (p.input.drop p.pos) p.pos)
  have hlen2 : (p.input.drop (skip_whitespace_from (p.input.drop p.pos) p.pos)).length
      = p.input.length - skip_whitespace_from (p.input.drop p.pos) p.pos := List.length_drop _ _
  have key : char_at p.input (skip_whitespace_from (p.input.drop p.pos) p.pos) ≠ NUL →
      skip_whitespace_from (p.input.drop p.pos) p.pos < p.input.length := char_at_lt_length
  rcases hr : get_next_token p with ⟨tok, p'⟩
  simp only
  unfold get_next_token skip_whitespace at hr
  simp only at hr
  split_ifs at hr with h0 h1 h2 h3 h4 h5 h6 h7
  · cases hr
    exact ⟨by simp only; omega, by simp only; omega, by intro h; cases h⟩
  · cases hr
    have := key h0
    exact ⟨by simp only; omega, by simp only; omega, by intro _; simp only; omega⟩
  · cases hr
    have := key h0
    exact ⟨by simp only; omega, by simp only; omega, by intro h; cases h⟩
  · cases hr
    have := key h0
    exact ⟨by simp only; omega, by simp only; omega, by intro h; cases h⟩
  · cases hr
    have := key h0
    exact ⟨by simp only; omega, by simp only; omega, by intro h; cases h⟩
  · cases hr
    have := key h0
    exact ⟨by simp only; omega, by simp only; omega, by intro h; cases h⟩
  · cases hr
    have := key h0
    exact ⟨by simp only; omega, by simp only; omega, by intro h; cases h⟩
  · rcases hsc : scan_digits
      (p.input.drop (skip_whitespace_from (p.input.drop p.pos) p.pos)) 0
      (skip_whitespace_from (p.input.drop p.pos) p.pos) with ⟨b, v, q⟩
    rw [hsc] at hr hd
    simp only at hd
    cases b
    · simp only at hr
      split_ifs at hr
      · cases hr
        exact ⟨by simp only; omega, by simp only; omega, by intro h; cases h⟩
      · cases hr
        exact ⟨by simp only; omega, by simp only; omega, by intro h; cases h⟩
    · simp only at hr
      cases hr
      exact ⟨by simp only; omega, by simp only; omega, by intro h; cases h⟩
  · cases hr
    exact ⟨by simp only; omega, by simp only; omega, by intro h; cases h⟩

theorem advance_pos (p : Parser) (hpos : p.pos ≤ p.input.length) :
    p.pos ≤ (advance p).pos ∧ (advance p).pos ≤ (advance p).input.length := by
  unfold advance
  split
  · obtain ⟨h1, h2, _⟩ := get_next_token_pos p hpos
    simp only
    rw [(get_next_token_frame p).1]
    exact ⟨h1, h2⟩
  · exact ⟨le_refl _, hpos⟩

theorem match_pos (p : Parser) (ty : TokenType) (hpos : p.pos ≤ p.input.length) :
    p.pos ≤ (match_ p ty).2.pos ∧ (match_ p ty).2.pos ≤ (match_ p ty).2.input.length := by
  unfold match_
  split
  · exact advance_pos p hpos
  · exact ⟨le_refl _, hpos⟩

theorem parse_N_pos (p : Parser) (hpos : p.pos ≤ p.input.length) :
    p.pos ≤ (parse_N p).2.pos ∧ (parse_N p).2.pos ≤ (parse_N p).2.input.length := by
  unfold parse_N
  split
  · exact ⟨le_refl _, hpos⟩
  · exact match_pos p TOK_DIGIT hpos

theorem parse_F_pos (p : Parser) (hpos : p.pos ≤ p.input.length) :
    p.pos ≤ (parse_F p).pos ∧ (parse_F p).pos ≤ (parse_F p).input.length := by
  obtain ⟨a1, b1⟩ := match_pos p TOK_1 hpos
  obtain ⟨a2, b2⟩ := match_pos _ TOK_SLASH b1
  obtain ⟨a3, b3⟩ := match_pos _ TOK_LPAREN b2
  obtain ⟨a4, b4⟩ := parse_N_pos _ b3
  unfold parse_F
  simp only
  rcases hN : parse_N (match_ (match_ (match_ p TOK_1).2 TOK_SLASH).2 TOK_LPAREN).2 with ⟨r, p4⟩
  rw [hN] at a4 b4
  simp only at a4 b4
  cases r with
  | none =>
    show p.pos ≤ p4.pos ∧ p4.pos ≤ p4.input.length
    exact ⟨by omega, b4⟩
  | some a =>
    simp only
    obtain ⟨a5, b5⟩ := match_pos p4 TOK_MUL b4
    obtain ⟨a6, b6⟩ := parse_N_pos _ b5
    rcases hN2 : parse_N (match_ p4 TOK_MUL).2 with ⟨r2, p6⟩
    rw [hN2] at a6 b6
    simp only at a6 b6
    cases r2 with
    | none =>
      show p.pos ≤ p6.pos ∧ p6.pos ≤ p6.input.length
      exact ⟨by omega, b6⟩
    | some b =>
      simp only
      obtain ⟨a7, b7⟩ := match_pos p6 TOK_RPAREN b6
      split
      · exact ⟨by simp only; omega, b7⟩
      · exact ⟨by simp only; omega, b7⟩

end LLAnalysator

namespace LLAnalysator

open TokenType

theorem match_ok_type (p : Parser) (ty : TokenType) (h : (match_ p ty).2.has_error = false) :
    p.has_error = false ∧ p.lookahead.type = ty := by
  by_cases hty : p.lookahead.type = ty
  · refine ⟨?_, hty⟩
    by_contra hc
    have hc' : p.has_error = true := by simpa using hc
    rw [match_error p ty hc'] at h
    cases h
  · simp [match_, hty] at h

theorem parse_F_input (p : Parser) : (parse_F p).input = p.input := by
  have i1 := match_input p TOK_1
  have i2 := match_input (match_ p TOK_1).2 TOK_SLASH
  have i3 := match_input (match_ (match_ p TOK_1).2 TOK_SLASH).2 TOK_LPAREN
  have i4 := parse_N_input (match_ (match_ (match_ p TOK_1).2 TOK_SLASH).2 TOK_LPAREN).2
  unfold parse_F
  simp only
  rcases hN : parse_N (match_ (match_ (match_ p TOK_1).2 TOK_SLASH).2 TOK_LPAREN).2 with ⟨r, p4⟩
  rw [hN] at i4
  simp only at i4
  have j4 : p4.input = p.input := by rw [i4, i3, i2, i1]
  cases r with
  | none => exact j4
  | some a =>
    simp only
    have i5 := match_input p4 TOK_MUL
    have i6 := parse_N_input (match_ p4 TOK_MUL).2
    rcases hN2 : parse_N (match_ p4 TOK_MUL).2 with ⟨r2, p6⟩
    rw [hN2] at i6
    simp only at i6
    have j6 : p6.input = p.input := by rw [i6, i5, j4]
    cases r2 with
    | none => exact j6
    | some b =>
      simp only
      have i7 := match_input p6 TOK_RPAREN
      split
      · show (match_ p6 TOK_RPAREN).2.input = p.input
        rw [i7, j6]
      · show (match_ p6 TOK_RPAREN).2.input = p.input
        rw [i7, j6]

/-- Between two calls of `parse_S_prime` the cursor moves strictly forward: after a `+` has
been matched and `parse_F` has left no error, `pos` is greater than before, and still within
the input. -/
theorem parse_S_prime_progress (p : Parser) (hpos : p.pos ≤ p.input.length)
    (hty : p.lookahead.type = TOK_PLUS)
    (hok : (parse_F (match_ p TOK_PLUS).2).has_error = false) :
    p.pos < (parse_F (match_ p TOK_PLUS).2).pos ∧
    (parse_F (match_ p TOK_PLUS).2).pos ≤ p.input.length ∧
    (parse_F (match_ p TOK_PLUS).2).input = p.input := by
  have hfirst : (match_ (match_ p TOK_PLUS).2 TOK_1).2.has_error = false := by
    by_contra hc
    have hc' : (match_ (match_ p TOK_PLUS).2 TOK_1).2.has_error = true := by simpa using hc
    rw [parse_F_error_of_first _ hc'] at hok
    cases hok
  obtain ⟨e1, t1⟩ := match_ok_type _ TOK_1 hfirst
  obtain ⟨e0, _⟩ := match_ok_type p TOK_PLUS e1
  have hm : (match_ p TOK_PLUS).2 =
      { (get_next_token p).2 with lookahead := (get_next_token p).1 } := by
    simp [match_, advance, hty, e0]
  obtain ⟨_, g2, g3⟩ := get_next_token_pos p hpos
  have i1 : (match_ p TOK_PLUS).2.input = p.input := match_input p TOK_PLUS
  have hp1 : p.pos < (match_ p TOK_PLUS).2.pos := by
    rw [hm] at t1 ⊢
    exact g3 t1
  have hb1 : (match_ p TOK_PLUS).2.pos ≤ (match_ p TOK_PLUS).2.input.length :=
    (match_pos p TOK_PLUS hpos).2
  obtain ⟨f1, f2⟩ := parse_F_pos _ hb1
  have i2 := parse_F_input (match_ p TOK_PLUS).2
  refine ⟨by omega, ?_, by rw [i2, i1]⟩
  rw [i2, i1] at f2
  exact f2

/-- The bound given to `parse_S_prime` is never exhausted when it exceeds the number of
characters left, and the result does not depend on it. -/
theorem parse_S_prime_fuel (fuel : Nat) :
    ∀ p : Parser, p.pos ≤ p.input.length → p.input.length < fuel + p.pos →
      parse_S_prime fuel p ≠ .error Fault.out_of_fuel ∧
      ∀ fuel', p.input.length < fuel' + p.pos → parse_S_prime fuel' p = parse_S_prime fuel p := by
  induction fuel with
  | zero =>
    intro p h1 h2
    omega
  | succ f ih =>
    intro p h1 h2
    by_cases hty : p.lookahead.type = TOK_PLUS
    · by_cases hok : (parse_F (match_ p TOK_PLUS).2).has_error = true
      · constructor
        · unfold parse_S_prime
          simp [hty, hok]
        · intro fuel' h3
          obtain ⟨f', rfl⟩ : ∃ f', fuel' = f' + 1 := ⟨fuel' - 1, by omega⟩
          unfold parse_S_prime
          simp [hty, hok]
      · have hok' : (parse_F (match_ p TOK_PLUS).2).has_error = false := by simpa using hok
        obtain ⟨g1, g2, g3⟩ := parse_S_prime_progress p h1 hty hok'
        constructor
        · unfold parse_S_prime
          simp only [hty, if_true, hok', Bool.false_eq_true, if_false]
          split
          · intro h
            injection h with h
            split at h <;> cases h
          · rename_i htr
            clear htr
            exact (ih _ (by simp only; rw [g3]; exact g2) (by simp only; rw [g3]; omega)).1
        · intro fuel' h3
          obtain ⟨f', rfl⟩ : ∃ f', fuel' = f' + 1 := ⟨fuel' - 1, by omega⟩
          unfold parse_S_prime
          simp only [hty, if_true, hok', Bool.false_eq_true, if_false]
          split
          · rfl
          · rename_i htr
            clear htr
            exact (ih _ (by simp only; rw [g3]; exact g2) (by simp only; rw [g3]; omega)).2 f'
              (by simp only; rw [g3]; omega)
    · constructor
      · cases f <;> (unfold parse_S_prime; simp [hty])
      · intro fuel' _
        cases fuel' <;> (unfold parse_S_prime; simp [hty])

theorem parser_init_pos (input : List Char) :
    (parser_init input).pos ≤ (parser_init input).input.length ∧
    ((parser_init input).lookahead.type = TOK_1 → 0 < (parser_init input).pos) := by
  have h := get_next_token_pos ⟨input, 0, ⟨TOK_INVALID, 0, 0⟩, false, none, 1, 1, 0, 0⟩
    (Nat.zero_le _)
  have hi := (get_next_token_frame ⟨input, 0, ⟨TOK_INVALID, 0, 0⟩, false, none, 1, 1, 0, 0⟩).1
  unfold parser_init
  simp only
  rw [hi]
  exact ⟨h.2.1, h.2.2⟩

/-- The run of the parser never exhausts the bound given to `parse_S_prime`. -/
theorem run_terminates (input : List Char) : run input ≠ .error Fault.out_of_fuel := by
  obtain ⟨b0, c0⟩ := parser_init_pos input
  unfold run parse_S
  generalize parser_init input = p0 at *
  split
  · rename_i hty
    simp only
    have c0' := c0 hty
    obtain ⟨a1, b1⟩ := match_pos { p0 with sum_num := 1, sum_den := 1 } TOK_1 b0
    have i1 := match_input { p0 with sum_num := 1, sum_den := 1 } TOK_1
    simp only at a1 i1
    generalize (match_ { p0 with sum_num := 1, sum_den := 1 } TOK_1).2 = p1 at *
    split
    · obtain ⟨a2, b2⟩ := parse_F_pos p1 b1
      generalize parse_F p1 = p2 at *
      split
      · intro h
        cases h
      · exact (parse_S_prime_fuel _ _ (by simp only; exact b2) (by simp only; omega)).1
    · exact (parse_S_prime_fuel _ _ b1 (by omega)).1
  · intro h
    cases h

end LLAnalysator

/-! ### The divisor of the reduction step is never zero in `LLAnalysator.c` -/

theorem natAbs_tmod (a b : Int) : (a.tmod b).natAbs = a.natAbs % b.natAbs := by
  cases a <;> cases b <;> simp [Int.tmod, Int.natAbs_neg] <;> rfl

theorem natAbs_tdiv (a b : Int) : (a.tdiv b).natAbs = a.natAbs / b.natAbs := by
  cases a <;> cases b <;> simp [Int.tdiv, Int.natAbs_neg] <;> rfl

theorem natAbs_compute_gcd_loop (fuel : Nat) :
    ∀ (a b : Int), b.natAbs < fuel →
      (compute_gcd_loop fuel a b).natAbs = Nat.gcd a.natAbs b.natAbs := by
  induction fuel with
  | zero => intro a b h; omega
  | succ f ih =>
    intro a b h
    unfold compute_gcd_loop
    by_cases hb : b = 0
    · subst hb
      simp
    · simp only [hb, if_false]
      have hlt := natAbs_tmod_lt a b hb
      rw [ih b (a.tmod b) (by omega), natAbs_tmod, Nat.gcd_comm b.natAbs, ← Nat.gcd_rec,
        Nat.gcd_comm]

/-- Up to its sign, `compute_gcd` is the greatest common divisor on all arguments. -/
theorem natAbs_compute_gcd (a b : Int) : (compute_gcd a b).natAbs = Int.gcd a b := by
  unfold compute_gcd
  rw [natAbs_compute_gcd_loop _ a b (by omega)]
  rfl

theorem compute_gcd_eq_zero (a b : Int) : compute_gcd a b = 0 ↔ a = 0 ∧ b = 0 := by
  rw [← Int.natAbs_eq_zero, natAbs_compute_gcd]
  show Nat.gcd a.natAbs b.natAbs = 0 ↔ _
  rw [Nat.gcd_eq_zero_iff, Int.natAbs_eq_zero, Int.natAbs_eq_zero]

theorem wrap64_dvd (x : Int) : (18446744073709551616 : Int) ∣ wrap64 x - x := by
  refine ⟨-((x + 9223372036854775808) / 18446744073709551616), ?_⟩
  unfold wrap64
  omega

theorem wrap64_range (x : Int) :
    -9223372036854775808 ≤ wrap64 x ∧ wrap64 x ≤ 9223372036854775807 := by
  unfold wrap64
  omega

theorem natAbs_wrap64 (z : Int) (h : z.natAbs ≤ 9223372036854775808) :
    (wrap64 z).natAbs = z.natAbs := by
  unfold wrap64
  omega

/-- With a reduced accumulator `n/d` and a product `D` between 1 and `INT_MAX`, the new
numerator and the new denominator are not both zero, whatever wraps around. -/
theorem new_sum_ne_zero (n d : Int) (D : Nat) (hnd : Int.gcd n d = 1) (hD : 0 < D)
    (hD' : D ≤ INT_MAX) :
    ¬ (wrap64 (wrap64 (n * wrap64 (D : Int)) + wrap64 (d * 1)) = 0 ∧
       wrap64 (d * wrap64 (D : Int)) = 0) := by
  have hDr : wrap64 (D : Int) = (D : Int) := by
    apply wrap64_of_range
    · omega
    · unfold INT_MAX at hD'
      omega
  rw [hDr]
  rintro ⟨h1, h2⟩
  have a1 := wrap64_dvd (wrap64 (n * (D : Int)) + wrap64 (d * 1))
  have a2 := wrap64_dvd (n * (D : Int))
  have a3 := wrap64_dvd (d * 1)
  have a4 := wrap64_dvd (d * (D : Int))
  rw [h1] at a1
  rw [h2] at a4
  have b1 : (18446744073709551616 : Int) ∣ n * (D : Int) + d := by
    have := dvd_sub (dvd_sub a2 a1) (dvd_neg.mpr a3)
    have e : wrap64 (n * (D : Int)) - n * (D : Int)
        - (0 - (wrap64 (n * (D : Int)) + wrap64 (d * 1))) - -(wrap64 (d * 1) - d * 1)
        = 2 * (wrap64 (n * (D : Int)) + wrap64 (d * 1)) - (n * (D : Int) + d) := by ring
    rw [e] at this
    have a1' : (18446744073709551616 : Int) ∣ wrap64 (n * (D : Int)) + wrap64 (d * 1) := by
      have := dvd_neg.mpr a1
      simpa using this
    have := dvd_sub (Dvd.dvd.mul_left a1' 2) this
    simpa using this
  have b2 : (18446744073709551616 : Int) ∣ d * (D : Int) := by
    have := dvd_neg.mpr a4
    simpa using this
  have c1 : (18446744073709551616 : Int) ∣ n * ((D : Int) * (D : Int)) := by
    have := dvd_sub (Dvd.dvd.mul_right b1 (D : Int)) b2
    have e : (n * (D : Int) + d) * (D : Int) - d * (D : Int) = n * ((D : Int) * (D : Int)) := by
      ring
    rw [e] at this
    exact this
  have c2 : (18446744073709551616 : Int) ∣ d * ((D : Int) * (D : Int)) := by
    have := Dvd.dvd.mul_right b2 (D : Int)
    rw [mul_assoc] at this
    exact this
  have c3 := Int.dvd_gcd c1 c2
  rw [Int.gcd_mul_right, hnd, one_mul] at c3
  have hpos : (0 : Int) < (((D : Int) * (D : Int)).natAbs : Int) := by
    have : (0 : Int) < (D : Int) * (D : Int) := by positivity
    omega
  have hle := Int.le_of_dvd hpos c3
  have hsq : (((D : Int) * (D : Int)).natAbs : Int) = ((D * D : Nat) : Int) := by
    rw [← Nat.cast_mul]
    simp
  rw [hsq] at hle
  have hbound : D * D ≤ 2147483647 * 2147483647 := by
    unfold INT_MAX at hD'
    exact Nat.mul_le_mul hD' hD'
  omega

/-- The reduction step gives a reduced fraction again. -/
theorem reduced_after_division (x y : Int) (hx : x.natAbs ≤ 9223372036854775808)
    (hy : y.natAbs ≤ 9223372036854775808) (hg : compute_gcd x y ≠ 0) :
    Int.gcd (wrap64 (x.tdiv (compute_gcd x y))) (wrap64 (y.tdiv (compute_gcd x y))) = 1 := by
  have hpos : 0 < Nat.gcd x.natAbs y.natAbs := by
    have h := Int.natAbs_pos.mpr hg
    rw [natAbs_compute_gcd] at h
    exact h
  have e1 : (x.tdiv (compute_gcd x y)).natAbs = x.natAbs / Nat.gcd x.natAbs y.natAbs := by
    rw [natAbs_tdiv, natAbs_compute_gcd]
    rfl
  have e2 : (y.tdiv (compute_gcd x y)).natAbs = y.natAbs / Nat.gcd x.natAbs y.natAbs := by
    rw [natAbs_tdiv, natAbs_compute_gcd]
    rfl
  have r1 : (x.tdiv (compute_gcd x y)).natAbs ≤ 9223372036854775808 := by
    rw [e1]
    exact le_trans (Nat.div_le_self _ _) hx
  have r2 : (y.tdiv (compute_gcd x y)).natAbs ≤ 9223372036854775808 := by
    rw [e2]
    exact le_trans (Nat.div_le_self _ _) hy
  show Nat.gcd (wrap64 (x.tdiv (compute_gcd x y))).natAbs
    (wrap64 (y.tdiv (compute_gcd x y))).natAbs = 1
  rw [natAbs_wrap64 _ r1, natAbs_wrap64 _ r2, e1, e2]
  exact Nat.coprime_div_gcd_div_gcd hpos

theorem natAbs_wrap64_le (x : Int) : (wrap64 x).natAbs ≤ 9223372036854775808 := by
  have := wrap64_range x
  omega

namespace LLAnalysator

open TokenType

theorem match_sums (p : Parser) (ty : TokenType) :
    (match_ p ty).2.sum_num = p.sum_num ∧ (match_ p ty).2.sum_den = p.sum_den := by
  unfold match_
  split
  · exact ⟨(advance_frame p).2.1, (advance_frame p).2.2.1⟩
  · exact ⟨rfl, rfl⟩

theorem parse_N_sums (p : Parser) :
    (parse_N p).2.sum_num = p.sum_num ∧ (parse_N p).2.sum_den = p.sum_den := by
  unfold parse_N
  split
  · exact ⟨rfl, rfl⟩
  · exact match_sums p TOK_DIGIT

theorem parse_N_some (p p' : Parser) (a : Nat) (h : parse_N p = (some a, p')) : 1 ≤ a := by
  unfold parse_N at h
  split at h
  · cases h
  · rename_i hc
    simp only [Prod.mk.injEq, Option.some.injEq] at h
    rw [← h.1]
    omega

/-- The function `parse_F` does not touch the accumulator, and when it leaves no error the two
numbers it has stored are at least 1 and their product is at most `INT_MAX`. -/
theorem parse_F_values (p : Parser) :
    (parse_F p).sum_num = p.sum_num ∧ (parse_F p).sum_den = p.sum_den ∧
    ((parse_F p).has_error = false →
      0 < (parse_F p).current_a * (parse_F p).current_b ∧
      (parse_F p).current_a * (parse_F p).current_b ≤ INT_MAX) := by
  obtain ⟨s1, d1⟩ := match_sums p TOK_1
  obtain ⟨s2, d2⟩ := match_sums (match_ p TOK_1).2 TOK_SLASH
  obtain ⟨s3, d3⟩ := match_sums (match_ (match_ p TOK_1).2 TOK_SLASH).2 TOK_LPAREN
  obtain ⟨s4, d4⟩ := parse_N_sums (match_ (match_ (match_ p TOK_1).2 TOK_SLASH).2 TOK_LPAREN).2
  unfold parse_F
  simp only
  rcases hN : parse_N (match_ (match_ (match_ p TOK_1).2 TOK_SLASH).2 TOK_LPAREN).2 with ⟨r, p4⟩
  rw [hN] at s4 d4
  simp only at s4 d4
  have js : p4.sum_num = p.sum_num := by rw [s4, s3, s2, s1]
  have jd : p4.sum_den = p.sum_den := by rw [d4, d3, d2, d1]
  cases r with
  | none =>
    refine ⟨js, jd, fun hok => ?_⟩
    have := parse_N_none _ _ hN
    simp only at hok
    rw [this] at hok
    cases hok
  | some a =>
    simp only
    have ha := parse_N_some _ _ _ hN
    obtain ⟨s5, d5⟩ := match_sums p4 TOK_MUL
    obtain ⟨s6, d6⟩ := parse_N_sums (match_ p4 TOK_MUL).2
    rcases hN2 : parse_N (match_ p4 TOK_MUL).2 with ⟨r2, p6⟩
    rw [hN2] at s6 d6
    simp only at s6 d6
    have ks : p6.sum_num = p.sum_num := by rw [s6, s5, js]
    have kd : p6.sum_den = p.sum_den := by rw [d6, d5, jd]
    cases r2 with
    | none =>
      refine ⟨ks, kd, fun hok => ?_⟩
      have := parse_N_none _ _ hN2
      simp only at hok
      rw [this] at hok
      cases hok
    | some b =>
      simp only
      have hb := parse_N_some _ _ _ hN2
      obtain ⟨s7, d7⟩ := match_sums p6 TOK_RPAREN
      by_cases hprod : a * b > INT_MAX
      · rw [if_pos hprod]
        refine ⟨by rw [← ks, ← s7], by rw [← kd, ← d7], fun hok => ?_⟩
        cases hok
      · rw [if_neg hprod]
        refine ⟨by rw [← ks, ← s7], by rw [← kd, ← d7], fun _ => ?_⟩
        exact ⟨Nat.mul_pos ha hb, by simp only; omega⟩

/-- With a reduced accumulator, `parse_S_prime` returns a parser state or is ended by the
trap of the division of `LLONG_MIN` by `-1`: it neither exhausts its bound nor divides by
zero. -/
theorem parse_S_prime_total (fuel : Nat) :
    ∀ p : Parser, Int.gcd p.sum_num p.sum_den = 1 → p.pos ≤ p.input.length →
      p.input.length < fuel + p.pos →
      (∃ q, parse_S_prime fuel p = .ok q) ∨ parse_S_prime fuel p = .error Fault.div_overflow := by
  induction fuel with
  | zero =>
    intro p _ h1 h2
    omega
  | succ fuel ih =>
    intro p hnd h1 h2
    unfold parse_S_prime
    by_cases hty : p.lookahead.type = TOK_PLUS
    · simp only [hty, if_true]
      have hprog := parse_S_prime_progress p h1 hty
      obtain ⟨vs, vd, vv⟩ := parse_F_values (match_ p TOK_PLUS).2
      obtain ⟨ms, md⟩ := match_sums p TOK_PLUS
      generalize parse_F (match_ p TOK_PLUS).2 = p2 at hprog vs vd vv
      by_cases herr : p2.has_error = true
      · rw [if_pos herr]
        exact Or.inl ⟨p2, rfl⟩
      · rw [if_neg herr]
        have herr' : p2.has_error = false := by simpa using herr
        obtain ⟨g1, g2, g3⟩ := hprog herr'
        obtain ⟨v1, v2⟩ := vv herr'
        have hnd2 : Int.gcd p2.sum_num p2.sum_den = 1 := by rw [vs, vd, ms, md]; exact hnd
        have hne := new_sum_ne_zero p2.sum_num p2.sum_den (p2.current_a * p2.current_b) hnd2 v1 v2
        rw [Nat.cast_mul] at hne
        have hg : compute_gcd
            (wrap64 (wrap64 (p2.sum_num * wrap64 ((p2.current_a : Int) * (p2.current_b : Int)))
              + wrap64 (p2.sum_den * 1)))
            (wrap64 (p2.sum_den * wrap64 ((p2.current_a : Int) * (p2.current_b : Int)))) ≠ 0 := by
          intro hc
          exact hne ((compute_gcd_eq_zero _ _).mp hc)
        by_cases htr : reduction_traps
            (wrap64 (wrap64 (p2.sum_num * wrap64 ((p2.current_a : Int) * (p2.current_b : Int)))
              + wrap64 (p2.sum_den * 1)))
            (wrap64 (p2.sum_den * wrap64 ((p2.current_a : Int) * (p2.current_b : Int))))
        · rw [if_pos htr, if_neg hg]
          exact Or.inr rfl
        · rw [if_neg htr]
          clear htr
          apply ih
          · exact reduced_after_division _ _ (natAbs_wrap64_le _) (natAbs_wrap64_le _) hg
          · show p2.pos ≤ p2.input.length
            rw [g3]
            exact g2
          · show p2.input.length < fuel + p2.pos
            rw [g3]
            omega
    · simp only [hty, if_false]
      exact Or.inl ⟨p, rfl⟩

/-- On every input the run of the parser returns a parser state or is ended by the trap of
the division of `LLONG_MIN` by `-1`. -/
theorem run_total (input : List Char) :
    (∃ q, run input = .ok q) ∨ run input = .error Fault.div_overflow := by
  obtain ⟨b0, c0⟩ := parser_init_pos input
  unfold run parse_S
  generalize parser_init input = p0 at *
  simp only
  by_cases hty : p0.lookahead.type = TOK_1
  · rw [if_pos hty]
    have c0' := c0 hty
    obtain ⟨a1, b1⟩ := match_pos { p0 with sum_num := 1, sum_den := 1 } TOK_1 b0
    have i1 := match_input { p0 with sum_num := 1, sum_den := 1 } TOK_1
    obtain ⟨ms, md⟩ := match_sums { p0 with sum_num := 1, sum_den := 1 } TOK_1
    simp only at a1 i1 ms md
    generalize (match_ { p0 with sum_num := 1, sum_den := 1 } TOK_1).2 = p1 at *
    by_cases hsl : p1.lookahead.type = TOK_SLASH
    · rw [if_pos hsl]
      obtain ⟨a2, b2⟩ := parse_F_pos p1 b1
      generalize parse_F p1 = p2 at *
      by_cases herr : p2.has_error = true
      · rw [if_pos herr]
        exact Or.inl ⟨p2, rfl⟩
      · rw [if_neg herr]
        apply parse_S_prime_total
        · show Nat.gcd 1 _ = 1
          exact Nat.gcd_one_left _
        · exact b2
        · show p2.input.length < p2.input.length + p2.pos
          omega
    · rw [if_neg hsl]
      apply parse_S_prime_total
      · rw [ms, md]
        rfl
      · exact b1
      · omega
  · rw [if_neg hty]
    exact Or.inl ⟨_, rfl⟩

/-- On every input the function `parse` prints a result or is ended by the trap of the
division of `LLONG_MIN` by `-1`. -/
theorem parse_total (input : List Char) :
    (∃ out, parse input = .ok out) ∨ parse input = .error Fault.div_overflow := by
  unfold parse
  rcases run_total input with ⟨q, hq⟩ | hq
  · rw [hq]
    simp only
    split
    · exact Or.inl ⟨_, rfl⟩
    · exact Or.inl ⟨_, rfl⟩
  · rw [hq]
    exact Or.inr rfl

end LLAnalysator

namespace LLAnalysator

open TokenType

/-- C16. The function `parse` is not a total function of the input string: on
"1 + 1/(1*1000029) + 1/(1*687990705) + 1/(1*1729554825)" the accumulator is
76445705080131/76445628525605 after two terms, at the third term `new_num` wraps to
`LLONG_MIN`, `compute_gcd` returns `-1`, and the division `new_num / gcd` of
`parse_S_prime` traps, so that `parse` prints nothing; on the same input `parse` of
RecursionAnalysator.c, which checks the overflow of the sum, prints a diagnostic.
What holds of termination on every input: the run ends with a parser state or with that
trap, and so does `parse`; the bound that the embedding gives to the recursion of
`parse_S_prime` is never exhausted, the reduction step never divides by zero, and with any
bound greater than the number of characters left the result of `parse_S_prime` is the same;
each recursive call of `parse_S_prime` is made after `match(TOK_PLUS)` and an error-free
`parse_F` have strictly advanced `pos`, which stays within the input; the lexer and the loops
of `skip_whitespace` and of the digits only move `pos` forward, never past the terminator. -/
theorem C16_parse_ended_by_division_trap :
    (parse "1 + 1/(1*1000029) + 1/(1*687990705) + 1/(1*1729554825)".toList
        = .error Fault.div_overflow ∧
      parse "1 + 1/(1*1000029) + 1/(1*687990705)".toList
        = .ok (Output.correct 76445705080131 76445628525605) ∧
      wrap64 (wrap64 (76445705080131 * wrap64 (1 * 1729554825)) + wrap64 (76445628525605 * 1))
        = LLONG_MIN ∧
      compute_gcd LLONG_MIN (wrap64 (76445628525605 * wrap64 (1 * 1729554825))) = -1 ∧
      RecursionAnalysator.parse "1 + 1/(1*1000029) + 1/(1*687990705) + 1/(1*1729554825)".toList
        = .ok (RecursionAnalysator.Output.error (some (RecursionAnalysator.Msg.sum_overflow 54)))) ∧
    (∀ input : List Char,
      ((∃ q, run input = .ok q) ∨ run input = .error Fault.div_overflow) ∧
      ((∃ out, parse input = .ok out) ∨ parse input = .error Fault.div_overflow)) ∧
    (∀ (p : Parser) (fuel : Nat), p.pos ≤ p.input.length → p.input.length < fuel + p.pos →
      parse_S_prime fuel p ≠ .error Fault.out_of_fuel ∧
      ∀ fuel', p.input.length < fuel' + p.pos → parse_S_prime fuel' p = parse_S_prime fuel p) ∧
    (∀ p : Parser, p.pos ≤ p.input.length → p.lookahead.type = TOK_PLUS →
      (parse_F (match_ p TOK_PLUS).2).has_error = false →
      p.pos < (parse_F (match_ p TOK_PLUS).2).pos ∧
      (parse_F (match_ p TOK_PLUS).2).pos ≤ p.input.length) ∧
    (∀ p : Parser, p.pos ≤ p.input.length →
      p.pos ≤ (get_next_token p).2.pos ∧ (get_next_token p).2.pos ≤ p.input.length) ∧
    (∀ (l : List Char) (pos : Nat),
      pos ≤ skip_whitespace_from l pos ∧ skip_whitespace_from l pos ≤ pos + l.length) ∧
    (∀ (l : List Char) (v pos : Nat),
      pos ≤ (scan_digits l v pos).2.2 ∧ (scan_digits l v pos).2.2 ≤ pos + l.length) := by
  refine ⟨⟨?_, ?_, ?_, ?_, ?_⟩, fun input => ⟨run_total input, parse_total input⟩,
    fun p fuel h1 h2 => parse_S_prime_fuel fuel p h1 h2, ?_, ?_,
    skip_whitespace_from_bounds, scan_digits_bounds⟩
  · rfl
  · rfl
  · rfl
  · rfl
  · rfl
  · intro p h1 h2 h3
    obtain ⟨g1, g2, _⟩ := parse_S_prime_progress p h1 h2 h3
    exact ⟨g1, g2⟩
  · intro p h1
    obtain ⟨g1, g2, _⟩ := get_next_token_pos p h1
    exact ⟨g1, g2⟩

end LLAnalysator

/-! ### The character-level parser on the canonical text of a term -/

theorem decimal_length_le (a : Nat) (ha : a ≤ INT_MAX) : (decimal a).length ≤ 10 := by
  unfold decimal Nat.toDigits
  exact Nat.toDigitsCore_length 10 (by decide) (a + 1) a 10
    (by simp only [INT_MAX] at ha; omega) (by decide)

namespace RecursionAnalysator

theorem skip_whitespace_blank_run (p : Parser) (ws rest : List Char)
    (h : p.input.drop p.pos = ws ++ rest)
    (hws : ∀ c ∈ ws, isspace c = true) (hrest : ∀ c ∈ rest.head?, isspace c = false) :
    skip_whitespace p = { p with pos := p.pos + ws.length } := by
  unfold skip_whitespace
  rw [h, skip_whitespace_from_run ws rest p.pos hws hrest]

/-- The function `expect` on the expected character, which is not whitespace. -/
theorem expect_char (p : Parser) (c : Char) (rest : List Char)
    (h : p.input.drop p.pos = c :: rest) (hc : isspace c = false) :
    expect p c = (true, { p with pos := p.pos + 1 }) := by
  have hsk := skip_whitespace_blank_run p [] (c :: rest) h (by simp)
    (by intro c' hc'; simp at hc'; subst hc'; exact hc)
  simp only [List.length_nil, Nat.add_zero] at hsk
  have hch : char_at p.input p.pos = c := char_at_of_drop h
  unfold expect
  simp [hsk, hch]

theorem scan_digit_run_run (ds rest : List Char) (pos : Nat)
    (hds : ∀ c ∈ ds, isdigit c = true) (hrest : ∀ c ∈ rest.head?, isdigit c = false) :
    scan_digit_run (ds ++ rest) pos = pos + ds.length := by
  induction ds generalizing pos with
  | nil =>
    cases rest with
    | nil => simp [scan_digit_run]
    | cons c r =>
      have : isdigit c = false := hrest c (by simp)
      simp [scan_digit_run, this]
  | cons d ds ih =>
    have hd : isdigit d = true := hds d (by simp)
    have := ih (pos + 1) (fun c hc => hds c (by simp [hc]))
    simp only [List.cons_append, scan_digit_run, hd, if_true, List.length_cons]
    simp only [List.append_eq] at this ⊢
    rw [this]
    omega

/-- The function `parse_natural` on the decimal writing of a number between 1 and `INT_MAX`
that is not followed by a digit. -/
theorem parse_natural_decimal (p : Parser) (a : Nat) (rest : List Char)
    (h : p.input.drop p.pos = decimal a ++ rest)
    (hrest : ∀ c ∈ rest.head?, isdigit c = false) (ha : 1 ≤ a) (ha' : a ≤ INT_MAX) :
    parse_natural p = (some a, { p with pos := p.pos + (decimal a).length }) := by
  obtain ⟨d, r, hdr, hd0⟩ := decimal_head a ha
  have hdig := decimal_isdigit a
  have hd : isdigit d = true := hdig d (by rw [hdr]; simp)
  have hsk := skip_whitespace_blank_run p [] (decimal a ++ rest) h (by simp)
    (by intro c' hc'
        rw [hdr] at hc'
        simp at hc'
        subst hc'
        exact isdigit_not_isspace hd)
  simp only [List.length_nil, Nat.add_zero] at hsk
  have hch : char_at p.input p.pos = d := char_at_of_drop (by rw [h, hdr]; rfl)
  have hscan := scan_digit_run_run (decimal a) rest p.pos hdig hrest
  have hlen := decimal_length_le a ha'
  have htake : (p.input.drop p.pos).take (decimal a).length = decimal a := by
    rw [h]
    simp
  have hval : atoll (decimal a) = (a : Int) := by
    unfold atoll
    rw [decimal_value_decimal]
    simp only [INT_MAX] at ha'
    simp only [LLONG_MAX]
    omega
  have hgt : ¬ ((a : Int) > ((INT_MAX : Nat) : Int)) := by
    have : (a : Int) ≤ ((INT_MAX : Nat) : Int) := by exact_mod_cast ha'
    omega
  unfold parse_natural
  simp only [hsk, hch, hd, h, hscan]
  have e1 : p.pos + (decimal a).length - p.pos = (decimal a).length := by omega
  simp only [e1, htake, hval]
  have h20 : ¬ ((decimal a).length ≥ 20) := by omega
  have htk : List.take (decimal a).length (decimal a ++ rest) = decimal a := by simp
  rw [htk, hval, if_neg (by simp), if_neg (by simp [hd0]), if_neg h20, if_neg hgt]
  simp

end RecursionAnalysator

namespace RecursionAnalysator

/-- The function `parse_fraction` on the text `1/(a*b)`, for two numbers between 1 and
`INT_MAX`: it fails with the product-overflow diagnostic when `a*b` exceeds `INT_MAX` and
returns the two numbers otherwise, the cursor being after the closing parenthesis. -/
theorem parse_fraction_term (input : List Char) (pos : Nat) (em : Option Msg) (sn sd : Int)
    (a b : Nat) (R : List Char)
    (h : input.drop pos = '1' :: '/' :: '(' :: (decimal a ++ '*' :: (decimal b ++ ')' :: R)))
    (ha : 1 ≤ a) (hb : 1 ≤ b) (ha' : a ≤ INT_MAX) (hb' : b ≤ INT_MAX) :
    parse_fraction ⟨input, pos, false, em, sn, sd⟩ =
      if a * b > INT_MAX then
        (none, ⟨input, pos + 3 + (decimal a).length + 1 + (decimal b).length + 1, true,
          some (Msg.product_overflow a b
            (pos + 3 + (decimal a).length + 1 + (decimal b).length + 1)), sn, sd⟩)
      else
        (some (a, b),
          ⟨input, pos + 3 + (decimal a).length + 1 + (decimal b).length + 1, false, em, sn, sd⟩)
    := by
  have h1 := expect_char ⟨input, pos, false, em, sn, sd⟩ '1' _ h rfl
  have d1 := drop_cons_next h
  have h2 := expect_char ⟨input, pos + 1, false, em, sn, sd⟩ '/' _ d1 rfl
  have d2 := drop_cons_next d1
  have h3 := expect_char ⟨input, pos + 1 + 1, false, em, sn, sd⟩ '(' _ d2 rfl
  have d3 := drop_cons_next d2
  have h4 := parse_natural_decimal ⟨input, pos + 1 + 1 + 1, false, em, sn, sd⟩ a _ d3
    (by intro c hc; simp at hc; subst hc; rfl) ha ha'
  have d4 := drop_append_next d3
  have h5 := expect_char
    ⟨input, pos + 1 + 1 + 1 + (decimal a).length, false, em, sn, sd⟩ '*' _ d4 rfl
  have d5 := drop_cons_next d4
  have h6 := parse_natural_decimal
    ⟨input, pos + 1 + 1 + 1 + (decimal a).length + 1, false, em, sn, sd⟩ b _ d5
    (by intro c hc; simp at hc; subst hc; rfl) hb hb'
  have d6 := drop_append_next d5
  have h7 := expect_char
    ⟨input, pos + 1 + 1 + 1 + (decimal a).length + 1 + (decimal b).length, false, em, sn, sd⟩
    ')' _ d6 rfl
  have e : pos + 1 + 1 + 1 + (decimal a).length + 1 + (decimal b).length + 1
      = pos + 3 + (decimal a).length + 1 + (decimal b).length + 1 := by omega
  unfold parse_fraction
  simp only [h1, h2, h3, h4, h5, h6, h7, e]

end RecursionAnalysator

namespace LLAnalysator

open TokenType

/-- The lexer never writes the product-overflow diagnostic. -/
theorem get_next_token_not_product (p : Parser)
    (h : ∀ a b q, p.error_msg ≠ some (Msg.product_overflow a b q)) :
    ∀ a b q, (get_next_token p).2.error_msg ≠ some (Msg.product_overflow a b q) := by
  rcases hr : get_next_token p with ⟨tok, p'⟩
  simp only
  unfold get_next_token skip_whitespace at hr
  simp only at hr
  split_ifs at hr <;>
    first
    | (cases hr; exact h)
    | (cases hr; intro a b q hc; cases hc)
    | skip
  split at hr
  · cases hr
    intro a b q hc
    cases hc
  · split_ifs at hr <;>
      first
      | (cases hr; exact h)
      | (cases hr; intro a b q hc; cases hc)

theorem advance_not_product (p : Parser)
    (h : ∀ a b q, p.error_msg ≠ some (Msg.product_overflow a b q)) :
    ∀ a b q, (advance p).error_msg ≠ some (Msg.product_overflow a b q) := by
  unfold advance
  split
  · exact get_next_token_not_product p h
  · exact h

end LLAnalysator

/-- C12, as the code has it. In an otherwise well-formed term `1/(a*b)` with `a` and `b`
between 1 and `INT_MAX`, `parse_F` of `LLAnalysator.c` and `parse_fraction` of
`RecursionAnalysator.c` reject the term for product overflow exactly when `a*b` exceeds
`INT_MAX`, the maximum of the 32-bit `int`, not that of the 64-bit type of the sums; when
`a*b` is at most `INT_MAX`, `parse_fraction` returns the two numbers. -/
theorem C12_product_overflow_threshold (a b : Nat) (ha : 1 ≤ a) (hb : 1 ≤ b)
    (ha' : a ≤ INT_MAX) (hb' : b ≤ INT_MAX) :
    (∀ (input : List Char) (pos tokpos : Nat) (sn sd : Int) (ca cb : Nat) (R : List Char),
      input.drop pos = '/' :: '(' :: (decimal a ++ '*' :: (decimal b ++ ')' :: R)) →
      (((LLAnalysator.parse_F
            ⟨input, pos, ⟨LLAnalysator.TokenType.TOK_1, 0, tokpos⟩, false, none, sn, sd, ca,
              cb⟩).has_error = true ∧
          ∃ q, (LLAnalysator.parse_F
            ⟨input, pos, ⟨LLAnalysator.TokenType.TOK_1, 0, tokpos⟩, false, none, sn, sd, ca,
              cb⟩).error_msg = some (LLAnalysator.Msg.product_overflow a b q))
        ↔ INT_MAX < a * b)) ∧
    (∀ (input : List Char) (pos : Nat) (sn sd : Int) (R : List Char),
      input.drop pos = '1' :: '/' :: '(' :: (decimal a ++ '*' :: (decimal b ++ ')' :: R)) →
      ((((RecursionAnalysator.parse_fraction ⟨input, pos, false, none, sn, sd⟩).1 = none ∧
          ∃ q, (RecursionAnalysator.parse_fraction ⟨input, pos, false, none, sn, sd⟩).2.error_msg
            = some (RecursionAnalysator.Msg.product_overflow a b q))
        ↔ INT_MAX < a * b) ∧
      (a * b ≤ INT_MAX →
        (RecursionAnalysator.parse_fraction ⟨input, pos, false, none, sn, sd⟩).1
          = some (a, b)))) := by
  constructor
  · intro input pos tokpos sn sd ca cb R h
    rw [LLAnalysator.parse_F_term_general input pos tokpos none sn sd ca cb a b R h ha hb ha' hb']
    by_cases hab : a * b > INT_MAX
    · rw [if_pos hab]
      exact ⟨fun _ => hab, fun _ => ⟨rfl, _, rfl⟩⟩
    · rw [if_neg hab]
      constructor
      · rintro ⟨_, q, hq⟩
        exact absurd hq (LLAnalysator.advance_not_product _
          (by intro a' b' q' hc; cases hc) a b q)
      · intro hc
        exact absurd hc hab
  · intro input pos sn sd R h
    rw [RecursionAnalysator.parse_fraction_term input pos none sn sd a b R h ha hb ha' hb']
    by_cases hab : a * b > INT_MAX
    · rw [if_pos hab]
      exact ⟨⟨fun _ => hab, fun _ => ⟨rfl, _, rfl⟩⟩, fun hc => absurd hab (by omega)⟩
    · rw [if_neg hab]
      refine ⟨⟨?_, fun hc => absurd hc hab⟩, fun _ => rfl⟩
      rintro ⟨hc, _⟩
      cases hc

/-- C12, witness: the term `1/(46341*46341)`, whose product exceeds `INT_MAX` by little. -/
theorem C12_product_overflow_threshold_witness :
    (RecursionAnalysator.parse_fraction
        ⟨"1/(46341*46341)".toList, 0, false, none, 1, 1⟩).1 = none ∧
    ∃ q, (RecursionAnalysator.parse_fraction
        ⟨"1/(46341*46341)".toList, 0, false, none, 1, 1⟩).2.error_msg
      = some (RecursionAnalysator.Msg.product_overflow 46341 46341 q) :=
  (((C12_product_overflow_threshold 46341 46341 (by decide) (by decide) (by decide)
      (by decide)).2 "1/(46341*46341)".toList 0 1 1 [] (by rfl)).1).mpr (by decide)

/-- C12, counterexample: the product `65536*65536` fits the signed 64-bit type of the sums, and
the term `1/(65536*65536)` is rejected for product overflow by both implementations. -/
theorem C12_counterexample :
    ((65536 * 65536 : Nat) : Int) ≤ LLONG_MAX ∧
    LLAnalysator.parse "1 + 1/(65536*65536)".toList
      = .ok (LLAnalysator.Output.error
          (some (LLAnalysator.Msg.product_overflow 65536 65536 19))) ∧
    RecursionAnalysator.parse "1 + 1/(65536*65536)".toList
      = .ok (RecursionAnalysator.Output.error
          (some (RecursionAnalysator.Msg.product_overflow 65536 65536 19))) :=
  ⟨by decide, rfl, rfl⟩

/-! ### Appending a `+` to the input of the character-level parser -/

theorem drop_append_of_le {l : List Char} (t : List Char) {i : Nat} (h : i ≤ l.length) :
    (l ++ t).drop i = l.drop i ++ t := List.drop_append_of_le_length h

theorem char_at_append_lt {l : List Char} (t : List Char) {i : Nat} (h : i < l.length) :
    char_at (l ++ t) i = char_at l i := by
  unfold char_at
  rw [drop_append_of_le t (by omega)]
  have : l.drop i ≠ [] := by
    intro hc
    have := List.drop_eq_nil_iff.mp hc
    omega
  cases hd : l.drop i with
  | nil => exact absurd hd this
  | cons c r => rfl

theorem char_at_append_length (l : List Char) (c : Char) : char_at (l ++ [c]) l.length = c := by
  unfold char_at
  rw [drop_append_of_le [c] (le_refl _)]
  simp

theorem char_at_length (l : List Char) : char_at l l.length = NUL := by
  unfold char_at
  simp

theorem char_at_mem {l : List Char} {i : Nat} (h : i < l.length) : char_at l i ∈ l := by
  unfold char_at
  cases hd : l.drop i with
  | nil =>
    have := List.drop_eq_nil_iff.mp hd
    omega
  | cons c r =>
    have : c ∈ l.drop i := by rw [hd]; simp
    exact List.mem_of_mem_drop this

theorem skip_whitespace_from_append_plus (l : List Char) (pos : Nat) :
    skip_whitespace_from (l ++ ['+']) pos = skip_whitespace_from l pos := by
  induction l generalizing pos with
  | nil =>
    have : ¬ (('+' : Char) ≠ NUL ∧ isspace '+' = true) := by decide
    simp [skip_whitespace_from, this]
  | cons c cs ih =>
    simp only [List.cons_append, skip_whitespace_from]
    split
    · exact ih (pos + 1)
    · rfl

namespace RecursionAnalysator

theorem scan_digit_run_append_plus (l : List Char) (pos : Nat) :
    scan_digit_run (l ++ ['+']) pos = scan_digit_run l pos := by
  induction l generalizing pos with
  | nil =>
    have : ¬ (isdigit '+' = true) := by decide
    simp [scan_digit_run, this]
  | cons c cs ih =>
    simp only [List.cons_append, scan_digit_run]
    split
    · exact ih (pos + 1)
    · rfl

theorem scan_digit_run_bounds (l : List Char) (pos : Nat) :
    pos ≤ scan_digit_run l pos ∧ scan_digit_run l pos ≤ pos + l.length := by
  induction l generalizing pos with
  | nil => simp [scan_digit_run]
  | cons c cs ih =>
    unfold scan_digit_run
    split
    · have := ih (pos + 1)
      simp only [List.length_cons]
      omega
    · simp

/-- The function `skip_whitespace` does the same on the input followed by `+`. -/
theorem skip_whitespace_plus (p : Parser) (hpos : p.pos ≤ p.input.length) :
    skip_whitespace { p with input := p.input ++ ['+'] }
      = { skip_whitespace p with input := p.input ++ ['+'] } ∧
    p.pos ≤ (skip_whitespace p).pos ∧ (skip_whitespace p).pos ≤ p.input.length ∧
    (skip_whitespace p).input = p.input := by
  have hb := skip_whitespace_from_bounds (p.input.drop p.pos) p.pos
  have hlen : (p.input.drop p.pos).length = p.input.length - p.pos := List.length_drop _ _
  refine ⟨?_, ?_, ?_, rfl⟩
  · unfold skip_whitespace
    simp only
    rw [drop_append_of_le _ hpos, skip_whitespace_from_append_plus]
  · exact hb.1
  · show skip_whitespace_from (p.input.drop p.pos) p.pos ≤ p.input.length
    omega

/-- A call of `expect` that succeeds does the same on the input followed by `+`. -/
theorem expect_plus (p : Parser) (c : Char) (hpos : p.pos ≤ p.input.length) (hc : c ≠ NUL)
    (hok : (expect p c).1 = true) :
    expect { p with input := p.input ++ ['+'] } c
      = (true, { (expect p c).2 with input := p.input ++ ['+'] }) ∧
    (expect p c).2.pos ≤ p.input.length ∧ (expect p c).2.input = p.input := by
  obtain ⟨s1, _, s3, s4⟩ := skip_whitespace_plus p hpos
  unfold expect at hok ⊢
  simp only at hok ⊢
  rw [s1]
  simp only
  generalize skip_whitespace p = q at *
  by_cases hch : char_at q.input q.pos = c
  · have hlt : q.pos < q.input.length := char_at_lt_length (by rw [hch]; exact hc)
    rw [s4] at hch hlt
    have hch' : char_at (p.input ++ ['+']) q.pos = c := by
      rw [char_at_append_lt _ hlt]
      exact hch
    rw [s4]
    simp only [hch, hch', ne_eq, not_true_eq_false, if_false]
    exact ⟨trivial, by omega, trivial⟩
  · simp [hch] at hok

end RecursionAnalysator

namespace RecursionAnalysator

/-- A call of `parse_natural` that succeeds does the same on the input followed by `+`. -/
theorem parse_natural_plus (p : Parser) (a : Nat) (hpos : p.pos ≤ p.input.length)
    (hok : (parse_natural p).1 = some a) :
    parse_natural { p with input := p.input ++ ['+'] }
      = (some a, { (parse_natural p).2 with input := p.input ++ ['+'] }) ∧
    (parse_natural p).2.pos ≤ p.input.length ∧ (parse_natural p).2.input = p.input := by
  obtain ⟨s1, _, s3, s4⟩ := skip_whitespace_plus p hpos
  unfold parse_natural at hok ⊢
  simp only at hok ⊢
  rw [s1]
  simp only
  generalize skip_whitespace p = q at *
  rw [s4] at hok ⊢
  by_cases hd : isdigit (char_at p.input q.pos) = false
  · simp [hd] at hok
  · have hd' : isdigit (char_at p.input q.pos) = true := by simpa using hd
    have hlt : q.pos < p.input.length := char_at_lt_length (isdigit_ne_NUL hd')
    have hb := scan_digit_run_bounds (p.input.drop q.pos) q.pos
    have hlen : (p.input.drop q.pos).length = p.input.length - q.pos := List.length_drop _ _
    have hch : char_at (p.input ++ ['+']) q.pos = char_at p.input q.pos :=
      char_at_append_lt _ hlt
    have hdrop : (p.input ++ ['+']).drop q.pos = p.input.drop q.pos ++ ['+'] :=
      drop_append_of_le _ (by omega)
    have htake : ((p.input.drop q.pos) ++ ['+']).take
        (scan_digit_run (p.input.drop q.pos) q.pos - q.pos)
        = (p.input.drop q.pos).take (scan_digit_run (p.input.drop q.pos) q.pos - q.pos) :=
      List.take_append_of_le_length (by omega)
    simp only [hch, hdrop, scan_digit_run_append_plus, htake, hd, if_false] at hok ⊢
    by_cases c1 : scan_digit_run (p.input.drop q.pos) q.pos - q.pos > 1 ∧
        char_at p.input q.pos = '0'
    · simp [c1] at hok
    · by_cases c2 : scan_digit_run (p.input.drop q.pos) q.pos - q.pos ≥ 20
      · simp [c1, c2] at hok
      · by_cases c3 : atoll ((p.input.drop q.pos).take
            (scan_digit_run (p.input.drop q.pos) q.pos - q.pos)) > (INT_MAX : Int)
        · simp [c1, c2, c3] at hok
        · simp only [c1, c2, c3, if_false] at hok ⊢
          simp only [Bool.true_eq_false, if_false] at hok ⊢
          simp only [Option.some.injEq] at hok
          subst hok
          exact ⟨rfl, by omega, trivial⟩

end RecursionAnalysator

namespace RecursionAnalysator

/-- A call of `parse_fraction` that succeeds does the same on the input followed by `+`. -/
theorem parse_fraction_plus (p : Parser) (ab : Nat × Nat) (hpos : p.pos ≤ p.input.length)
    (hok : (parse_fraction p).1 = some ab) :
    parse_fraction { p with input := p.input ++ ['+'] }
      = (some ab, { (parse_fraction p).2 with input := p.input ++ ['+'] }) ∧
    (parse_fraction p).2.pos ≤ p.input.length ∧ (parse_fraction p).2.input = p.input := by
  unfold parse_fraction at hok ⊢
  -- `1`
  have x1 := expect_plus p '1' hpos (by decide)
  rcases h1 : expect p '1' with ⟨b1, p1⟩
  rw [h1] at hok x1
  cases b1
  · simp at hok
  obtain ⟨y1, l1, i1⟩ := x1 rfl
  simp only at hok y1 l1 i1 ⊢
  rw [y1]
  simp only
  -- `/`
  have x2 := expect_plus p1 '/' (by rw [i1]; exact l1) (by decide)
  rcases h2 : expect p1 '/' with ⟨b2, p2⟩
  rw [h2] at hok x2
  cases b2
  · simp at hok
  obtain ⟨y2, l2, i2⟩ := x2 rfl
  simp only at hok y2 l2 i2 ⊢
  rw [i1] at y2 l2
  rw [y2]
  simp only
  -- `(`
  have x3 := expect_plus p2 '(' (by rw [i2, i1]; exact l2) (by decide)
  rcases h3 : expect p2 '(' with ⟨b3, p3⟩
  rw [h3] at hok x3
  cases b3
  · simp at hok
  obtain ⟨y3, l3, i3⟩ := x3 rfl
  simp only at hok y3 l3 i3 ⊢
  rw [i2, i1] at y3 l3
  rw [y3]
  simp only
  -- the first number
  have x4 := parse_natural_plus p3
  rcases h4 : parse_natural p3 with ⟨r4, p4⟩
  rw [h4] at hok x4
  cases r4 with
  | none => simp at hok
  | some a =>
  obtain ⟨y4, l4, i4⟩ := x4 a (by rw [i3, i2, i1]; exact l3) rfl
  simp only at hok y4 l4 i4 ⊢
  rw [i3, i2, i1] at y4 l4
  rw [y4]
  simp only
  -- `*`
  have x5 := expect_plus p4 '*' (by rw [i4, i3, i2, i1]; exact l4) (by decide)
  rcases h5 : expect p4 '*' with ⟨b5, p5⟩
  rw [h5] at hok x5
  cases b5
  · simp at hok
  obtain ⟨y5, l5, i5⟩ := x5 rfl
  simp only at hok y5 l5 i5 ⊢
  rw [i4, i3, i2, i1] at y5 l5
  rw [y5]
  simp only
  -- the second number
  have x6 := parse_natural_plus p5
  rcases h6 : parse_natural p5 with ⟨r6, p6⟩
  rw [h6] at hok x6
  cases r6 with
  | none => simp at hok
  | some b =>
  obtain ⟨y6, l6, i6⟩ := x6 b (by rw [i5, i4, i3, i2, i1]; exact l5) rfl
  simp only at hok y6 l6 i6 ⊢
  rw [i5, i4, i3, i2, i1] at y6 l6
  rw [y6]
  simp only
  -- `)`
  have x7 := expect_plus p6 ')' (by rw [i6, i5, i4, i3, i2, i1]; exact l6) (by decide)
  rcases h7 : expect p6 ')' with ⟨b7, p7⟩
  rw [h7] at hok x7
  cases b7
  · simp at hok
  obtain ⟨y7, l7, i7⟩ := x7 rfl
  simp only at hok y7 l7 i7 ⊢
  rw [i6, i5, i4, i3, i2, i1] at y7 l7
  rw [y7]
  simp only
  by_cases hprod : a * b > INT_MAX
  · simp [hprod] at hok
  · simp only [hprod, if_false] at hok ⊢
    simp only [Option.some.injEq] at hok
    subst hok
    exact ⟨rfl, l7, by rw [i7, i6, i5, i4, i3, i2, i1]⟩

end RecursionAnalysator

namespace RecursionAnalysator

/-- At the end of an input without NUL, the loop of `parse_series` run on the input followed
by `+` consumes the `+` and fails in `expect`, which finds the end of the input where it
expects `1`. -/
theorem parse_series_loop_plus_end (fuel : Nat) (p : Parser) (s : List Char)
    (hs : p.input = s) (hnul : NUL ∉ s) (hpos : p.pos ≤ s.length)
    (hch : char_at p.input p.pos = NUL) :
    ∃ q, parse_series_loop (fuel + 1) { p with input := s ++ ['+'] } = .ok (false, q) ∧
      q.error_msg = some (Msg.expected_char '1' NUL (s.length + 1)) := by
  subst hs
  have hlen : p.pos = p.input.length := by
    by_contra hne
    have hlt : p.pos < p.input.length := by omega
    have hm := char_at_mem hlt
    rw [hch] at hm
    exact hnul hm
  have h1 : char_at (p.input ++ ['+']) p.pos = '+' := by
    rw [hlen]
    exact char_at_append_length _ _
  have hd : (p.input ++ ['+']).drop (p.pos + 1) = [] := by
    apply List.drop_eq_nil_of_le
    simp
    omega
  have h2 : char_at (p.input ++ ['+']) (p.pos + 1) = NUL := by
    unfold char_at
    rw [hd]
    rfl
  have hne : NUL ≠ '1' := by decide
  unfold parse_series_loop
  simp only [h1, if_true]
  unfold parse_fraction expect skip_whitespace
  simp only [hd, skip_whitespace_from, h2, ne_eq, hne, not_false_eq_true, if_true]
  exact ⟨_, rfl, by simp only [hlen]⟩

/-- A run of the loop of `parse_series` that accepts its input, done again on the input
followed by `+`, fails in `expect` after the `+`. -/
theorem parse_series_loop_plus (s : List Char) (hnul : NUL ∉ s) (fuel : Nat) :
    ∀ (p pf : Parser), p.input = s → p.pos ≤ s.length →
      parse_series_loop fuel p = .ok (true, pf) →
      ∃ q, parse_series_loop (fuel + 1) { p with input := s ++ ['+'] } = .ok (false, q) ∧
        q.error_msg = some (Msg.expected_char '1' NUL (s.length + 1)) := by
  induction fuel with
  | zero =>
    intro p pf hs hpos h
    unfold parse_series_loop at h
    by_cases hplus : char_at p.input p.pos = '+'
    · simp [hplus] at h
    · simp only [hplus, if_false] at h
      unfold parse_series_end at h
      by_cases hch : char_at p.input p.pos = NUL
      · exact parse_series_loop_plus_end 0 p s hs hnul hpos hch
      · simp [hch] at h
  | succ fuel ih =>
    intro p pf hs hpos h
    by_cases hplus : char_at p.input p.pos = '+'
    · subst hs
      have hlt : p.pos < p.input.length :=
        char_at_lt_length (by rw [hplus]; decide)
      have hplus' : char_at (p.input ++ ['+']) p.pos = '+' := by
        rw [char_at_append_lt _ hlt]
        exact hplus
      unfold parse_series_loop at h
      simp only [hplus, if_true] at h
      rw [parse_series_loop]
      simp only [hplus', if_true]
      have x := parse_fraction_plus { p with pos := p.pos + 1 }
      simp only at x
      rcases hf : parse_fraction { p with pos := p.pos + 1 } with ⟨r, p2⟩
      rw [hf] at h x
      cases r with
      | none => simp at h
      | some ab =>
      obtain ⟨a, b⟩ := ab
      obtain ⟨y, l2, i2⟩ := x (a, b) (by omega) rfl
      simp only at h y l2 i2
      rw [y]
      simp only
      by_cases hov : ((a : Int) * (b : Int) > 0 ∧ p2.sum_den > LLONG_MAX.tdiv ((a : Int) * (b : Int))) ∨
           (p2.sum_num > 0 ∧ (a : Int) * (b : Int) > LLONG_MAX.tdiv p2.sum_num)
      · simp [hov] at h
      · simp only [hov, if_false] at h ⊢
        by_cases htr : reduction_traps
            (wrap64 (wrap64 (p2.sum_num * ((a : Int) * (b : Int))) + p2.sum_den))
            (wrap64 (p2.sum_den * ((a : Int) * (b : Int))))
        · rw [if_pos htr] at h
          cases h
        · rw [if_neg htr] at h
          rw [if_neg htr]
          clear htr
          generalize hP : ({ p2 with
              sum_num := wrap64 ((wrap64 (wrap64 (p2.sum_num * ((a : Int) * (b : Int))) + p2.sum_den)).tdiv
                (compute_gcd (wrap64 (wrap64 (p2.sum_num * ((a : Int) * (b : Int))) + p2.sum_den))
                  (wrap64 (p2.sum_den * ((a : Int) * (b : Int)))))),
              sum_den := wrap64 ((wrap64 (p2.sum_den * ((a : Int) * (b : Int)))).tdiv
                (compute_gcd (wrap64 (wrap64 (p2.sum_num * ((a : Int) * (b : Int))) + p2.sum_den))
                  (wrap64 (p2.sum_den * ((a : Int) * (b : Int)))))) } : Parser) = P at h
          have hPi : P.input = p.input := by rw [← hP]; exact i2
          have hPp : P.pos ≤ P.input.length := by rw [hPi, ← hP]; exact l2
          obtain ⟨s1, _, s3, s4⟩ := skip_whitespace_plus P hPp
          have key := ih (skip_whitespace P) pf (by rw [s4, hPi]) (by rw [← hPi]; exact s3) h
          obtain ⟨q, hq, hm⟩ := key
          refine ⟨q, ?_, hm⟩
          rw [← hq, ← hPi, ← s1, ← hP]
    · unfold parse_series_loop at h
      simp only [hplus, if_false] at h
      unfold parse_series_end at h
      by_cases hch : char_at p.input p.pos = NUL
      · exact parse_series_loop_plus_end (fuel + 1) p s hs hnul hpos hch
      · simp [hch] at h

end RecursionAnalysator

namespace RecursionAnalysator

/-- Claim C14 (dangling plus). For every input `s` (a C string: no NUL inside) that
`parse_series` accepts, so that `parse` prints a sum, the input `s` followed by `+` is
rejected, and the diagnostic recorded is the message of `expect` "expected `1`, found the end
of the input" with position `length s + 1`, the index right after the trailing `+`. -/
theorem C14_dangling_plus_rejected (s : List Char) (hnul : NUL ∉ s) (n d : Int)
    (h : parse s = .ok (Output.correct n d)) :
    parse (s ++ ['+'])
      = .ok (Output.error (some (Msg.expected_char '1' NUL (s.length + 1)))) := by
  unfold parse parse_series at h ⊢
  simp only at h ⊢
  generalize hp0 : Parser.mk s 0 false none 1 1 = p0 at h
  have hi0 : p0.input = s := by rw [← hp0]
  have hl0 : p0.pos ≤ p0.input.length := by rw [← hp0]; exact Nat.zero_le _
  have hext : Parser.mk (s ++ ['+']) 0 false none 1 1
      = { p0 with input := p0.input ++ ['+'] } := by
    rw [← hp0]
  rw [hext]
  have x1 := expect_plus p0 '1' hl0 (by decide)
  rcases h1 : expect p0 '1' with ⟨b1, p1⟩
  rw [h1] at h x1
  cases b1
  · simp at h
  obtain ⟨y1, l1, i1⟩ := x1 rfl
  simp only at h y1 l1 i1
  rw [y1]
  simp only
  obtain ⟨s1, _, s3, s4⟩ := skip_whitespace_plus p1 (by rw [i1]; exact l1)
  rw [i1] at s1 s3
  rw [s1]
  rcases hloop : parse_series_loop p1.input.length (skip_whitespace p1) with f | ⟨b, pf⟩
  · rw [hloop] at h
    simp at h
  rw [hloop] at h
  cases b
  · simp at h
  have key := parse_series_loop_plus s hnul p1.input.length (skip_whitespace p1) pf
    (by rw [s4, i1, hi0]) (by rw [← hi0]; exact s3) hloop
  obtain ⟨q, hq, hm⟩ := key
  have hlen : (p0.input ++ ['+']).length = p1.input.length + 1 := by
    rw [i1]
    simp
  rw [hlen, hi0, hq]
  simp only [hm]

/-- Claim C14 on the input of the specification: `1 + 1/(2*3)` is accepted with the sum 7/6,
and `1 + 1/(2*3) +` is rejected with position 13. -/
theorem C14_dangling_plus_rejected_witness :
    NUL ∉ "1 + 1/(2*3)".toList ∧
    parse "1 + 1/(2*3)".toList = .ok (Output.correct 7 6) ∧
    parse "1 + 1/(2*3) +".toList
      = .ok (Output.error (some (Msg.expected_char '1' NUL 13))) ∧
    parse ("1 + 1/(2*3)".toList ++ ['+'])
      = .ok (Output.error (some (Msg.expected_char '1' NUL ("1 + 1/(2*3)".toList.length + 1)))) :=
  ⟨by decide, rfl, rfl, C14_dangling_plus_rejected "1 + 1/(2*3)".toList (by decide) 7 6 rfl⟩

end RecursionAnalysator

/-- C11. On a run of zeros of length greater than 1 the lexer of `LLAnalysator.c` records no
leading-zero diagnostic: for `00` and `000` after an opening parenthesis `get_next_token`
returns a `TOK_DIGIT` of value 0 and leaves `has_error` unset, because the test is on the value
of the run, not on its length. (On `01` the diagnostic is recorded, and a lone `0` is no error.)
On the input `1 + 1/(00*5)` the diagnostic printed is that of `parse_N`. -/
theorem C11_run_of_zeros_not_flagged :
    LLAnalysator.get_next_token
        { input := "(00*5)".toList, pos := 1,
          lookahead := ⟨LLAnalysator.TokenType.TOK_LPAREN, 0, 0⟩,
          has_error := false, error_msg := none, sum_num := 1, sum_den := 1,
          current_a := 0, current_b := 0 }
      = (⟨LLAnalysator.TokenType.TOK_DIGIT, 0, 1⟩,
         { input := "(00*5)".toList, pos := 3,
           lookahead := ⟨LLAnalysator.TokenType.TOK_LPAREN, 0, 0⟩,
           has_error := false, error_msg := none, sum_num := 1, sum_den := 1,
           current_a := 0, current_b := 0 }) ∧
    (LLAnalysator.get_next_token
        { input := "(000*5)".toList, pos := 1,
          lookahead := ⟨LLAnalysator.TokenType.TOK_LPAREN, 0, 0⟩,
          has_error := false, error_msg := none, sum_num := 1, sum_den := 1,
          current_a := 0, current_b := 0 }).2.has_error = false ∧
    (LLAnalysator.get_next_token
        { input := "(01*5)".toList, pos := 1,
          lookahead := ⟨LLAnalysator.TokenType.TOK_LPAREN, 0, 0⟩,
          has_error := false, error_msg := none, sum_num := 1, sum_den := 1,
          current_a := 0, current_b := 0 }).2.error_msg
      = some (LLAnalysator.Msg.leading_zero 1) ∧
    (LLAnalysator.get_next_token
        { input := "(0*5)".toList, pos := 1,
          lookahead := ⟨LLAnalysator.TokenType.TOK_LPAREN, 0, 0⟩,
          has_error := false, error_msg := none, sum_num := 1, sum_den := 1,
          current_a := 0, current_b := 0 }).2.has_error = false ∧
    LLAnalysator.parse "1 + 1/(00*5)".toList
      = .ok (LLAnalysator.Output.error (some (LLAnalysator.Msg.expected_natural 7))) :=
  ⟨rfl, rfl, rfl, rfl, rfl⟩

/-- C13. Whitespace in front of the first token, or between a `1` and its `/`, changes the
outcome of the token-lookahead parser: `1` and `1 + 1/(2*3)` are accepted, while ` 1` and
`1 + 1 /(2*3)` are rejected, the `1` being lexed as a number. -/
theorem C13_whitespace_changes_outcome :
    LLAnalysator.parse "1".toList = .ok (LLAnalysator.Output.correct 1 1) ∧
    LLAnalysator.parse " 1".toList
      = .ok (LLAnalysator.Output.error (some (LLAnalysator.Msg.expected_one 1))) ∧
    LLAnalysator.parse "1 + 1/(2*3)".toList = .ok (LLAnalysator.Output.correct 7 6) ∧
    LLAnalysator.parse "1 + 1 /(2*3)".toList
      = .ok (LLAnalysator.Output.error (some (LLAnalysator.Msg.expected_found
          LLAnalysator.TokenType.TOK_RPAREN LLAnalysator.TokenType.TOK_DIGIT 4))) :=
  ⟨rfl, rfl, rfl, rfl⟩

/-- C19. On the input `1 + 1/(0*5) + 1/(0*5)` the character-level parser divides by zero: after
the first term the accumulator is `1/0`, at the second term `new_num` and `new_den` are both 0
and so is `compute_gcd(new_num, new_den)`. -/
theorem C19_division_by_zero_reached :
    RecursionAnalysator.parse "1 + 1/(0*5)".toList
      = .ok (RecursionAnalysator.Output.correct 1 0) ∧
    compute_gcd (wrap64 (wrap64 (1 * 0) + 0)) (wrap64 (0 * 0)) = 0 ∧
    RecursionAnalysator.parse "1 + 1/(0*5) + 1/(0*5)".toList = .error Fault.div_by_zero :=
  ⟨rfl, rfl, rfl⟩

namespace LLAnalysator

open TokenType

/-- C17. Once `has_error` is set or the lookahead is `TOK_END`, the function `advance` leaves
the whole parser state unchanged; it is then idempotent, and `match` on a matching lookahead
returns true and consumes nothing. -/
theorem C17_advance_frame (p : Parser) (h : p.has_error = true ∨ p.lookahead.type = TOK_END) :
    advance p = p ∧ advance (advance p) = advance p ∧
    (∀ ty, p.lookahead.type = ty → match_ p ty = (true, p)) := by
  have h1 : advance p = p := by
    unfold advance
    rcases h with h | h
    · simp [h]
    · simp [h]
  refine ⟨h1, by rw [h1, h1], ?_⟩
  intro ty hty
  simp [match_, hty, h1]

/-- C17, witness: the parser at the end of the input `1`. -/
theorem C17_advance_frame_witness :
    advance ⟨"1".toList, 1, ⟨TOK_END, 0, 1⟩, false, none, 1, 1, 0, 0⟩
      = ⟨"1".toList, 1, ⟨TOK_END, 0, 1⟩, false, none, 1, 1, 0, 0⟩ :=
  (C17_advance_frame ⟨"1".toList, 1, ⟨TOK_END, 0, 1⟩, false, none, 1, 1, 0, 0⟩
    (Or.inr rfl)).1

end LLAnalysator

/-- C18. The function `compute_gcd` (the same in both files) satisfies the equation of its
`while` loop on all arguments, so it terminates; on non-negative `a` and `b` it returns their
greatest common divisor, with `compute_gcd(0, n) = n` and `compute_gcd(n, 0) = n`, and the
result is strictly positive unless `a` and `b` are both 0. -/
theorem C18_compute_gcd_correct (a b : Int) (ha : 0 ≤ a) (hb : 0 ≤ b) :
    (compute_gcd a b = if b = 0 then a else compute_gcd b (a.tmod b)) ∧
    compute_gcd a b = (Int.gcd a b : Int) ∧
    compute_gcd 0 b = b ∧ compute_gcd a 0 = a ∧
    ((a ≠ 0 ∨ b ≠ 0) → 0 < compute_gcd a b) := by
  obtain ⟨m, rfl⟩ := Int.eq_ofNat_of_zero_le ha
  obtain ⟨n, rfl⟩ := Int.eq_ofNat_of_zero_le hb
  have h0 : compute_gcd 0 (n : Int) = (n : Int) := by
    have := compute_gcd_natCast 0 n
    simpa using this
  have h1 : compute_gcd (m : Int) 0 = (m : Int) := by
    have := compute_gcd_natCast m 0
    simpa using this
  refine ⟨compute_gcd_unfold _ _, ?_, h0, h1, ?_⟩
  · rw [compute_gcd_natCast]
    simp [Int.gcd]
  · intro hne
    rw [compute_gcd_natCast]
    have : 0 < Nat.gcd m n := by
      rcases hne with h | h
      · exact Nat.gcd_pos_of_pos_left _ (Nat.pos_of_ne_zero (by exact_mod_cast h))
      · exact Nat.gcd_pos_of_pos_right _ (Nat.pos_of_ne_zero (by exact_mod_cast h))
    exact_mod_cast this

/-- C18, witness: `compute_gcd(178, 150) = 2`, the divisor that reduces `178/150` to `89/75`. -/
theorem C18_compute_gcd_correct_witness : compute_gcd 178 150 = ((Int.gcd 178 150 : Nat) : Int) :=
  (C18_compute_gcd_correct 178 150 (by decide) (by decide)).2.1

/-! ### Two inputs that agree on a prefix -/

theorem take_eraseIdx_self (l : List Char) (i : Nat) : (l.eraseIdx i).take i = l.take i := by
  induction l generalizing i with
  | nil => rfl
  | cons c cs ih =>
    cases i with
    | zero => rfl
    | succ i => simp [List.eraseIdx, ih]

theorem take_set_self (l : List Char) (i : Nat) (c : Char) : (l.set i c).take i = l.take i := by
  induction l generalizing i with
  | nil => rfl
  | cons d ds ih =>
    cases i with
    | zero => rfl
    | succ i => simp [List.set, ih]

theorem take_drop_agree {s t : List Char} {k : Nat} (h : s.take k = t.take k) (j : Nat) :
    (s.drop j).take (k - j) = (t.drop j).take (k - j) := by
  rw [← List.drop_take, ← List.drop_take, h]

theorem head_agree {l t : List Char} {n : Nat} (h : l.take n = t.take n) (hn : 0 < n) :
    l.headD NUL = t.headD NUL := by
  cases n with
  | zero => omega
  | succ n =>
    cases l with
    | nil =>
      cases t with
      | nil => rfl
      | cons d ds => simp at h
    | cons c cs =>
      cases t with
      | nil => simp at h
      | cons d ds =>
        simp only [List.take_succ_cons, List.cons.injEq] at h
        simp [h.1]

theorem char_at_agree {s t : List Char} {k : Nat} (h : s.take k = t.take k) {j : Nat}
    (hj : j < k) : char_at t j = char_at s j := by
  unfold char_at
  exact (head_agree (take_drop_agree h j) (by omega)).symm

theorem skip_whitespace_from_agree (l : List Char) :
    ∀ (t : List Char) (pos n : Nat), l.take n = t.take n →
      skip_whitespace_from l pos < pos + n →
      skip_whitespace_from t pos = skip_whitespace_from l pos := by
  induction l with
  | nil =>
    intro t pos n h hlt
    cases n with
    | zero => simp [skip_whitespace_from] at hlt
    | succ n =>
      cases t with
      | nil => rfl
      | cons d ds => simp at h
  | cons c cs ih =>
    intro t pos n h hlt
    cases n with
    | zero =>
      have := (skip_whitespace_from_bounds (c :: cs) pos).1
      omega
    | succ n =>
      cases t with
      | nil => simp at h
      | cons d ds =>
        simp only [List.take_succ_cons, List.cons.injEq] at h
        obtain ⟨h1, h2⟩ := h
        subst h1
        unfold skip_whitespace_from at hlt ⊢
        split
        · rename_i hc
          rw [if_pos hc] at hlt
          exact ih ds (pos + 1) n h2 (by omega)
        · rfl

namespace LLAnalysator

theorem scan_digits_agree (l : List Char) :
    ∀ (t : List Char) (v pos n : Nat), l.take n = t.take n →
      (scan_digits l v pos).2.2 < pos + n →
      scan_digits t v pos = scan_digits l v pos := by
  induction l with
  | nil =>
    intro t v pos n h hlt
    cases n with
    | zero => simp [scan_digits] at hlt
    | succ n =>
      cases t with
      | nil => rfl
      | cons d ds => simp at h
  | cons c cs ih =>
    intro t v pos n h hlt
    cases n with
    | zero =>
      have := (scan_digits_bounds (c :: cs) v pos).1
      omega
    | succ n =>
      cases t with
      | nil => simp at h
      | cons d ds =>
        simp only [List.take_succ_cons, List.cons.injEq] at h
        obtain ⟨h1, h2⟩ := h
        subst h1
        unfold scan_digits at hlt ⊢
        by_cases hd : isdigit c = true
        · simp only [hd, if_true] at hlt ⊢
          by_cases hov : v > (INT_MAX - (c.toNat - 48)) / 10
          · simp only [hov, if_true]
          · simp only [hov, if_false] at hlt ⊢
            exact ih ds _ (pos + 1) n h2 (by omega)
        · simp only [hd]
          rfl

/-- The digit loop started with the value 0 on a digit consumes that digit. -/
theorem scan_digits_first (c : Char) (cs : List Char) (pos : Nat) (hd : isdigit c = true) :
    pos + 1 ≤ (scan_digits (c :: cs) 0 pos).2.2 := by
  unfold scan_digits
  simp only [hd, if_true]
  have h0 : ¬ (0 > (INT_MAX - (c.toNat - 48)) / 10) := Nat.not_lt_zero _
  simp only [h0, if_false]
  exact (scan_digits_bounds cs _ (pos + 1)).1

end LLAnalysator

namespace LLAnalysator

open TokenType

/-- The lexer looks at the input through the run of whitespace it skips, the character after
it, the next one when the first is `1`, and the run of digits when it lexes a number: on an
input that gives the same, it returns the same token and moves the cursor in the same way. -/
theorem get_next_token_congr (p : Parser) (t : List Char)
    (hsk : skip_whitespace_from (t.drop p.pos) p.pos
      = skip_whitespace_from (p.input.drop p.pos) p.pos)
    (hc0 : char_at t (skip_whitespace_from (p.input.drop p.pos) p.pos)
      = char_at p.input (skip_whitespace_from (p.input.drop p.pos) p.pos))
    (hc1 : char_at p.input (skip_whitespace_from (p.input.drop p.pos) p.pos) = '1' →
      char_at t (skip_whitespace_from (p.input.drop p.pos) p.pos + 1)
        = char_at p.input (skip_whitespace_from (p.input.drop p.pos) p.pos + 1))
    (hsd : isdigit (char_at p.input (skip_whitespace_from (p.input.drop p.pos) p.pos)) = true →
      ¬ (char_at p.input (skip_whitespace_from (p.input.drop p.pos) p.pos) = '1' ∧
        (char_at p.input (skip_whitespace_from (p.input.drop p.pos) p.pos + 1) = '/' ∨
          skip_whitespace_from (p.input.drop p.pos) p.pos = 0)) →
      scan_digits (t.drop (skip_whitespace_from (p.input.drop p.pos) p.pos)) 0
          (skip_whitespace_from (p.input.drop p.pos) p.pos)
        = scan_digits (p.input.drop (skip_whitespace_from (p.input.drop p.pos) p.pos)) 0
          (skip_whitespace_from (p.input.drop p.pos) p.pos)) :
    get_next_token { p with input := t }
      = ((get_next_token p).1, { (get_next_token p).2 with input := t }) := by
  rcases hr : get_next_token p with ⟨tok, q⟩
  simp only
  unfold get_next_token skip_whitespace at hr ⊢
  simp only at hr ⊢
  rw [hsk, hc0]
  generalize skip_whitespace_from (p.input.drop p.pos) p.pos = P at *
  have hcond : (char_at p.input P = '1' ∧ (char_at t (P + 1) = '/' ∨ P = 0))
      ↔ (char_at p.input P = '1' ∧ (char_at p.input (P + 1) = '/' ∨ P = 0)) := by
    constructor
    · rintro ⟨a, b⟩
      rw [hc1 a] at b
      exact ⟨a, b⟩
    · rintro ⟨a, b⟩
      rw [← hc1 a] at b
      exact ⟨a, b⟩
  simp only [hcond]
  split_ifs at hr with h0 h1 h2 h3 h4 h5 h6 h7
  · cases hr
    rw [if_pos h0]
  · cases hr
    rw [if_neg h0, if_pos h1]
  · cases hr
    rw [if_neg h0, if_neg h1, if_pos h2]
  · cases hr
    rw [if_neg h0, if_neg h1, if_neg h2, if_pos h3]
  · cases hr
    rw [if_neg h0, if_neg h1, if_neg h2, if_neg h3, if_pos h4]
  · cases hr
    rw [if_neg h0, if_neg h1, if_neg h2, if_neg h3, if_neg h4, if_pos h5]
  · cases hr
    rw [if_neg h0, if_neg h1, if_neg h2, if_neg h3, if_neg h4, if_neg h5, if_pos h6]
  · rw [if_neg h0, if_neg h1, if_neg h2, if_neg h3, if_neg h4, if_neg h5, if_neg h6, if_pos h7,
      hsd h7 h1]
    rcases hsc : scan_digits (p.input.drop P) 0 P with ⟨b, v, q2⟩
    rw [hsc] at hr
    cases b
    · simp only at hr ⊢
      split_ifs at hr with h8
      · cases hr
        rw [if_pos h8]
      · cases hr
        rw [if_neg h8]
    · simp only at hr ⊢
      cases hr
      rfl
  · cases hr
    rw [if_neg h0, if_neg h1, if_neg h2, if_neg h3, if_neg h4, if_neg h5, if_neg h6, if_neg h7]

end LLAnalysator

namespace LLAnalysator

open TokenType

/-- How far the lexer reads: the cursor it leaves is not before the end of the whitespace it
skips, it is after the character found there when this is a `1`, and it is the end of the run
of digits when a number is lexed. -/
theorem get_next_token_reach (p : Parser) :
    skip_whitespace_from (p.input.drop p.pos) p.pos ≤ (get_next_token p).2.pos ∧
    (char_at p.input (skip_whitespace_from (p.input.drop p.pos) p.pos) = '1' →
      skip_whitespace_from (p.input.drop p.pos) p.pos + 1 ≤ (get_next_token p).2.pos) ∧
    (isdigit (char_at p.input (skip_whitespace_from (p.input.drop p.pos) p.pos)) = true →
      ¬ (char_at p.input (skip_whitespace_from (p.input.drop p.pos) p.pos) = '1' ∧
        (char_at p.input (skip_whitespace_from (p.input.drop p.pos) p.pos + 1) = '/' ∨
          skip_whitespace_from (p.input.drop p.pos) p.pos = 0)) →
      (scan_digits (p.input.drop (skip_whitespace_from (p.input.drop p.pos) p.pos)) 0
          (skip_whitespace_from (p.input.drop p.pos) p.pos)).2.2 ≤ (get_next_token p).2.pos) := by
  rcases hr : get_next_token p with ⟨tok, q⟩
  simp only
  unfold get_next_token skip_whitespace at hr
  simp only at hr
  generalize skip_whitespace_from (p.input.drop p.pos) p.pos = P at *
  have hfirst : isdigit (char_at p.input P) = true →
      P + 1 ≤ (scan_digits (p.input.drop P) 0 P).2.2 := by
    intro hd
    cases hdr : p.input.drop P with
    | nil =>
      rw [char_at_of_drop_nil hdr] at hd
      exact absurd rfl (isdigit_ne_NUL hd)
    | cons c cs =>
      rw [char_at_of_drop hdr] at hd
      exact scan_digits_first c cs P hd
  have h1ne : ('1' : Char) ≠ NUL := by decide
  split_ifs at hr with h0 h1 h2 h3 h4 h5 h6 h7
  · cases hr
    refine ⟨le_refl _, fun hone => ?_, fun hd _ => ?_⟩
    · rw [hone] at h0
      exact absurd h0 h1ne
    · exact absurd h0 (isdigit_ne_NUL hd)
  · cases hr
    exact ⟨Nat.le_succ _, fun _ => le_refl _, fun _ hn => absurd h1 hn⟩
  · cases hr
    refine ⟨Nat.le_succ _, fun _ => le_refl _, fun hd _ => ?_⟩
    rw [h2] at hd
    exact absurd hd (by decide)
  · cases hr
    refine ⟨Nat.le_succ _, fun _ => le_refl _, fun hd _ => ?_⟩
    rw [h3] at hd
    exact absurd hd (by decide)
  · cases hr
    refine ⟨Nat.le_succ _, fun _ => le_refl _, fun hd _ => ?_⟩
    rw [h4] at hd
    exact absurd hd (by decide)
  · cases hr
    refine ⟨Nat.le_succ _, fun _ => le_refl _, fun hd _ => ?_⟩
    rw [h5] at hd
    exact absurd hd (by decide)
  · cases hr
    refine ⟨Nat.le_succ _, fun _ => le_refl _, fun hd _ => ?_⟩
    rw [h6] at hd
    exact absurd hd (by decide)
  · have hf := hfirst h7
    rcases hsc : scan_digits (p.input.drop P) 0 P with ⟨b, v, q2⟩
    rw [hsc] at hr hf
    simp only at hf
    cases b
    · simp only at hr
      split_ifs at hr
      · cases hr
        exact ⟨by simp only; omega, fun _ => hf, fun _ _ => le_refl _⟩
      · cases hr
        exact ⟨by simp only; omega, fun _ => hf, fun _ _ => le_refl _⟩
    · simp only at hr
      cases hr
      exact ⟨by simp only; omega, fun _ => hf, fun _ _ => le_refl _⟩
  · cases hr
    refine ⟨le_refl _, fun hone => ?_, fun hd _ => absurd hd h7⟩
    rw [hone] at h7
    exact absurd (by decide) h7

/-- The lexer on two inputs that agree before the index `k`: when the cursor it leaves is
before `k`, it returns the same token and leaves the same state on both. -/
theorem get_next_token_agree (p : Parser) (t : List Char) (k : Nat)
    (h : p.input.take k = t.take k) (hk : (get_next_token p).2.pos < k) :
    get_next_token { p with input := t }
      = ((get_next_token p).1, { (get_next_token p).2 with input := t }) := by
  obtain ⟨r1, r2, r3⟩ := get_next_token_reach p
  have hb := (skip_whitespace_from_bounds (p.input.drop p.pos) p.pos).1
  apply get_next_token_congr
  · exact skip_whitespace_from_agree _ _ p.pos (k - p.pos) (take_drop_agree h p.pos) (by omega)
  · exact char_at_agree h (by omega)
  · intro hone
    have := r2 hone
    exact char_at_agree h (by omega)
  · intro hd hn
    have := r3 hd hn
    exact scan_digits_agree _ _ 0 _ (k - skip_whitespace_from (p.input.drop p.pos) p.pos)
      (take_drop_agree h _) (by omega)

end LLAnalysator

namespace LLAnalysator

open TokenType

theorem get_next_token_mono (p : Parser) : p.pos ≤ (get_next_token p).2.pos :=
  le_trans (skip_whitespace_from_bounds (p.input.drop p.pos) p.pos).1 (get_next_token_reach p).1

theorem advance_mono (p : Parser) : p.pos ≤ (advance p).pos := by
  unfold advance
  split
  · exact get_next_token_mono p
  · exact le_refl _

theorem match_mono (p : Parser) (ty : TokenType) : p.pos ≤ (match_ p ty).2.pos := by
  unfold match_
  split
  · exact advance_mono p
  · exact le_refl _

theorem parse_N_mono (p : Parser) : p.pos ≤ (parse_N p).2.pos := by
  unfold parse_N
  split
  · exact le_refl _
  · exact match_mono p TOK_DIGIT

theorem advance_agree (p : Parser) (s t : List Char) (k : Nat) (hs : p.input = s)
    (h : s.take k = t.take k) (hk : (advance p).pos < k) :
    advance { p with input := t } = { advance p with input := t } := by
  subst hs
  unfold advance at hk ⊢
  simp only at hk ⊢
  split
  · rename_i hc
    rw [if_pos hc] at hk
    rw [get_next_token_agree p t k h hk]
  · rfl

theorem match_agree (p : Parser) (ty : TokenType) (s t : List Char) (k : Nat) (hs : p.input = s)
    (h : s.take k = t.take k) (hk : (match_ p ty).2.pos < k) :
    match_ { p with input := t } ty = ((match_ p ty).1, { (match_ p ty).2 with input := t }) := by
  unfold match_ at hk ⊢
  simp only at hk ⊢
  split
  · rename_i hc
    rw [if_pos hc] at hk
    rw [advance_agree p s t k hs h hk]
  · rfl

theorem parse_N_agree (p : Parser) (s t : List Char) (k : Nat) (hs : p.input = s)
    (h : s.take k = t.take k) (hk : (parse_N p).2.pos < k) :
    parse_N { p with input := t } = ((parse_N p).1, { (parse_N p).2 with input := t }) := by
  unfold parse_N at hk ⊢
  simp only at hk ⊢
  split
  · rfl
  · rename_i hc
    rw [if_neg hc] at hk
    rw [match_agree p TOK_DIGIT s t k hs h hk]

end LLAnalysator

namespace LLAnalysator

open TokenType

theorem parse_F_mono (p : Parser) : p.pos ≤ (parse_F p).pos := by
  have m1 := match_mono p TOK_1
  have m2 := match_mono (match_ p TOK_1).2 TOK_SLASH
  have m3 := match_mono (match_ (match_ p TOK_1).2 TOK_SLASH).2 TOK_LPAREN
  have m4 := parse_N_mono (match_ (match_ (match_ p TOK_1).2 TOK_SLASH).2 TOK_LPAREN).2
  unfold parse_F
  simp only
  rcases hN : parse_N (match_ (match_ (match_ p TOK_1).2 TOK_SLASH).2 TOK_LPAREN).2 with ⟨r, p4⟩
  rw [hN] at m4
  simp only at m4
  cases r with
  | none => exact le_trans m1 (le_trans m2 (le_trans m3 m4))
  | some a =>
    simp only
    have m5 := match_mono p4 TOK_MUL
    have m6 := parse_N_mono (match_ p4 TOK_MUL).2
    rcases hN2 : parse_N (match_ p4 TOK_MUL).2 with ⟨r2, p6⟩
    rw [hN2] at m6
    simp only at m6
    cases r2 with
    | none => exact le_trans m1 (le_trans m2 (le_trans m3 (le_trans m4 (le_trans m5 m6))))
    | some b =>
      simp only
      have m7 := match_mono p6 TOK_RPAREN
      have : p.pos ≤ (match_ p6 TOK_RPAREN).2.pos :=
        le_trans m1 (le_trans m2 (le_trans m3 (le_trans m4 (le_trans m5 (le_trans m6 m7)))))
      split
      · exact this
      · exact this

/-- The function `parse_F` on two inputs that agree before the index `k`: when the cursor it
leaves is before `k`, it does the same on both. -/
theorem parse_F_agree (p : Parser) (s t : List Char) (k : Nat) (hs : p.input = s)
    (h : s.take k = t.take k) (hk : (parse_F p).pos < k) :
    parse_F { p with input := t } = { parse_F p with input := t } := by
  unfold parse_F at hk ⊢
  simp only at hk ⊢
  have m1 := match_mono p TOK_1
  have i1 := match_input p TOK_1
  have x1 := match_agree p TOK_1 s t k hs h
  rcases h1 : match_ p TOK_1 with ⟨b1, p1⟩
  rw [h1] at hk m1 i1 x1
  simp only at hk m1 i1 x1 ⊢
  have m2 := match_mono p1 TOK_SLASH
  have i2 := match_input p1 TOK_SLASH
  have x2 := match_agree p1 TOK_SLASH s t k (by rw [i1, hs]) h
  rcases h2 : match_ p1 TOK_SLASH with ⟨b2, p2⟩
  rw [h2] at hk m2 i2 x2
  simp only at hk m2 i2 x2 ⊢
  have m3 := match_mono p2 TOK_LPAREN
  have i3 := match_input p2 TOK_LPAREN
  have x3 := match_agree p2 TOK_LPAREN s t k (by rw [i2, i1, hs]) h
  rcases h3 : match_ p2 TOK_LPAREN with ⟨b3, p3⟩
  rw [h3] at hk m3 i3 x3
  simp only at hk m3 i3 x3 ⊢
  have m4 := parse_N_mono p3
  have i4 := parse_N_input p3
  have x4 := parse_N_agree p3 s t k (by rw [i3, i2, i1, hs]) h
  rcases h4 : parse_N p3 with ⟨r4, p4⟩
  rw [h4] at hk m4 i4 x4
  simp only at hk m4 i4 x4 ⊢
  cases r4 with
  | none =>
    simp only at hk ⊢
    rw [x1 (by omega)]
    simp only
    rw [x2 (by omega)]
    simp only
    rw [x3 (by omega)]
    simp only
    rw [x4 (by omega)]
  | some a =>
    simp only at hk ⊢
    have m5 := match_mono p4 TOK_MUL
    have i5 := match_input p4 TOK_MUL
    have x5 := match_agree p4 TOK_MUL s t k (by rw [i4, i3, i2, i1, hs]) h
    rcases h5 : match_ p4 TOK_MUL with ⟨b5, p5⟩
    rw [h5] at hk m5 i5 x5
    simp only at hk m5 i5 x5 ⊢
    have m6 := parse_N_mono p5
    have i6 := parse_N_input p5
    have x6 := parse_N_agree p5 s t k (by rw [i5, i4, i3, i2, i1, hs]) h
    rcases h6 : parse_N p5 with ⟨r6, p6⟩
    rw [h6] at hk m6 i6 x6
    simp only at hk m6 i6 x6 ⊢
    cases r6 with
    | none =>
      simp only at hk ⊢
      rw [x1 (by omega)]
      simp only
      rw [x2 (by omega)]
      simp only
      rw [x3 (by omega)]
      simp only
      rw [x4 (by omega)]
      simp only
      rw [x5 (by omega)]
      simp only
      rw [x6 (by omega)]
    | some b =>
      simp only at hk ⊢
      have m7 := match_mono p6 TOK_RPAREN
      have x7 := match_agree p6 TOK_RPAREN s t k (by rw [i6, i5, i4, i3, i2, i1, hs]) h
      rcases h7 : match_ p6 TOK_RPAREN with ⟨b7, p7⟩
      rw [h7] at hk m7 x7
      simp only at hk m7 x7 ⊢
      have hk7 : p7.pos < k := by
        split at hk
        · exact hk
        · exact hk
      rw [x1 (by omega)]
      simp only
      rw [x2 (by omega)]
      simp only
      rw [x3 (by omega)]
      simp only
      rw [x4 (by omega)]
      simp only
      rw [x5 (by omega)]
      simp only
      rw [x6 (by omega)]
      simp only
      rw [x7 hk7]
      simp only
      split <;> rfl

end LLAnalysator

namespace LLAnalysator

open TokenType

theorem parse_S_prime_mono (fuel : Nat) :
    ∀ (p q : Parser), parse_S_prime fuel p = .ok q → p.pos ≤ q.pos := by
  induction fuel with
  | zero =>
    intro p q hrun
    unfold parse_S_prime at hrun
    split at hrun
    · cases hrun
    · cases hrun
      exact le_refl _
  | succ fuel ih =>
    intro p q hrun
    unfold parse_S_prime at hrun
    by_cases hplus : p.lookahead.type = TOK_PLUS
    · simp only [hplus, if_true] at hrun
      have m1 := match_mono p TOK_PLUS
      have m2 := parse_F_mono (match_ p TOK_PLUS).2
      generalize parse_F (match_ p TOK_PLUS).2 = p2 at hrun m2
      by_cases herr : p2.has_error = true
      · rw [if_pos herr] at hrun
        cases hrun
        omega
      · rw [if_neg herr] at hrun
        split at hrun
        · cases hrun
        · have m3 := ih _ q hrun
          simp only at m3
          omega
    · simp only [hplus, if_false] at hrun
      cases hrun
      exact le_refl _

/-- The function `parse_S_prime` on two inputs that agree before the index `k`: when the
cursor it leaves is before `k`, it does the same on both. -/
theorem parse_S_prime_agree (s t : List Char) (k : Nat) (h : s.take k = t.take k)
    (fuel : Nat) :
    ∀ (p q : Parser), p.input = s → parse_S_prime fuel p = .ok q → q.pos < k →
      parse_S_prime fuel { p with input := t } = .ok { q with input := t } := by
  induction fuel with
  | zero =>
    intro p q hs hrun hk
    unfold parse_S_prime at hrun ⊢
    simp only at hrun ⊢
    split at hrun
    · cases hrun
    · rename_i hc
      cases hrun
      rw [if_neg hc]
  | succ fuel ih =>
    intro p q hs hrun hk
    unfold parse_S_prime at hrun
    rw [parse_S_prime]
    by_cases hplus : p.lookahead.type = TOK_PLUS
    · simp only [hplus, if_true] at hrun ⊢
      have m1 := match_mono p TOK_PLUS
      have i1 := match_input p TOK_PLUS
      have x1 := match_agree p TOK_PLUS s t k hs h
      rcases h1 : match_ p TOK_PLUS with ⟨b1, p1⟩
      rw [h1] at hrun m1 i1 x1
      simp only at hrun m1 i1 x1
      have m2 := parse_F_mono p1
      have i2 := parse_F_input p1
      have x2 := parse_F_agree p1 s t k (by rw [i1, hs]) h
      generalize parse_F p1 = p2 at hrun m2 i2 x2
      by_cases herr : p2.has_error = true
      · rw [if_pos herr] at hrun
        cases hrun
        rw [x1 (by omega)]
        simp only
        rw [x2 hk]
        simp only
        rw [if_pos herr]
      · rw [if_neg herr] at hrun
        split at hrun
        · cases hrun
        · rename_i hg
          have m3 := parse_S_prime_mono _ _ _ hrun
          simp only at m3
          have key := ih _ q (by simp only; rw [i2, i1, hs]) hrun hk
          rw [x1 (by omega)]
          simp only
          rw [x2 (by omega)]
          simp only
          rw [if_neg herr, if_neg hg]
          exact key
    · simp only [hplus, if_false] at hrun ⊢
      cases hrun
      rfl

end LLAnalysator

theorem le_length_of_agree {s t : List Char} {k : Nat} (h : s.take k = t.take k) {j : Nat}
    (hj : j < k) (hjs : j ≤ s.length) : j ≤ t.length := by
  have hl := congrArg List.length h
  simp only [List.length_take] at hl
  omega

namespace LLAnalysator

open TokenType

/-- A result of `parse_S_prime` is also its result with a greater bound. -/
theorem parse_S_prime_fuel_mono (fuel : Nat) :
    ∀ (p q : Parser) (n : Nat), parse_S_prime fuel p = .ok q →
      parse_S_prime (fuel + n) p = .ok q := by
  induction fuel with
  | zero =>
    intro p q n hrun
    unfold parse_S_prime at hrun
    split at hrun
    · cases hrun
    · rename_i hc
      cases hrun
      cases n with
      | zero => simp [parse_S_prime, hc]
      | succ n => simp [parse_S_prime, hc]
  | succ fuel ih =>
    intro p q n hrun
    have hn : fuel + 1 + n = (fuel + n) + 1 := by omega
    rw [hn]
    unfold parse_S_prime at hrun
    rw [parse_S_prime]
    by_cases hplus : p.lookahead.type = TOK_PLUS
    · simp only [hplus, if_true] at hrun ⊢
      generalize parse_F (match_ p TOK_PLUS).2 = p2 at hrun ⊢
      by_cases herr : p2.has_error = true
      · rw [if_pos herr] at hrun ⊢
        exact hrun
      · rw [if_neg herr] at hrun ⊢
        split at hrun
        · cases hrun
        · rename_i hg
          rw [if_neg hg]
          exact ih _ q n hrun
    · simp only [hplus, if_false] at hrun ⊢
      exact hrun

/-- The result of `parse_S_prime` on the state of another input, with the bound of that
input. -/
theorem parse_S_prime_rebound (p q : Parser) (f : Nat) (hpos : p.pos ≤ p.input.length)
    (h0 : 0 < p.pos) (hrun : parse_S_prime f p = .ok q) :
    parse_S_prime p.input.length p = .ok q := by
  have f1 := parse_S_prime_fuel_mono f p q p.input.length hrun
  have f2 := (parse_S_prime_fuel p.input.length p hpos (by omega)).2 (f + p.input.length)
    (by omega)
  rw [← f2, f1]

end LLAnalysator

namespace LLAnalysator

open TokenType

/-- The function `parse_S` on two inputs that agree before the index `k`: when the cursor it
leaves is before `k`, it does the same on both. -/
theorem parse_S_agree (p q : Parser) (s t : List Char) (k : Nat) (hs : p.input = s)
    (h : s.take k = t.take k) (hpos : p.pos ≤ p.input.length)
    (hp0 : p.lookahead.type = TOK_1 → 0 < p.pos)
    (hrun : parse_S p = .ok q) (hk : q.pos < k) :
    parse_S { p with input := t } = .ok { q with input := t } := by
  unfold parse_S at hrun ⊢
  simp only at hrun ⊢
  by_cases hty : p.lookahead.type = TOK_1
  · rw [if_pos hty] at hrun ⊢
    have p0 := hp0 hty
    have m1 := match_mono { p with sum_num := 1, sum_den := 1 } TOK_1
    have b1 := (match_pos { p with sum_num := 1, sum_den := 1 } TOK_1 hpos).2
    have i1 := match_input { p with sum_num := 1, sum_den := 1 } TOK_1
    have x1 := match_agree { p with sum_num := 1, sum_den := 1 } TOK_1 s t k hs h
    rcases h1 : match_ { p with sum_num := 1, sum_den := 1 } TOK_1 with ⟨c1, p1⟩
    rw [h1] at hrun m1 b1 i1 x1
    simp only at hrun m1 b1 i1 x1
    by_cases hsl : p1.lookahead.type = TOK_SLASH
    · rw [if_pos hsl] at hrun
      have m2 := parse_F_mono p1
      have b2 := (parse_F_pos p1 b1).2
      have i2 := parse_F_input p1
      have x2 := parse_F_agree p1 s t k (by rw [i1, hs]) h
      generalize parse_F p1 = p2 at hrun m2 b2 i2 x2
      by_cases herr : p2.has_error = true
      · rw [if_pos herr] at hrun
        cases hrun
        rw [x1 (by omega)]
        simp only
        rw [if_pos hsl, x2 hk]
        simp only
        rw [if_pos herr]
      · rw [if_neg herr] at hrun
        have m3 := parse_S_prime_mono _ _ _ hrun
        simp only at m3
        have a := parse_S_prime_agree s t k h _ _ q (by simp only; rw [i2, i1, hs]) hrun hk
        have hlen : p2.pos ≤ t.length :=
          le_length_of_agree h (by omega) (by rw [← hs, ← i1, ← i2]; exact b2)
        have r := parse_S_prime_rebound _ _ _ (by simp only; exact hlen) (by simp only; omega) a
        rw [x1 (by omega)]
        simp only
        rw [if_pos hsl, x2 (by omega)]
        simp only
        rw [if_neg herr]
        exact r
    · rw [if_neg hsl] at hrun
      have m3 := parse_S_prime_mono _ _ _ hrun
      have a := parse_S_prime_agree s t k h _ _ q (by rw [i1, hs]) hrun hk
      have hlen : p1.pos ≤ t.length :=
        le_length_of_agree h (by omega) (by rw [← hs, ← i1]; exact b1)
      have r := parse_S_prime_rebound _ _ _ (by simp only; exact hlen) (by simp only; omega) a
      rw [x1 (by omega)]
      simp only
      rw [if_neg hsl]
      exact r
  · rw [if_neg hty] at hrun ⊢
    cases hrun
    rfl

theorem parse_S_mono (p q : Parser) (hrun : parse_S p = .ok q) : p.pos ≤ q.pos := by
  unfold parse_S at hrun
  simp only at hrun
  by_cases hty : p.lookahead.type = TOK_1
  · rw [if_pos hty] at hrun
    have m1 := match_mono { p with sum_num := 1, sum_den := 1 } TOK_1
    simp only at m1
    generalize (match_ { p with sum_num := 1, sum_den := 1 } TOK_1).2 = p1 at hrun m1
    by_cases hsl : p1.lookahead.type = TOK_SLASH
    · rw [if_pos hsl] at hrun
      have m2 := parse_F_mono p1
      generalize parse_F p1 = p2 at hrun m2
      by_cases herr : p2.has_error = true
      · rw [if_pos herr] at hrun
        cases hrun
        omega
      · rw [if_neg herr] at hrun
        have m3 := parse_S_prime_mono _ _ _ hrun
        simp only at m3
        omega
    · rw [if_neg hsl] at hrun
      have m3 := parse_S_prime_mono _ _ _ hrun
      omega
  · rw [if_neg hty] at hrun
    cases hrun
    exact le_refl _

/-- The run of the parser on two inputs that agree before the index `k`: when the cursor is
before `k` at the end of the run on the first, the run on the second ends in the same
state. -/
theorem run_agree (s t : List Char) (k : Nat) (h : s.take k = t.take k) (q : Parser)
    (hrun : run s = .ok q) (hk : q.pos < k) : run t = .ok { q with input := t } := by
  unfold run at hrun ⊢
  have m0 := parse_S_mono _ _ hrun
  obtain ⟨b0, c0⟩ := parser_init_pos s
  have hinit : parser_init t = { parser_init s with input := t } := by
    unfold parser_init at m0 ⊢
    simp only at m0 ⊢
    have g := get_next_token_agree ⟨s, 0, ⟨TOK_INVALID, 0, 0⟩, false, none, 1, 1, 0, 0⟩ t k h
      (by omega)
    simp only at g
    rw [g]
  have hi : (parser_init s).input = s := by
    unfold parser_init
    exact (get_next_token_frame ⟨s, 0, ⟨TOK_INVALID, 0, 0⟩, false, none, 1, 1, 0, 0⟩).1
  rw [hinit]
  exact parse_S_agree _ q s t k hi h b0 c0 hrun hk

end LLAnalysator

namespace LLAnalysator

open TokenType

/-! ### The lookahead starts before the cursor -/

theorem get_next_token_start (p : Parser) :
    (get_next_token p).1.pos = skip_whitespace_from (p.input.drop p.pos) p.pos := by
  rcases hr : get_next_token p with ⟨tok, q⟩
  simp only
  unfold get_next_token skip_whitespace at hr
  simp only at hr
  split_ifs at hr
  any_goals (cases hr; rfl)
  rcases hsc : scan_digits
      (p.input.drop (skip_whitespace_from (p.input.drop p.pos) p.pos)) 0
      (skip_whitespace_from (p.input.drop p.pos) p.pos) with ⟨b, v, q2⟩
  rw [hsc] at hr
  cases b
  · simp only at hr
    split_ifs at hr
    · cases hr
      rfl
    · cases hr
      rfl
  · simp only at hr
    cases hr
    rfl

theorem advance_start (p : Parser) (h : p.lookahead.pos ≤ p.pos) :
    (advance p).lookahead.pos ≤ (advance p).pos := by
  unfold advance
  split
  · show (get_next_token p).1.pos ≤ (get_next_token p).2.pos
    rw [get_next_token_start]
    exact (get_next_token_reach p).1
  · exact h

theorem match_start (p : Parser) (ty : TokenType) (h : p.lookahead.pos ≤ p.pos) :
    (match_ p ty).2.lookahead.pos ≤ (match_ p ty).2.pos := by
  unfold match_
  split
  · exact advance_start p h
  · exact h

theorem parse_N_start (p : Parser) (h : p.lookahead.pos ≤ p.pos) :
    (parse_N p).2.lookahead.pos ≤ (parse_N p).2.pos := by
  unfold parse_N
  split
  · exact h
  · exact match_start p TOK_DIGIT h

theorem parse_F_start (p : Parser) (h : p.lookahead.pos ≤ p.pos) :
    (parse_F p).lookahead.pos ≤ (parse_F p).pos := by
  have h1 := match_start p TOK_1 h
  have h2 := match_start _ TOK_SLASH h1
  have h3 := match_start _ TOK_LPAREN h2
  have h4 := parse_N_start _ h3
  unfold parse_F
  simp only
  rcases hN : parse_N (match_ (match_ (match_ p TOK_1).2 TOK_SLASH).2 TOK_LPAREN).2 with ⟨r, p4⟩
  rw [hN] at h4
  simp only at h4
  cases r with
  | none => exact h4
  | some a =>
    simp only
    have h5 := match_start p4 TOK_MUL h4
    have h6 := parse_N_start _ h5
    rcases hN2 : parse_N (match_ p4 TOK_MUL).2 with ⟨r2, p6⟩
    rw [hN2] at h6
    simp only at h6
    cases r2 with
    | none => exact h6
    | some b =>
      simp only
      have h7 := match_start p6 TOK_RPAREN h6
      split
      · exact h7
      · exact h7

theorem parse_S_prime_start (fuel : Nat) :
    ∀ (p q : Parser), p.lookahead.pos ≤ p.pos → parse_S_prime fuel p = .ok q →
      q.lookahead.pos ≤ q.pos := by
  induction fuel with
  | zero =>
    intro p q h hrun
    unfold parse_S_prime at hrun
    split at hrun
    · cases hrun
    · cases hrun
      exact h
  | succ fuel ih =>
    intro p q h hrun
    unfold parse_S_prime at hrun
    by_cases hplus : p.lookahead.type = TOK_PLUS
    · simp only [hplus, if_true] at hrun
      have h2 := parse_F_start _ (match_start p TOK_PLUS h)
      generalize parse_F (match_ p TOK_PLUS).2 = p2 at hrun h2
      by_cases herr : p2.has_error = true
      · rw [if_pos herr] at hrun
        cases hrun
        exact h2
      · rw [if_neg herr] at hrun
        split at hrun
        · cases hrun
        · exact ih _ q (by exact h2) hrun
    · simp only [hplus, if_false] at hrun
      cases hrun
      exact h

theorem parse_S_start (p q : Parser) (h : p.lookahead.pos ≤ p.pos) (hrun : parse_S p = .ok q) :
    q.lookahead.pos ≤ q.pos := by
  unfold parse_S at hrun
  simp only at hrun
  by_cases hty : p.lookahead.type = TOK_1
  · rw [if_pos hty] at hrun
    have h1 := match_start { p with sum_num := 1, sum_den := 1 } TOK_1 h
    generalize (match_ { p with sum_num := 1, sum_den := 1 } TOK_1).2 = p1 at hrun h1
    by_cases hsl : p1.lookahead.type = TOK_SLASH
    · rw [if_pos hsl] at hrun
      have h2 := parse_F_start p1 h1
      generalize parse_F p1 = p2 at hrun h2
      by_cases herr : p2.has_error = true
      · rw [if_pos herr] at hrun
        cases hrun
        exact h2
      · rw [if_neg herr] at hrun
        exact parse_S_prime_start _ _ q (by exact h2) hrun
    · rw [if_neg hsl] at hrun
      exact parse_S_prime_start _ _ q h1 hrun
  · rw [if_neg hty] at hrun
    cases hrun
    exact h

theorem run_start (input : List Char) (q : Parser) (hrun : run input = .ok q) :
    q.lookahead.pos ≤ q.pos := by
  unfold run at hrun
  refine parse_S_start _ q ?_ hrun
  unfold parser_init
  show (get_next_token _).1.pos ≤ (get_next_token _).2.pos
  rw [get_next_token_start]
  exact (get_next_token_reach _).1

end LLAnalysator

namespace LLAnalysator

open TokenType

/-! ### The lookahead is read from the position it carries -/

theorem skip_whitespace_from_idem (input : List Char) (l : List Char) :
    ∀ pos : Nat, input.drop pos = l →
      skip_whitespace_from (input.drop (skip_whitespace_from l pos)) (skip_whitespace_from l pos)
        = skip_whitespace_from l pos := by
  induction l with
  | nil =>
    intro pos h
    show skip_whitespace_from (input.drop pos) pos = pos
    rw [h]
    rfl
  | cons c cs ih =>
    intro pos h
    have hcs : input.drop (pos + 1) = cs := by
      have := congrArg (List.drop 1) h
      rw [List.drop_drop] at this
      simpa [Nat.add_comm] using this
    by_cases hc : c ≠ NUL ∧ isspace c = true
    · have e : skip_whitespace_from (c :: cs) pos = skip_whitespace_from cs (pos + 1) := by
        rw [skip_whitespace_from, if_pos hc]
      rw [e]
      exact ih (pos + 1) hcs
    · have e : skip_whitespace_from (c :: cs) pos = pos := by
        rw [skip_whitespace_from, if_neg hc]
      rw [e, h, e]

theorem skip_whitespace_idem (p : Parser) :
    skip_whitespace (skip_whitespace p) = skip_whitespace p := by
  unfold skip_whitespace
  simp only
  rw [skip_whitespace_from_idem p.input _ p.pos rfl]

/-- The lexer started after the whitespace it skips does the same. -/
theorem get_next_token_skip (p : Parser) :
    get_next_token (skip_whitespace p) = get_next_token p := by
  unfold get_next_token
  rw [skip_whitespace_idem]

/-- The token the lexer returns and the cursor it leaves depend on the input and on the
cursor only. -/
theorem get_next_token_fields (p b : Parser) (hi : b.input = p.input) (hp : b.pos = p.pos) :
    (get_next_token b).1 = (get_next_token p).1 ∧
    (get_next_token b).2.pos = (get_next_token p).2.pos := by
  rcases hr : get_next_token p with ⟨tok, q⟩
  simp only
  unfold get_next_token skip_whitespace at hr ⊢
  simp only at hr ⊢
  rw [hi, hp]
  generalize skip_whitespace_from (p.input.drop p.pos) p.pos = P at *
  split_ifs at hr with h0 h1 h2 h3 h4 h5 h6 h7
  · cases hr
    rw [if_pos h0]
    exact ⟨rfl, rfl⟩
  · cases hr
    rw [if_neg h0, if_pos h1]
    exact ⟨rfl, rfl⟩
  · cases hr
    rw [if_neg h0, if_neg h1, if_pos h2]
    exact ⟨rfl, rfl⟩
  · cases hr
    rw [if_neg h0, if_neg h1, if_neg h2, if_pos h3]
    exact ⟨rfl, rfl⟩
  · cases hr
    rw [if_neg h0, if_neg h1, if_neg h2, if_neg h3, if_pos h4]
    exact ⟨rfl, rfl⟩
  · cases hr
    rw [if_neg h0, if_neg h1, if_neg h2, if_neg h3, if_neg h4, if_pos h5]
    exact ⟨rfl, rfl⟩
  · cases hr
    rw [if_neg h0, if_neg h1, if_neg h2, if_neg h3, if_neg h4, if_neg h5, if_pos h6]
    exact ⟨rfl, rfl⟩
  · rw [if_neg h0, if_neg h1, if_neg h2, if_neg h3, if_neg h4, if_neg h5, if_neg h6, if_pos h7]
    rcases hsc : scan_digits (p.input.drop P) 0 P with ⟨f, v, q2⟩
    rw [hsc] at hr
    cases f
    · simp only at hr ⊢
      split_ifs at hr with h8
      · cases hr
        rw [if_pos h8]
        exact ⟨rfl, rfl⟩
      · cases hr
        rw [if_neg h8]
        exact ⟨rfl, rfl⟩
    · simp only at hr ⊢
      cases hr
      exact ⟨rfl, rfl⟩
  · cases hr
    rw [if_neg h0, if_neg h1, if_neg h2, if_neg h3, if_neg h4, if_neg h5, if_neg h6, if_neg h7]
    exact ⟨rfl, rfl⟩

/-- The lexer started at the position of the token it has returned returns this token again
and leaves the same cursor. -/
theorem get_next_token_relex (p b : Parser) (hi : b.input = p.input)
    (hp : b.pos = (get_next_token p).1.pos) :
    (get_next_token b).1 = (get_next_token p).1 ∧
    (get_next_token b).2.pos = (get_next_token p).2.pos := by
  rw [get_next_token_start] at hp
  rw [← get_next_token_skip p]
  exact get_next_token_fields (skip_whitespace p) b hi hp

theorem get_next_token_read (s : List Char) (p : Parser) (h : p.input = s) :
    lookahead_read s { (get_next_token p).2 with lookahead := (get_next_token p).1 } := by
  refine ⟨?_, fun b hb hp => ?_⟩
  · show (get_next_token p).2.input = s
    rw [(get_next_token_frame p).1]
    exact h
  · exact get_next_token_relex p b (hb.trans h.symm) hp

theorem advance_read (s : List Char) (p : Parser) (h : lookahead_read s p) :
    lookahead_read s (advance p) := by
  unfold advance
  split
  · exact get_next_token_read s p h.1
  · exact h

theorem match_read (s : List Char) (p : Parser) (ty : TokenType) (h : lookahead_read s p) :
    lookahead_read s (match_ p ty).2 := by
  unfold match_
  split
  · exact advance_read s p h
  · exact h

theorem parse_N_read (s : List Char) (p : Parser) (h : lookahead_read s p) :
    lookahead_read s (parse_N p).2 := by
  unfold parse_N
  split
  · exact h
  · exact match_read s p TOK_DIGIT h

theorem parse_F_read (s : List Char) (p : Parser) (h : lookahead_read s p) :
    lookahead_read s (parse_F p) := by
  have h1 := match_read s p TOK_1 h
  have h2 := match_read s _ TOK_SLASH h1
  have h3 := match_read s _ TOK_LPAREN h2
  have h4 := parse_N_read s _ h3
  unfold parse_F
  simp only
  rcases hN : parse_N (match_ (match_ (match_ p TOK_1).2 TOK_SLASH).2 TOK_LPAREN).2 with ⟨r, p4⟩
  rw [hN] at h4
  simp only at h4
  cases r with
  | none => exact h4
  | some a =>
    simp only
    have h5 := match_read s p4 TOK_MUL h4
    have h6 := parse_N_read s _ h5
    rcases hN2 : parse_N (match_ p4 TOK_MUL).2 with ⟨r2, p6⟩
    rw [hN2] at h6
    simp only at h6
    cases r2 with
    | none => exact h6
    | some b =>
      simp only
      have h7 := match_read s p6 TOK_RPAREN h6
      split
      · exact h7
      · exact h7

theorem parse_S_prime_read (s : List Char) (fuel : Nat) :
    ∀ (p q : Parser), lookahead_read s p → parse_S_prime fuel p = .ok q →
      lookahead_read s q := by
  induction fuel with
  | zero =>
    intro p q h hrun
    unfold parse_S_prime at hrun
    split at hrun
    · cases hrun
    · cases hrun
      exact h
  | succ fuel ih =>
    intro p q h hrun
    unfold parse_S_prime at hrun
    by_cases hplus : p.lookahead.type = TOK_PLUS
    · simp only [hplus, if_true] at hrun
      have h2 := parse_F_read s _ (match_read s p TOK_PLUS h)
      generalize parse_F (match_ p TOK_PLUS).2 = p2 at hrun h2
      by_cases herr : p2.has_error = true
      · rw [if_pos herr] at hrun
        cases hrun
        exact h2
      · rw [if_neg herr] at hrun
        split at hrun
        · cases hrun
        · exact ih _ q (by exact h2) hrun
    · simp only [hplus, if_false] at hrun
      cases hrun
      exact h

theorem parse_S_read (s : List Char) (p q : Parser) (h : lookahead_read s p)
    (hrun : parse_S p = .ok q) : lookahead_read s q := by
  unfold parse_S at hrun
  simp only at hrun
  by_cases hty : p.lookahead.type = TOK_1
  · rw [if_pos hty] at hrun
    have h1 := match_read s { p with sum_num := 1, sum_den := 1 } TOK_1 h
    generalize (match_ { p with sum_num := 1, sum_den := 1 } TOK_1).2 = p1 at hrun h1
    by_cases hsl : p1.lookahead.type = TOK_SLASH
    · rw [if_pos hsl] at hrun
      have h2 := parse_F_read s p1 h1
      generalize parse_F p1 = p2 at hrun h2
      by_cases herr : p2.has_error = true
      · rw [if_pos herr] at hrun
        cases hrun
        exact h2
      · rw [if_neg herr] at hrun
        exact parse_S_prime_read s _ _ q (by exact h2) hrun
    · rw [if_neg hsl] at hrun
      exact parse_S_prime_read s _ _ q h1 hrun
  · rw [if_neg hty] at hrun
    cases hrun
    exact h

/-- At the end of a run the lookahead is the token that the lexer reads from the position
`lookahead.pos` of the input, and the cursor is where the lexer stops after it. -/
theorem run_read (input : List Char) (q : Parser) (hrun : run input = .ok q) :
    lookahead_read input q := by
  unfold run at hrun
  refine parse_S_read input _ q ?_ hrun
  unfold parser_init
  exact get_next_token_read input _ rfl

end LLAnalysator

namespace LLAnalysator

open TokenType

/-- Claim C15 as stated does not hold. The input `1 + 1/(2*3)` is accepted. Deleting its
character at index 0 gives a diagnostic with position 1, greater than the index. Replacing the
`/` at index 5, a token of its own that starts at 5, by a blank gives a diagnostic with
position 4, before the start of that token. Replacing the `+` at index 2 by a blank gives a
rejection for which no diagnostic has been written. Replacing the digit at index 7 of
`1 + 1/(40000*50000)` by `9` gives a diagnostic with position 19. The input
`1 + 1/(1*1000029) + 1/(1*687990705) + 1/(1*1729554826)` is accepted, with a sum altered by
overflow; replacing its last digit, at index 52, by `5` makes `new_num` wrap to `LLONG_MIN`
with a gcd of `-1`, the division traps, and `parse` neither accepts nor prints a diagnostic. -/
theorem C15_counterexample :
    parse "1 + 1/(2*3)".toList = .ok (Output.correct 7 6) ∧
    parse ("1 + 1/(2*3)".toList.eraseIdx 0) = .ok (Output.error (some (Msg.expected_one 1))) ∧
    ¬ (1 ≤ 0) ∧
    parse ("1 + 1/(2*3)".toList.set 5 ' ')
      = .ok (Output.error (some (Msg.expected_found TOK_RPAREN TOK_DIGIT 4))) ∧
    (get_next_token ⟨"1 + 1/(2*3)".toList, 5, ⟨TOK_INVALID, 0, 0⟩, false, none, 1, 1, 0, 0⟩).1
      = ⟨TOK_SLASH, 0, 5⟩ ∧
    ¬ (5 ≤ 4) ∧
    parse ("1 + 1/(2*3)".toList.set 2 ' ') = .ok (Output.error none) ∧
    parse "1 + 1/(40000*50000)".toList = .ok (Output.correct 2000000001 2000000000) ∧
    parse ("1 + 1/(40000*50000)".toList.set 7 '9')
      = .ok (Output.error (some (Msg.product_overflow 90000 50000 19))) ∧
    ¬ (19 ≤ 7) ∧
    parse "1 + 1/(1*1000029) + 1/(1*687990705) + 1/(1*1729554826)".toList
      = .ok (Output.correct 9223295591149695677 (-9090966787035887858)) ∧
    "1 + 1/(1*1000029) + 1/(1*687990705) + 1/(1*1729554826)".toList.set 52 '5'
      = "1 + 1/(1*1000029) + 1/(1*687990705) + 1/(1*1729554825)".toList ∧
    parse ("1 + 1/(1*1000029) + 1/(1*687990705) + 1/(1*1729554826)".toList.set 52 '5')
      = .error Fault.div_overflow :=
  ⟨rfl, rfl, by decide, rfl, rfl, by decide, rfl, rfl, rfl, by decide, rfl, rfl, rfl⟩

/-- Claim C15, amended. For every input `s` that `parse` accepts and every input `s'` obtained
from `s` by deleting the character at index `i` or substituting it by another character,
either `parse` accepts `s'`, or `parse` is ended on `s'` by the trap of the division of
`LLONG_MIN` by `-1` and prints nothing, or it rejects `s'` in a state whose cursor `pos` is
at or after `i`. In that state the lookahead is the token of `s'` that the lexer reads when it
is started at the position `lookahead.pos`, and the cursor is where the lexer stops after it.
When a diagnostic has been written (`has_error`), the position it reports is the start of
that lookahead: the lexer started on `s'` at the reported position reads a token that starts
there, and stops at or after the index `i`. -/
theorem C15_corruption_reaches_index (s s' : List Char) (i : Nat)
    (hcor : s' = s.eraseIdx i ∨ ∃ c, s' = s.set i c) (n d : Int)
    (hacc : parse s = .ok (Output.correct n d)) :
    (∃ n' d', parse s' = .ok (Output.correct n' d')) ∨
    parse s' = .error Fault.div_overflow ∨
    (∃ q, run s' = .ok q ∧ accepted q = false ∧ i ≤ q.pos ∧ q.lookahead.pos ≤ q.pos ∧
      parse s' = .ok (Output.error q.error_msg) ∧
      (∀ b : Parser, b.input = s' → b.pos = q.lookahead.pos →
        (get_next_token b).1 = q.lookahead ∧ (get_next_token b).2.pos = q.pos) ∧
      (q.has_error = true → ∃ m, q.error_msg = some m ∧ m.pos = q.lookahead.pos ∧
        ∀ b : Parser, b.input = s' → b.pos = m.pos →
          (get_next_token b).1.pos = m.pos ∧ i ≤ (get_next_token b).2.pos)) := by
  have h : s'.take i = s.take i := by
    rcases hcor with rfl | ⟨c, rfl⟩
    · exact take_eraseIdx_self s i
    · exact take_set_self s i c
  rcases run_total s' with ⟨q, hr⟩ | hr
  · by_cases hq : accepted q = true
    · left
      refine ⟨q.sum_num, q.sum_den, ?_⟩
      unfold parse
      rw [hr]
      simp only
      rw [if_pos hq]
    · right
      right
      have hrd := run_read s' q hr
      have hi : i ≤ q.pos := by
        by_contra hlt
        have ha := run_agree s' s i h q hr (by omega)
        unfold parse at hacc
        rw [ha] at hacc
        simp only at hacc
        split at hacc
        · rename_i hc
          exact hq hc
        · cases hacc
      refine ⟨q, hr, by simpa using hq, hi, run_start s' q hr, ?_, hrd.2, ?_⟩
      · unfold parse
        rw [hr]
        simp only
        rw [if_neg hq]
      · intro he
        obtain ⟨m, hm, hmp⟩ :=
          parse_S_error_at_lookahead _ q (parser_init_error_at_lookahead s') hr he
        refine ⟨m, hm, hmp, fun b hb hp => ?_⟩
        obtain ⟨t1, t2⟩ := hrd.2 b hb (hp.trans hmp)
        rw [t1, t2]
        exact ⟨hmp.symm, hi⟩
  · right
    left
    unfold parse
    rw [hr]

/-- Claim C15, amended, on `1 + 1/(2*3)` with the closing parenthesis at index 10 deleted:
the run stops on the end of the input, at position 10. -/
theorem C15_corruption_reaches_index_witness :
    parse "1 + 1/(2*3)".toList = .ok (Output.correct 7 6) ∧
    parse ("1 + 1/(2*3)".toList.eraseIdx 10)
      = .ok (Output.error (some (Msg.expected_found TOK_RPAREN TOK_END 10))) ∧
    ((∃ n' d', parse ("1 + 1/(2*3)".toList.eraseIdx 10) = .ok (Output.correct n' d')) ∨
    parse ("1 + 1/(2*3)".toList.eraseIdx 10) = .error Fault.div_overflow ∨
    (∃ q, run ("1 + 1/(2*3)".toList.eraseIdx 10) = .ok q ∧ accepted q = false ∧ 10 ≤ q.pos ∧
      q.lookahead.pos ≤ q.pos ∧
      parse ("1 + 1/(2*3)".toList.eraseIdx 10) = .ok (Output.error q.error_msg) ∧
      (∀ b : Parser, b.input = "1 + 1/(2*3)".toList.eraseIdx 10 → b.pos = q.lookahead.pos →
        (get_next_token b).1 = q.lookahead ∧ (get_next_token b).2.pos = q.pos) ∧
      (q.has_error = true → ∃ m, q.error_msg = some m ∧ m.pos = q.lookahead.pos ∧
        ∀ b : Parser, b.input = "1 + 1/(2*3)".toList.eraseIdx 10 → b.pos = m.pos →
          (get_next_token b).1.pos = m.pos ∧ 10 ≤ (get_next_token b).2.pos))) :=
  ⟨rfl, rfl, C15_corruption_reaches_index "1 + 1/(2*3)".toList _ 10 (Or.inl rfl) 7 6 rfl⟩

end LLAnalysator

/-! ### The lexer of `Task2/main.cpp` -/

namespace Task2

open TokenType

theorem current_of_lt {l : Lexer} (h : l.pos < l.input.length) :
    current l = char_at l.input l.pos := by
  unfold current
  rw [if_pos h]

theorem current_of_ge {l : Lexer} (h : l.input.length ≤ l.pos) : current l = NUL := by
  unfold current
  rw [if_neg (by omega)]

theorem lt_of_current_ne {l : Lexer} (h : current l ≠ NUL) : l.pos < l.input.length := by
  by_contra hc
  exact h (current_of_ge (by omega))

theorem advance_step (l : Lexer) :
    (advance l).2.pos = l.pos + 1 ∧ (advance l).2.input = l.input ∧ (advance l).1 = current l := by
  by_cases h : current l = NEWLINE <;> simp [advance, h]

theorem isspace_NUL : isspace NUL = false := by decide

/-- The loop of `skipWhitespace` keeps the input, moves `pos` forward, and with
`input.size() - pos` iterations it stops where `current()` is not a whitespace character. -/
theorem skipWhitespace_loop_spec (fuel : Nat) :
    ∀ l : Lexer, (skipWhitespace_loop fuel l).input = l.input ∧
      l.pos ≤ (skipWhitespace_loop fuel l).pos ∧
      (l.input.length - l.pos ≤ fuel → isspace (current (skipWhitespace_loop fuel l)) = false) := by
  induction fuel with
  | zero =>
    intro l
    refine ⟨rfl, le_refl _, fun h => ?_⟩
    show isspace (current l) = false
    rw [current_of_ge (by omega)]
    exact isspace_NUL
  | succ fuel ih =>
    intro l
    obtain ⟨a1, a2, _⟩ := advance_step l
    obtain ⟨i1, i2, i3⟩ := ih (advance l).2
    unfold skipWhitespace_loop
    by_cases hc : isspace (current l) = true
    · rw [if_pos hc]
      refine ⟨by rw [i1, a2], by omega, fun h => i3 (by rw [a1, a2]; omega)⟩
    · rw [if_neg hc]
      exact ⟨rfl, le_refl _, fun _ => by simpa using hc⟩

/-- When a character that is not whitespace is left in an input without NUL, the loop of
`skipWhitespace` stops on a character of the input. -/
theorem skipWhitespace_loop_found (fuel : Nat) :
    ∀ l : Lexer, NUL ∉ l.input → (∃ c ∈ l.input.drop l.pos, isspace c = false) →
      l.input.length - l.pos ≤ fuel → current (skipWhitespace_loop fuel l) ≠ NUL := by
  induction fuel with
  | zero =>
    intro l _ hex hf
    obtain ⟨c, hc, _⟩ := hex
    rw [List.drop_eq_nil_of_le (by omega)] at hc
    cases hc
  | succ fuel ih =>
    intro l hnul hex hf
    obtain ⟨a1, a2, _⟩ := advance_step l
    obtain ⟨c, hc, hsp⟩ := hex
    have hlt : l.pos < l.input.length := by
      by_contra hge
      rw [List.drop_eq_nil_of_le (by omega)] at hc
      cases hc
    cases hd : l.input.drop l.pos with
    | nil =>
      rw [hd] at hc
      cases hc
    | cons x xs =>
      have hx : current l = x := by
        rw [current_of_lt hlt]
        exact char_at_of_drop hd
      unfold skipWhitespace_loop
      by_cases hs : isspace (current l) = true
      · rw [if_pos hs]
        apply ih
        · rw [a2]
          exact hnul
        · refine ⟨c, ?_, hsp⟩
          rw [a1, a2, drop_cons_next hd]
          rw [hd] at hc
          rcases List.mem_cons.mp hc with h | h
          · rw [h, ← hx, hs] at hsp
            cases hsp
          · exact h
        · rw [a1, a2]
          omega
      · rw [if_neg hs, hx]
        intro hN
        have : x ∈ l.input := List.mem_of_mem_drop (by rw [hd]; exact List.mem_cons_self _ _)
        rw [hN] at this
        exact hnul this

/-- When only whitespace is left, `skipWhitespace` stops where `current()` is `'\0'`. -/
theorem skipWhitespace_only_space (l : Lexer)
    (h : ∀ c ∈ l.input.drop l.pos, isspace c = true) : current (skipWhitespace l) = NUL := by
  obtain ⟨i1, i2, i3⟩ := skipWhitespace_loop_spec (l.input.length - l.pos) l
  have i3' := i3 (le_refl _)
  unfold skipWhitespace
  generalize skipWhitespace_loop (l.input.length - l.pos) l = s at *
  by_contra hne
  have hlt := lt_of_current_ne hne
  have hm : current s ∈ l.input.drop l.pos := by
    rw [current_of_lt hlt, i1]
    unfold char_at
    have hsplit : l.input.drop s.pos = (l.input.drop l.pos).drop (s.pos - l.pos) := by
      rw [List.drop_drop]
      congr 1
      omega
    rw [hsplit]
    cases hd : (l.input.drop l.pos).drop (s.pos - l.pos) with
    | nil =>
      rw [← hsplit] at hd
      have := List.drop_eq_nil_iff.mp hd
      rw [i1] at hlt
      omega
    | cons x xs =>
      have : x ∈ (l.input.drop l.pos).drop (s.pos - l.pos) := by rw [hd]; exact List.mem_cons_self _ _
      exact List.mem_of_mem_drop this
  rw [h _ hm] at i3'
  cases i3'

end Task2

namespace Task2

open TokenType

/-- The loop of `readNumber` keeps the input, moves `pos` forward, by at least one character
when it starts on a character of a number, and with `input.size() - pos` iterations it stops
where its condition is false. -/
theorem readNumber_loop_spec (fuel : Nat) :
    ∀ (l : Lexer) (num : List Char),
      (readNumber_loop fuel l num).2.input = l.input ∧
      l.pos ≤ (readNumber_loop fuel l num).2.pos ∧
      (l.input.length - l.pos ≤ fuel →
        ¬ (isdigit (current (readNumber_loop fuel l num).2) = true ∨
          current (readNumber_loop fuel l num).2 = '.' ∨
          tolower (current (readNumber_loop fuel l num).2) = 'e' ∨
          current (readNumber_loop fuel l num).2 = '+' ∨
          current (readNumber_loop fuel l num).2 = '-')) ∧
      (isdigit (current l) = true → 0 < fuel → l.pos < (readNumber_loop fuel l num).2.pos) := by
  induction fuel with
  | zero =>
    intro l num
    refine ⟨rfl, le_refl _, fun h => ?_, fun _ h => absurd h (by omega)⟩
    show ¬ (isdigit (current l) = true ∨ current l = '.' ∨ tolower (current l) = 'e' ∨
      current l = '+' ∨ current l = '-')
    rw [current_of_ge (by omega)]
    decide
  | succ fuel ih =>
    intro l num
    obtain ⟨a1, a2, _⟩ := advance_step l
    obtain ⟨i1, i2, i3, _⟩ := ih (advance l).2 (num ++ [(advance l).1])
    unfold readNumber_loop
    by_cases hc : isdigit (current l) = true ∨ current l = '.' ∨ tolower (current l) = 'e' ∨
        current l = '+' ∨ current l = '-'
    · rw [if_pos hc]
      dsimp only
      exact ⟨by rw [i1, a2], by omega, fun h => i3 (by rw [a1, a2]; omega), fun _ _ => by omega⟩
    · rw [if_neg hc]
      exact ⟨rfl, le_refl _, fun _ => hc, fun hd _ => absurd (Or.inl hd) hc⟩

/-- The loop of `readIdentifier` keeps the input, moves `pos` forward, by at least one
character when it starts on a character of an identifier, and with `input.size() - pos`
iterations it stops where its condition is false. -/
theorem readIdentifier_loop_spec (fuel : Nat) :
    ∀ (l : Lexer) (id : List Char),
      (readIdentifier_loop fuel l id).2.input = l.input ∧
      l.pos ≤ (readIdentifier_loop fuel l id).2.pos ∧
      (l.input.length - l.pos ≤ fuel →
        ¬ (isalnum (current (readIdentifier_loop fuel l id).2) = true ∨
          current (readIdentifier_loop fuel l id).2 = '_')) ∧
      ((isalnum (current l) = true ∨ current l = '_') → 0 < fuel →
        l.pos < (readIdentifier_loop fuel l id).2.pos) := by
  induction fuel with
  | zero =>
    intro l id
    refine ⟨rfl, le_refl _, fun h => ?_, fun _ h => absurd h (by omega)⟩
    show ¬ (isalnum (current l) = true ∨ current l = '_')
    rw [current_of_ge (by omega)]
    decide
  | succ fuel ih =>
    intro l id
    obtain ⟨a1, a2, _⟩ := advance_step l
    obtain ⟨i1, i2, i3, _⟩ := ih (advance l).2 (id ++ [(advance l).1])
    unfold readIdentifier_loop
    by_cases hc : isalnum (current l) = true ∨ current l = '_'
    · rw [if_pos hc]
      dsimp only
      exact ⟨by rw [i1, a2], by omega, fun h => i3 (by rw [a1, a2]; omega), fun _ _ => by omega⟩
    · rw [if_neg hc]
      exact ⟨rfl, le_refl _, fun _ => hc, fun hd _ => absurd hd hc⟩

/-- The loop of `readString` keeps the input, moves `pos` forward, and with
`input.size() - pos` iterations it stops on the delimiter or where `current()` is `'\0'`. -/
theorem readString_loop_spec (delim : Char) (fuel : Nat) :
    ∀ (l : Lexer) (str : List Char),
      (readString_loop delim fuel l str).2.input = l.input ∧
      l.pos ≤ (readString_loop delim fuel l str).2.pos ∧
      (l.input.length - l.pos ≤ fuel →
        ¬ (current (readString_loop delim fuel l str).2 ≠ delim ∧
          current (readString_loop delim fuel l str).2 ≠ NUL)) := by
  induction fuel with
  | zero =>
    intro l str
    refine ⟨rfl, le_refl _, fun h => ?_⟩
    show ¬ (current l ≠ delim ∧ current l ≠ NUL)
    rw [current_of_ge (by omega)]
    exact fun hc => hc.2 rfl
  | succ fuel ih =>
    intro l str
    obtain ⟨a1, a2, _⟩ := advance_step l
    unfold readString_loop
    by_cases hc : current l ≠ delim ∧ current l ≠ NUL
    · rw [if_pos hc]
      dsimp only
      by_cases hb : current l = BACKSLASH
      · rw [if_pos hb]
        obtain ⟨b1, b2, _⟩ := advance_step (advance l).2
        obtain ⟨i1, i2, i3⟩ := ih (advance (advance l).2).2 (str ++ [(advance (advance l).2).1])
        exact ⟨by rw [i1, b2, a2], by omega, fun h => i3 (by rw [b1, b2, a1, a2]; omega)⟩
      · rw [if_neg hb]
        obtain ⟨i1, i2, i3⟩ := ih (advance l).2 (str ++ [(advance l).1])
        exact ⟨by rw [i1, a2], by omega, fun h => i3 (by rw [a1, a2]; omega)⟩
    · rw [if_neg hc]
      exact ⟨rfl, le_refl _, fun _ => hc⟩

theorem readString_progress (l : Lexer) (delim : Char) :
    (readString l delim).2.input = l.input ∧ l.pos < (readString l delim).2.pos := by
  obtain ⟨a1, a2, _⟩ := advance_step l
  obtain ⟨i1, i2, _⟩ := readString_loop_spec delim
    ((advance l).2.input.length - (advance l).2.pos) (advance l).2 []
  obtain ⟨b1, b2, _⟩ := advance_step
    (readString_loop delim ((advance l).2.input.length - (advance l).2.pos) (advance l).2 []).2
  unfold readString
  simp only
  exact ⟨by rw [b2, i1, a2], by omega⟩

theorem single_progress (l : Lexer) (ty : TokenType) (v : List Char) :
    (single l ty v).1.type = ty ∧ (single l ty v).2.input = l.input ∧
    (single l ty v).2.pos = l.pos + 1 := by
  obtain ⟨a1, a2, _⟩ := advance_step l
  unfold single
  exact ⟨rfl, a2, a1⟩

theorem with_equals_progress (l : Lexer) (t1 t2 : TokenType) (v1 v2 : List Char) :
    ((with_equals l t1 v1 t2 v2).1.type = t1 ∨ (with_equals l t1 v1 t2 v2).1.type = t2) ∧
    (with_equals l t1 v1 t2 v2).2.input = l.input ∧
    l.pos < (with_equals l t1 v1 t2 v2).2.pos := by
  obtain ⟨a1, a2, _⟩ := advance_step l
  obtain ⟨b1, b2, _⟩ := advance_step (advance l).2
  unfold with_equals
  simp only
  split
  · exact ⟨Or.inl rfl, by rw [b2, a2], by show l.pos < (advance (advance l).2).2.pos; omega⟩
  · exact ⟨Or.inr rfl, a2, by show l.pos < (advance l).2.pos; omega⟩

theorem lookup_ne_EOF (kws : List (List Char × TokenType)) (h : ∀ p ∈ kws, p.2 ≠ EOF_TOKEN)
    (id : List Char) : (kws.lookup id).getD IDENTIFIER ≠ EOF_TOKEN := by
  induction kws with
  | nil => simp [List.lookup]
  | cons p ps ih =>
    obtain ⟨k, v⟩ := p
    unfold List.lookup
    split
    · exact h (k, v) (List.mem_cons_self _ _)
    · exact ih (fun q hq => h q (List.mem_cons_of_mem _ hq))

theorem keywords_ne_EOF (id : List Char) : (keywords.lookup id).getD IDENTIFIER ≠ EOF_TOKEN :=
  lookup_ne_EOF keywords (by decide) id

end Task2

namespace Task2

open TokenType

theorem progresses_ite {P : Prop} [Decidable P] {s : Lexer} {a b : Token × Lexer}
    (ha : P → progresses s a) (hb : ¬ P → progresses s b) :
    progresses s (if P then a else b) := by
  split
  · exact ha (by assumption)
  · exact hb (by assumption)

theorem pair_good (s r : Lexer) (tok : Token) (hty : tok.type ≠ EOF_TOKEN)
    (h : r.input = s.input ∧ s.pos < r.pos) : progresses s (tok, r) :=
  ⟨hty, h.1, h.2⟩

theorem single_good (s l : Lexer) (ty : TokenType) (v : List Char) (hty : ty ≠ EOF_TOKEN)
    (hi : l.input = s.input) (hp : s.pos ≤ l.pos) : progresses s (single l ty v) := by
  obtain ⟨h1, h2, h3⟩ := single_progress l ty v
  exact ⟨by rw [h1]; exact hty, by rw [h2, hi], by rw [h3]; omega⟩

theorem with_equals_good (s : Lexer) (t1 t2 : TokenType) (v1 v2 : List Char)
    (h1 : t1 ≠ EOF_TOKEN) (h2 : t2 ≠ EOF_TOKEN) : progresses s (with_equals s t1 v1 t2 v2) := by
  obtain ⟨a, b, c⟩ := with_equals_progress s t1 t2 v1 v2
  refine ⟨?_, b, c⟩
  rcases a with a | a
  · rw [a]
    exact h1
  · rw [a]
    exact h2

theorem readString_good (s : Lexer) (delim : Char) :
    progresses s (⟨STRING, (readString s delim).1, (readString s delim).2.line,
      (readString s delim).2.column⟩, (readString s delim).2) :=
  ⟨by show STRING ≠ EOF_TOKEN; decide, (readString_progress s delim).1,
    (readString_progress s delim).2⟩

theorem readNumber_good (s : Lexer) (hlt : s.pos < s.input.length)
    (hd : isdigit (current s) = true) :
    progresses s (⟨NUMBER, (readNumber s).1, (readNumber s).2.line, (readNumber s).2.column⟩,
      (readNumber s).2) := by
  obtain ⟨i1, _, _, i4⟩ := readNumber_loop_spec (s.input.length - s.pos) s []
  exact ⟨by show NUMBER ≠ EOF_TOKEN; decide, i1, i4 hd (by omega)⟩

theorem readIdentifier_good (s : Lexer) (hlt : s.pos < s.input.length)
    (hd : isalpha (current s) = true ∨ current s = '_') :
    progresses s (⟨(keywords.lookup (readIdentifier s).1).getD IDENTIFIER, (readIdentifier s).1,
      (readIdentifier s).2.line, (readIdentifier s).2.column⟩, (readIdentifier s).2) := by
  obtain ⟨i1, _, _, i4⟩ := readIdentifier_loop_spec (s.input.length - s.pos) s []
  refine ⟨keywords_ne_EOF _, i1, i4 ?_ (by omega)⟩
  rcases hd with hd | hd
  · left
    unfold isalnum
    rw [hd]
    rfl
  · exact Or.inr hd

/-- After `skipWhitespace`, when `current()` is not `'\0'`, the rest of `nextToken` returns a
token other than `EOF_TOKEN` and moves `pos` strictly forward. -/
theorem nextToken_spec (l : Lexer) :
    (current (skipWhitespace l) = NUL →
      nextToken l = (⟨EOF_TOKEN, [], (skipWhitespace l).line, (skipWhitespace l).column⟩,
        skipWhitespace l)) ∧
    (current (skipWhitespace l) ≠ NUL → progresses (skipWhitespace l) (nextToken l)) := by
  unfold nextToken
  dsimp only
  generalize skipWhitespace l = s
  constructor
  · intro hN
    rw [if_pos hN]
  · intro hN
    rw [if_neg hN]
    have hlt := lt_of_current_ne hN
    have h1 : (advance s).2.input = s.input ∧ s.pos < (advance s).2.pos := by
      obtain ⟨a1, a2, _⟩ := advance_step s
      exact ⟨a2, by omega⟩
    have h2 : (advance (advance s).2).2.input = s.input ∧
        s.pos < (advance (advance s).2).2.pos := by
      obtain ⟨a1, a2, _⟩ := advance_step (advance s).2
      exact ⟨by rw [a2, h1.1], by omega⟩
    have h3 : (advance (advance (advance s).2).2).2.input = s.input ∧
        s.pos < (advance (advance (advance s).2).2).2.pos := by
      obtain ⟨a1, a2, _⟩ := advance_step (advance (advance s).2).2
      exact ⟨by rw [a2, h2.1], by omega⟩
    repeat' (with_reducible apply progresses_ite <;> intro)
    · exact readString_good s _
    · exact readNumber_good s hlt (by assumption)
    · exact readIdentifier_good s hlt (by assumption)
    · exact single_good s s _ _ (by decide) rfl (le_refl _)
    · exact single_good s s _ _ (by decide) rfl (le_refl _)
    · exact single_good s s _ _ (by decide) rfl (le_refl _)
    · exact single_good s s _ _ (by decide) rfl (le_refl _)
    · exact single_good s s _ _ (by decide) rfl (le_refl _)
    · exact single_good s s _ _ (by decide) rfl (le_refl _)
    · exact single_good s s _ _ (by decide) rfl (le_refl _)
    · exact with_equals_good s _ _ _ _ (by decide) (by decide)
    · exact with_equals_good s _ _ _ _ (by decide) (by decide)
    · exact with_equals_good s _ _ _ _ (by decide) (by decide)
    · exact pair_good s _ _ (by show NEQ ≠ EOF_TOKEN; decide) h2
    · exact single_good s (advance s).2 _ _ (by decide) h1.1 (by omega)
    · exact pair_good s _ _ (by show DOTS ≠ EOF_TOKEN; decide) h3
    · exact pair_good s _ _ (by show CONCAT ≠ EOF_TOKEN; decide) h2
    · exact pair_good s _ _ (by show UNKNOWN ≠ EOF_TOKEN; decide) h1
    · exact single_good s s _ _ (by decide) rfl (le_refl _)
    · exact single_good s s _ _ (by decide) rfl (le_refl _)
    · exact single_good s s _ _ (by decide) rfl (le_refl _)
    · exact single_good s s _ _ (by decide) rfl (le_refl _)
    · exact single_good s s _ _ (by decide) rfl (le_refl _)
    · exact single_good s s _ _ (by decide) rfl (le_refl _)
    · exact single_good s s _ _ (by decide) rfl (le_refl _)
    · exact single_good s s _ _ (by decide) rfl (le_refl _)
    · exact single_good s s _ _ (by decide) rfl (le_refl _)
    · exact single_good s s _ _ (by decide) rfl (le_refl _)

end Task2

namespace Task2

open TokenType

theorem skipWhitespace_frame (l : Lexer) :
    (skipWhitespace l).input = l.input ∧ l.pos ≤ (skipWhitespace l).pos ∧
    isspace (current (skipWhitespace l)) = false := by
  obtain ⟨i1, i2, i3⟩ := skipWhitespace_loop_spec (l.input.length - l.pos) l
  exact ⟨i1, i2, i3 (le_refl _)⟩

/-- A call of `nextToken` that returns a token other than `EOF_TOKEN` was made before the end
of the input and has moved `pos` strictly forward. -/
theorem nextToken_progress (l : Lexer) (h : (nextToken l).1.type ≠ EOF_TOKEN) :
    l.pos < l.input.length ∧ l.pos < (nextToken l).2.pos ∧
    (nextToken l).2.input = l.input := by
  obtain ⟨s1, s2, _⟩ := skipWhitespace_frame l
  obtain ⟨n1, n2⟩ := nextToken_spec l
  by_cases hN : current (skipWhitespace l) = NUL
  · rw [n1 hN] at h
    exact absurd rfl h
  · obtain ⟨_, p2, p3⟩ := n2 hN
    have hlt := lt_of_current_ne hN
    rw [s1] at hlt p2
    exact ⟨by omega, by omega, p2⟩

/-- The loop of `main` ends, after at most `input.size() - pos` tokens. -/
theorem main_loop_terminates (fuel : Nat) :
    ∀ l : Lexer, l.input.length - l.pos < fuel →
      ∃ toks, main_loop fuel l = some toks ∧ toks.length ≤ l.input.length - l.pos := by
  induction fuel with
  | zero =>
    intro l h
    omega
  | succ fuel ih =>
    intro l h
    unfold main_loop
    dsimp only
    by_cases hE : (nextToken l).1.type = EOF_TOKEN
    · rw [if_pos hE]
      exact ⟨[], rfl, Nat.zero_le _⟩
    · rw [if_neg hE]
      obtain ⟨p1, p2, p3⟩ := nextToken_progress l hE
      obtain ⟨toks, ht, hl⟩ := ih (nextToken l).2 (by rw [p3]; omega)
      rw [ht]
      refine ⟨(nextToken l).1 :: toks, rfl, ?_⟩
      rw [p3] at hl
      simp only [List.length_cons]
      omega

/-- C22. Progress of the lexer of `Task2/main.cpp`. On an input without NUL, in a state with
`pos < input.size()` whose remaining input is not only whitespace, a call of `nextToken`
returns a token other than `EOF_TOKEN` and strictly increases `pos`; when only whitespace or
nothing remains it returns `EOF_TOKEN`. On every input, a call that returns a token other than
`EOF_TOKEN` was made with `pos < input.size()` and strictly increases `pos`, so that the loop
of `main` ends after printing at most `input.size()` tokens. The loops of `skipWhitespace`,
`readNumber`, `readIdentifier` and `readString` stop where their condition is false. -/
theorem C22_lexer_progress :
    (∀ l : Lexer, NUL ∉ l.input → l.pos < l.input.length →
      (∃ c ∈ l.input.drop l.pos, isspace c = false) →
      (nextToken l).1.type ≠ EOF_TOKEN ∧ l.pos < (nextToken l).2.pos ∧
      (nextToken l).2.input = l.input) ∧
    (∀ l : Lexer, (∀ c ∈ l.input.drop l.pos, isspace c = true) →
      (nextToken l).1.type = EOF_TOKEN) ∧
    (∀ l : Lexer, (nextToken l).1.type ≠ EOF_TOKEN →
      l.pos < l.input.length ∧ l.pos < (nextToken l).2.pos ∧
      (nextToken l).2.input = l.input) ∧
    (∀ code : List Char, ∃ toks, main code = some toks ∧ toks.length ≤ code.length) ∧
    (∀ l : Lexer, isspace (current (skipWhitespace l)) = false) ∧
    (∀ l : Lexer, ¬ (isdigit (current (readNumber l).2) = true ∨
      current (readNumber l).2 = '.' ∨ tolower (current (readNumber l).2) = 'e' ∨
      current (readNumber l).2 = '+' ∨ current (readNumber l).2 = '-')) ∧
    (∀ l : Lexer, ¬ (isalnum (current (readIdentifier l).2) = true ∨
      current (readIdentifier l).2 = '_')) ∧
    (∀ (l : Lexer) (delim : Char),
      ¬ (current (readString_loop delim (l.input.length - l.pos) l []).2 ≠ delim ∧
        current (readString_loop delim (l.input.length - l.pos) l []).2 ≠ NUL)) := by
  refine ⟨?_, ?_, nextToken_progress, ?_, fun l => (skipWhitespace_frame l).2.2, ?_, ?_, ?_⟩
  · intro l hnul hlt hex
    have hfound := skipWhitespace_loop_found (l.input.length - l.pos) l hnul hex (le_refl _)
    have hty := ((nextToken_spec l).2 hfound).1
    exact ⟨hty, (nextToken_progress l hty).2⟩
  · intro l hsp
    rw [(nextToken_spec l).1 (skipWhitespace_only_space l hsp)]
  · intro code
    obtain ⟨toks, h1, h2⟩ := main_loop_terminates (code.length + 1) ⟨code, 0, 1, 1⟩
      (by simp only; omega)
    exact ⟨toks, h1, h2⟩
  · intro l
    exact (readNumber_loop_spec (l.input.length - l.pos) l []).2.2.1 (le_refl _)
  · intro l
    exact (readIdentifier_loop_spec (l.input.length - l.pos) l []).2.2.1 (le_refl _)
  · intro l delim
    exact (readString_loop_spec delim (l.input.length - l.pos) l []).2.2 (le_refl _)

/-- C22, witness: the first call of `nextToken` on `x = 1`, and the tokens printed by `main`
on this input. -/
theorem C22_lexer_progress_witness :
    ((nextToken ⟨"x = 1".toList, 0, 1, 1⟩).1.type ≠ EOF_TOKEN ∧
      0 < (nextToken ⟨"x = 1".toList, 0, 1, 1⟩).2.pos ∧
      (nextToken ⟨"x = 1".toList, 0, 1, 1⟩).2.input = "x = 1".toList) ∧
    main "x = 1".toList
      = some [⟨IDENTIFIER, ['x'], 1, 2⟩, ⟨ASSIGN, ['='], 1, 4⟩, ⟨NUMBER, ['1'], 1, 6⟩] :=
  ⟨C22_lexer_progress.1 ⟨"x = 1".toList, 0, 1, 1⟩ (by decide) (by decide)
    ⟨'x', by decide, by decide⟩, rfl⟩

end Task2

/-! ### The fraction evaluator of `Task1/analysator.c` -/

theorem dropWhile_run (p : Char → Bool) (a b : List Char) (ha : ∀ c ∈ a, p c = true)
    (hb : p (deref b) = false) : (a ++ b).dropWhile p = b := by
  induction a with
  | nil =>
    cases b with
    | nil => rfl
    | cons x xs =>
      have hx : p x = false := hb
      simp [List.dropWhile, hx]
  | cons x xs ih =>
    have hx : p x = true := ha x (List.mem_cons_self _ _)
    simp only [List.cons_append, List.dropWhile, hx]
    exact ih (fun c hc => ha c (List.mem_cons_of_mem _ hc))

theorem decimal_ne_nil (n : Nat) : decimal n ≠ [] := by
  unfold decimal Nat.toDigits Nat.toDigitsCore
  dsimp only
  split
  · simp
  · rw [toDigitsCore_append]
    simp

theorem isdigit_props {c : Char} (h : isdigit c = true) :
    c ≠ NUL ∧ isspace c = false ∧ c ≠ '+' ∧ c ≠ '/' ∧ c ≠ '-' := by
  refine ⟨isdigit_ne_NUL h, isdigit_not_isspace h, ?_, ?_, ?_⟩ <;>
    (intro hc; subst hc; revert h; decide)

/-- The text of an integer starts with a digit, or with `-` and a digit; what follows the
optional `-` is made of digits. -/
theorem int_text_shape (n : Int) :
    ∃ c r, int_text n = c :: r ∧
      ((isdigit c = true ∧ ∀ x ∈ r, isdigit x = true) ∨
       (c = '-' ∧ r ≠ [] ∧ ∀ x ∈ r, isdigit x = true)) := by
  unfold int_text
  have hd := decimal_isdigit n.natAbs
  have hne := decimal_ne_nil n.natAbs
  by_cases hn : n < 0
  · rw [if_pos hn]
    exact ⟨'-', _, rfl, Or.inr ⟨rfl, hne, hd⟩⟩
  · rw [if_neg hn]
    cases hdec : decimal n.natAbs with
    | nil => exact absurd hdec hne
    | cons c r =>
      rw [hdec] at hd
      exact ⟨c, r, rfl, Or.inl ⟨hd c (List.mem_cons_self _ _),
        fun x hx => hd x (List.mem_cons_of_mem _ hx)⟩⟩

namespace Analysator

/-- At the text of an integer, `tokenize` finds a number, not whitespace, not the end, not `+`
and not `/`, and its statements for a number skip this text when no digit follows it. -/
theorem number_scan (n : Int) (rest : List Char) (hrest : isdigit (deref rest) = false) :
    deref (int_text n ++ rest) ≠ NUL ∧ isspace (deref (int_text n ++ rest)) = false ∧
    deref (int_text n ++ rest) ≠ '+' ∧ deref (int_text n ++ rest) ≠ '/' ∧
    starts_number (int_text n ++ rest) = true ∧ skip_number (int_text n ++ rest) = rest := by
  obtain ⟨c, r, hcr, hshape⟩ := int_text_shape n
  rw [hcr]
  rcases hshape with ⟨hc, hr⟩ | ⟨hc, hne, hr⟩
  · obtain ⟨p1, p2, p3, p4, p5⟩ := isdigit_props hc
    refine ⟨p1, p2, p3, p4, ?_, ?_⟩
    · simp [starts_number, deref, hc]
    · unfold skip_number
      have : deref (c :: r ++ rest) = c := rfl
      rw [this, if_neg p5]
      exact dropWhile_run isdigit (c :: r) rest
        (fun x hx => by
          rcases List.mem_cons.mp hx with h | h
          · rw [h]; exact hc
          · exact hr x h) hrest
  · subst hc
    cases r with
    | nil => exact absurd rfl hne
    | cons d r' =>
      have hd : isdigit d = true := hr d (List.mem_cons_self _ _)
      have hm : deref ('-' :: d :: r' ++ rest) = '-' := rfl
      rw [hm]
      refine ⟨by decide, by decide, by decide, by decide, ?_, ?_⟩
      · simp [starts_number, deref, hd]
      · unfold skip_number
        rw [hm, if_pos rfl]
        exact dropWhile_run isdigit (d :: r') rest hr hrest

theorem int_text_starts_number (n : Int) : starts_number (int_text n) = true := by
  have h := (number_scan n [] (by decide)).2.2.2.2.1
  rw [List.append_nil] at h
  exact h

end Analysator

namespace Analysator

theorem deref_blank_ne (ws X : List Char) (hws : ∀ c ∈ ws, isspace c = true)
    (hX : deref X ≠ NUL) : deref (ws ++ X) ≠ NUL := by
  cases ws with
  | nil => exact hX
  | cons w ws' => exact isspace_ne_NUL (hws w (List.mem_cons_self _ _))

theorem take_length_sub (a b : List Char) : (a ++ b).take ((a ++ b).length - b.length) = a := by
  simp

/-- One iteration of the second loop of `tokenize` on whitespace followed by a number. -/
theorem fill_number (fuel : Nat) (ws : List Char) (n : Int) (rest : List Char)
    (tokens : List (List Char)) (hws : ∀ c ∈ ws, isspace c = true)
    (hrest : isdigit (deref rest) = false) :
    fill_loop (fuel + 1) (ws ++ (int_text n ++ rest)) tokens
      = fill_loop fuel rest (tokens ++ [int_text n]) := by
  obtain ⟨n1, n2, n3, n4, n5, n6⟩ := number_scan n rest hrest
  have h0 := deref_blank_ne ws _ hws n1
  have hdw := dropWhile_run isspace ws (int_text n ++ rest) hws n2
  rw [fill_loop, if_neg h0]
  dsimp only
  rw [hdw, if_neg n1, if_neg (by intro hc; rcases hc with hc | hc; exact n3 hc; exact n4 hc),
    if_pos n5, n6, take_length_sub]

/-- One iteration of the first loop of `tokenize` on whitespace followed by a number. -/
theorem count_number (fuel : Nat) (ws : List Char) (n : Int) (rest : List Char) (count : Nat)
    (hws : ∀ c ∈ ws, isspace c = true) (hrest : isdigit (deref rest) = false) :
    count_loop (fuel + 1) (ws ++ (int_text n ++ rest)) count
      = count_loop fuel rest (count + 1) := by
  obtain ⟨n1, n2, n3, n4, n5, n6⟩ := number_scan n rest hrest
  have h0 := deref_blank_ne ws _ hws n1
  have hdw := dropWhile_run isspace ws (int_text n ++ rest) hws n2
  rw [count_loop, if_neg h0]
  dsimp only
  rw [hdw, if_neg n1, if_neg (by intro hc; rcases hc with hc | hc; exact n3 hc; exact n4 hc),
    if_pos n5, n6]

/-- One iteration of the second loop of `tokenize` on whitespace followed by `+` or `/`. -/
theorem fill_symbol (fuel : Nat) (ws : List Char) (c : Char) (rest : List Char)
    (tokens : List (List Char)) (hws : ∀ c ∈ ws, isspace c = true) (hc : c = '+' ∨ c = '/') :
    fill_loop (fuel + 1) (ws ++ c :: rest) tokens = fill_loop fuel rest (tokens ++ [[c]]) := by
  have hN : deref (c :: rest) ≠ NUL := by
    show c ≠ NUL
    rcases hc with rfl | rfl <;> decide
  have hsp : isspace (deref (c :: rest)) = false := by
    rcases hc with rfl | rfl <;> rfl
  have h0 := deref_blank_ne ws _ hws hN
  have hdw := dropWhile_run isspace ws (c :: rest) hws hsp
  have hc' : deref (c :: rest) = '+' ∨ deref (c :: rest) = '/' := hc
  rw [fill_loop, if_neg h0]
  dsimp only
  rw [hdw, if_neg hN, if_pos hc']
  have hlen : (c :: rest).length - (List.drop 1 (c :: rest)).length = 1 := by
    simp
  rw [hlen]
  rfl

/-- One iteration of the first loop of `tokenize` on whitespace followed by `+` or `/`. -/
theorem count_symbol (fuel : Nat) (ws : List Char) (c : Char) (rest : List Char) (count : Nat)
    (hws : ∀ c ∈ ws, isspace c = true) (hc : c = '+' ∨ c = '/') :
    count_loop (fuel + 1) (ws ++ c :: rest) count = count_loop fuel rest (count + 1) := by
  have hN : deref (c :: rest) ≠ NUL := by
    show c ≠ NUL
    rcases hc with rfl | rfl <;> decide
  have hsp : isspace (deref (c :: rest)) = false := by
    rcases hc with rfl | rfl <;> rfl
  have h0 := deref_blank_ne ws _ hws hN
  have hdw := dropWhile_run isspace ws (c :: rest) hws hsp
  have hc' : deref (c :: rest) = '+' ∨ deref (c :: rest) = '/' := hc
  rw [count_loop, if_neg h0]
  dsimp only
  rw [hdw, if_neg hN, if_pos hc']
  rfl

theorem expr_tail_not_digit (ts : List (Int × Int)) : isdigit (deref (expr_tail ts)) = false := by
  cases ts <;> rfl

/-- The second loop of `tokenize` on the text of a fraction. -/
theorem fill_fraction (fuel : Nat) (ws : List Char) (t : Int × Int) (rest : List Char)
    (tokens : List (List Char)) (hws : ∀ c ∈ ws, isspace c = true)
    (hrest : isdigit (deref rest) = false) :
    fill_loop (fuel + 3) (ws ++ (fraction_text t ++ rest)) tokens
      = fill_loop fuel rest (tokens ++ [int_text t.1, ['/'], int_text t.2]) := by
  have e : ws ++ (fraction_text t ++ rest)
      = ws ++ (int_text t.1 ++ ([] ++ '/' :: ([] ++ (int_text t.2 ++ rest)))) := by
    simp [fraction_text]
  rw [e, fill_number (fuel + 2) ws t.1 _ tokens hws (by rfl),
    fill_symbol (fuel + 1) [] '/' _ _ (by simp) (Or.inr rfl),
    fill_number fuel [] t.2 rest _ (by simp) hrest]
  simp

/-- The first loop of `tokenize` on the text of a fraction. -/
theorem count_fraction (fuel : Nat) (ws : List Char) (t : Int × Int) (rest : List Char)
    (count : Nat) (hws : ∀ c ∈ ws, isspace c = true) (hrest : isdigit (deref rest) = false) :
    count_loop (fuel + 3) (ws ++ (fraction_text t ++ rest)) count
      = count_loop fuel rest (count + 3) := by
  have e : ws ++ (fraction_text t ++ rest)
      = ws ++ (int_text t.1 ++ ([] ++ '/' :: ([] ++ (int_text t.2 ++ rest)))) := by
    simp [fraction_text]
  rw [e, count_number (fuel + 2) ws t.1 _ count hws (by rfl),
    count_symbol (fuel + 1) [] '/' _ _ (by simp) (Or.inr rfl),
    count_number fuel [] t.2 rest _ (by simp) hrest]

/-- The second loop of `tokenize` on the text of the fractions that follow the first. -/
theorem fill_tail (ts : List (Int × Int)) :
    ∀ (fuel : Nat) (tokens : List (List Char)), 4 * ts.length ≤ fuel →
      fill_loop fuel (expr_tail ts) tokens = .ok (tokens ++ expr_tail_tokens ts) := by
  induction ts with
  | nil =>
    intro fuel tokens _
    cases fuel <;> simp [fill_loop, expr_tail, expr_tail_tokens, deref]
  | cons t ts ih =>
    intro fuel tokens hf
    simp only [List.length_cons] at hf
    obtain ⟨f, rfl⟩ : ∃ f, fuel = f + 4 := ⟨fuel - 4, by omega⟩
    have e : expr_tail (t :: ts) = [' '] ++ '+' :: ([' '] ++ (fraction_text t ++ expr_tail ts)) := by
      simp [expr_tail]
    rw [e, fill_symbol (f + 3) [' '] '+' _ tokens (by decide) (Or.inl rfl),
      fill_fraction f [' '] t _ _ (by decide) (expr_tail_not_digit ts), ih f _ (by omega)]
    simp [expr_tail_tokens]

/-- The first loop of `tokenize` on the text of the fractions that follow the first. -/
theorem count_tail (ts : List (Int × Int)) :
    ∀ (fuel count : Nat), 4 * ts.length ≤ fuel →
      count_loop fuel (expr_tail ts) count = .ok (count + 4 * ts.length) := by
  induction ts with
  | nil =>
    intro fuel count _
    cases fuel <;> simp [count_loop, expr_tail, deref]
  | cons t ts ih =>
    intro fuel count hf
    simp only [List.length_cons] at hf
    obtain ⟨f, rfl⟩ : ∃ f, fuel = f + 4 := ⟨fuel - 4, by omega⟩
    have e : expr_tail (t :: ts) = [' '] ++ '+' :: ([' '] ++ (fraction_text t ++ expr_tail ts)) := by
      simp [expr_tail]
    rw [e, count_symbol (f + 3) [' '] '+' _ count (by decide) (Or.inl rfl),
      count_fraction f [' '] t _ _ (by decide) (expr_tail_not_digit ts), ih f _ (by omega)]
    simp only [List.length_cons]
    congr 1
    omega

end Analysator

theorem int_text_length (n : Int) : 1 ≤ (int_text n).length := by
  obtain ⟨c, r, h, _⟩ := int_text_shape n
  rw [h]
  simp

theorem fraction_text_length (t : Int × Int) : 3 ≤ (fraction_text t).length := by
  have h1 := int_text_length t.1
  have h2 := int_text_length t.2
  simp only [fraction_text, List.length_append, List.length_cons]
  omega

theorem expr_tail_length (ts : List (Int × Int)) : 4 * ts.length ≤ (expr_tail ts).length := by
  induction ts with
  | nil => simp
  | cons t ts ih =>
    have h := fraction_text_length t
    simp only [expr_tail, List.length_cons, List.length_append]
    omega

theorem expr_tail_tokens_length (ts : List (Int × Int)) :
    (expr_tail_tokens ts).length = 4 * ts.length := by
  induction ts with
  | nil => rfl
  | cons t ts ih =>
    simp only [expr_tail_tokens, List.length_cons, ih]
    omega

theorem wrap32_of_fits {x : Int} (h : fits32 x) : wrap32 x = x := by
  obtain ⟨h1, h2⟩ := h
  unfold INT_MIN at h1
  unfold INT_MAX at h2
  unfold wrap32
  omega

namespace Analysator

/-- On the text of an expression `tokenize` returns its tokens. -/
theorem tokenize_expr (t : Int × Int) (ts : List (Int × Int)) :
    tokenize (expr_text t ts)
      = .ok { tokens := expr_tokens t ts, count := (expr_tokens t ts).length, pos := 0 } := by
  have hl1 := fraction_text_length t
  have hl2 := expr_tail_length ts
  have hlen : (expr_text t ts).length = (fraction_text t).length + (expr_tail ts).length := by
    simp [expr_text]
  obtain ⟨f, hf⟩ : ∃ f, (expr_text t ts).length = f + 3 :=
    ⟨(expr_text t ts).length - 3, by omega⟩
  have hc : count_loop (f + 3) (expr_text t ts) 0 = .ok (3 + 4 * ts.length) := by
    have := count_fraction f [] t (expr_tail ts) 0 (by simp) (expr_tail_not_digit ts)
    rw [List.nil_append] at this
    unfold expr_text
    rw [this, count_tail ts f _ (by omega)]
  have hfl : fill_loop (f + 3) (expr_text t ts) [] = .ok (expr_tokens t ts) := by
    have := fill_fraction f [] t (expr_tail ts) [] (by simp) (expr_tail_not_digit ts)
    rw [List.nil_append] at this
    unfold expr_text
    rw [this, fill_tail ts f _ (by omega)]
    rfl
  have hcount : (expr_tokens t ts).length = 3 + 4 * ts.length := by
    simp only [expr_tokens, List.length_cons, expr_tail_tokens_length]
    omega
  unfold tokenize
  rw [hf, hc, hfl, hcount]

theorem current_token_at (pre : List (List Char)) (x : List Char) (post : List (List Char)) :
    current_token ⟨pre ++ x :: post, (pre ++ x :: post).length, pre.length⟩ = some x := by
  unfold current_token
  rw [if_pos (by simp)]
  show (pre ++ x :: post).get? pre.length = some x
  rw [List.get?_eq_getElem?, List.getElem?_append_right (le_refl _)]
  simp

theorem current_token_end (tokens : List (List Char)) :
    current_token ⟨tokens, tokens.length, tokens.length⟩ = none := by
  unfold current_token
  rw [if_neg (by simp)]

/-- On the text of an integer that fits in 32 bits, `atoi` returns the integer. -/
theorem atoi_int_text (n : Int) (h : fits32 n) : atoi (int_text n) = n := by
  obtain ⟨h1, h2⟩ := h
  unfold INT_MIN at h1
  unfold INT_MAX at h2
  have hv : (if deref (int_text n) = '-' then -(decimal_value ((int_text n).drop 1) : Int)
      else (decimal_value (int_text n) : Int)) = n := by
    unfold int_text
    by_cases hn : n < 0
    · rw [if_pos hn]
      have hd : deref ('-' :: decimal n.natAbs) = '-' := rfl
      rw [if_pos hd]
      show -(decimal_value (decimal n.natAbs) : Int) = n
      rw [decimal_value_decimal]
      omega
    · rw [if_neg hn]
      have hd : deref (decimal n.natAbs) ≠ '-' := by
        cases hdec : decimal n.natAbs with
        | nil => exact absurd hdec (decimal_ne_nil _)
        | cons c r =>
          have hc : isdigit c = true := by
            have := decimal_isdigit n.natAbs c
            rw [hdec] at this
            exact this (List.mem_cons_self _ _)
          exact (isdigit_props hc).2.2.2.2
      rw [if_neg hd, decimal_value_decimal]
      omega
  unfold atoi
  dsimp only
  rw [hv, min_eq_left (by omega), max_eq_right (by omega)]
  unfold wrap32
  omega

end Analysator

namespace Analysator

theorem parse_number_at (tokens pre post : List (List Char)) (n : Int) (pos : Nat)
    (ht : tokens = pre ++ int_text n :: post) (hpos : pos = pre.length) (hn : fits32 n) :
    parse_number ⟨tokens, tokens.length, pos⟩
      = .ok (⟨n, 1⟩, ⟨tokens, tokens.length, pos + 1⟩) := by
  subst ht hpos
  unfold parse_number
  rw [current_token_at]
  dsimp only
  rw [if_pos (int_text_starts_number n), atoi_int_text n hn]

theorem consume_at (tokens pre post : List (List Char)) (x : List Char) (pos : Nat)
    (ht : tokens = pre ++ x :: post) (hpos : pos = pre.length) :
    consume ⟨tokens, tokens.length, pos⟩ x = .ok ⟨tokens, tokens.length, pos + 1⟩ := by
  subst ht hpos
  unfold consume
  rw [current_token_at]
  dsimp only
  rw [if_pos rfl]

/-- The function `parse_T` on the tokens of a fraction whose numbers fit in 32 bits and whose
denominator is not zero. -/
theorem parse_T_at (tokens pre post : List (List Char)) (t : Int × Int) (pos : Nat)
    (ht : tokens = pre ++ int_text t.1 :: ['/'] :: int_text t.2 :: post)
    (hpos : pos = pre.length) (h1 : fits32 t.1) (h2 : fits32 t.2) (hd : t.2 ≠ 0) :
    parse_T ⟨tokens, tokens.length, pos⟩
      = .ok (⟨t.1, t.2⟩, ⟨tokens, tokens.length, pos + 3⟩) := by
  unfold parse_T
  rw [parse_number_at tokens pre _ t.1 pos ht hpos h1]
  dsimp only
  rw [consume_at tokens (pre ++ [int_text t.1]) (int_text t.2 :: post) ['/'] (pos + 1)
    (by rw [ht]; simp) (by rw [hpos]; simp)]
  dsimp only
  rw [parse_number_at tokens (pre ++ [int_text t.1, ['/']]) post t.2 (pos + 1 + 1)
    (by rw [ht]; simp) (by rw [hpos]; simp) h2]
  dsimp only
  rw [if_neg hd]

theorem add_fractions_exact (a u : Int × Int) (h1 : fits32 (a.1 * u.2)) (h2 : fits32 (u.1 * a.2))
    (h3 : fits32 (a.1 * u.2 + u.1 * a.2)) (h4 : fits32 (a.2 * u.2)) :
    add_fractions ⟨a.1, a.2⟩ ⟨u.1, u.2⟩ = ⟨a.1 * u.2 + u.1 * a.2, a.2 * u.2⟩ := by
  unfold add_fractions
  dsimp only
  rw [wrap32_of_fits h1, wrap32_of_fits h2, wrap32_of_fits h3, wrap32_of_fits h4]

/-- The loop of `parse_E` on the tokens of the fractions that follow the first, when nothing
overflows: it accumulates the unreduced sum and consumes all the tokens. -/
theorem parse_E_loop_at (ts : List (Int × Int)) :
    ∀ (fuel : Nat) (a : Int × Int) (tokens pre : List (List Char)) (pos : Nat),
      tokens = pre ++ expr_tail_tokens ts → pos = pre.length → ts.length ≤ fuel →
      (∀ u ∈ ts, fits32 u.1 ∧ fits32 u.2 ∧ u.2 ≠ 0) → acc_fits a ts →
      parse_E_loop fuel ⟨a.1, a.2⟩ ⟨tokens, tokens.length, pos⟩
        = .ok (⟨(exact_acc a ts).1, (exact_acc a ts).2⟩,
            ⟨tokens, tokens.length, tokens.length⟩) := by
  induction ts with
  | nil =>
    intro fuel a tokens pre pos ht hpos _ _ _
    have hp : pos = tokens.length := by rw [hpos, ht]; simp [expr_tail_tokens]
    subst hp
    have hcur : current_token ⟨tokens, tokens.length, tokens.length⟩ ≠ some ['+'] := by
      rw [current_token_end]
      exact fun h => by cases h
    cases fuel with
    | zero =>
      unfold parse_E_loop
      rw [if_neg hcur]
      rfl
    | succ f =>
      unfold parse_E_loop
      rw [if_neg hcur]
      rfl
  | cons u us ih =>
    intro fuel a tokens pre pos ht hpos hf hfits hacc
    simp only [List.length_cons] at hf
    obtain ⟨f, rfl⟩ : ∃ f, fuel = f + 1 := ⟨fuel - 1, by omega⟩
    obtain ⟨c1, c2, c3, c4, c5⟩ := hacc
    obtain ⟨u1, u2, u3⟩ := hfits u (List.mem_cons_self _ _)
    have ht' : tokens = pre ++ ['+'] :: (int_text u.1 :: ['/'] :: int_text u.2
        :: expr_tail_tokens us) := by
      rw [ht]
      rfl
    have hcur : current_token ⟨tokens, tokens.length, pos⟩ = some ['+'] := by
      subst ht' hpos
      exact current_token_at _ _ _
    unfold parse_E_loop
    rw [if_pos hcur, consume_at tokens pre _ ['+'] pos ht' hpos]
    dsimp only
    rw [parse_T_at tokens (pre ++ [['+']]) (expr_tail_tokens us) u (pos + 1)
      (by rw [ht']; simp) (by rw [hpos]; simp) u1 u2 u3]
    dsimp only
    rw [add_fractions_exact a u c1 c2 c3 c4]
    exact ih f (a.1 * u.2 + u.1 * a.2, a.2 * u.2) tokens
      (pre ++ [['+'], int_text u.1, ['/'], int_text u.2]) (pos + 1 + 3)
      (by rw [ht']; simp) (by rw [hpos]; simp) (by omega)
      (fun v hv => hfits v (List.mem_cons_of_mem _ hv)) c5

/-- The function `parse_S` on the tokens of an expression, when nothing overflows. -/
theorem parse_S_expr (t : Int × Int) (ts : List (Int × Int))
    (hfits : ∀ u ∈ t :: ts, fits32 u.1 ∧ fits32 u.2 ∧ u.2 ≠ 0) (hacc : acc_fits t ts) :
    parse_S ⟨expr_tokens t ts, (expr_tokens t ts).length, 0⟩
      = .ok (⟨(exact_acc t ts).1, (exact_acc t ts).2⟩,
          ⟨expr_tokens t ts, (expr_tokens t ts).length, (expr_tokens t ts).length⟩) := by
  obtain ⟨t1, t2, t3⟩ := hfits t (List.mem_cons_self _ _)
  unfold parse_S parse_E
  rw [parse_T_at (expr_tokens t ts) [] (expr_tail_tokens ts) t 0 rfl rfl t1 t2 t3]
  dsimp only
  exact parse_E_loop_at ts _ t (expr_tokens t ts) [int_text t.1, ['/'], int_text t.2] (0 + 3)
    rfl rfl
    (by
      have := expr_tail_tokens_length ts
      simp only [expr_tokens, List.length_cons]
      omega)
    (fun v hv => hfits v (List.mem_cons_of_mem _ hv)) hacc

end Analysator

theorem exact_acc_fits (ts : List (Int × Int)) :
    ∀ a : Int × Int, fits32 a.1 → fits32 a.2 → acc_fits a ts →
      fits32 (exact_acc a ts).1 ∧ fits32 (exact_acc a ts).2 := by
  induction ts with
  | nil =>
    intro a h1 h2 _
    exact ⟨h1, h2⟩
  | cons u us ih =>
    intro a _ _ hacc
    obtain ⟨_, _, c3, c4, c5⟩ := hacc
    exact ih _ c3 c4 c5

/-- The unreduced sum has a denominator that is not zero, and its value is the sum of the
fractions. -/
theorem exact_acc_value (ts : List (Int × Int)) :
    ∀ a : Int × Int, a.2 ≠ 0 → (∀ u ∈ ts, u.2 ≠ 0) →
      (exact_acc a ts).2 ≠ 0 ∧
      ((exact_acc a ts).1 : ℚ) / ((exact_acc a ts).2 : ℚ)
        = (a.1 : ℚ) / (a.2 : ℚ) + (ts.map (fun u => (u.1 : ℚ) / (u.2 : ℚ))).sum := by
  induction ts with
  | nil =>
    intro a ha _
    exact ⟨ha, by simp [exact_acc]⟩
  | cons u us ih =>
    intro a ha hts
    have hu : u.2 ≠ 0 := hts u (List.mem_cons_self _ _)
    obtain ⟨i1, i2⟩ := ih (a.1 * u.2 + u.1 * a.2, a.2 * u.2) (mul_ne_zero ha hu)
      (fun v hv => hts v (List.mem_cons_of_mem _ hv))
    refine ⟨i1, ?_⟩
    have haq : (a.2 : ℚ) ≠ 0 := by exact_mod_cast ha
    have huq : (u.2 : ℚ) ≠ 0 := by exact_mod_cast hu
    have hstep : (((a.1 * u.2 + u.1 * a.2 : Int) : ℚ)) / ((a.2 * u.2 : Int) : ℚ)
        = (a.1 : ℚ) / (a.2 : ℚ) + (u.1 : ℚ) / (u.2 : ℚ) := by
      push_cast
      rw [div_add_div _ _ haq huq]
      congr 1
      ring
    show ((exact_acc (a.1 * u.2 + u.1 * a.2, a.2 * u.2) us).1 : ℚ)
        / ((exact_acc (a.1 * u.2 + u.1 * a.2, a.2 * u.2) us).2 : ℚ) = _
    rw [i2, hstep, List.map_cons, List.sum_cons]
    ring

namespace Analysator

/-- The function `simplify_fraction` on a fraction whose numerator and denominator are in the
range of `int` without `INT_MIN`, with a denominator that is not zero: the result is the same
rational number in lowest terms with a positive denominator. -/
theorem simplify_fraction_spec (N D : Int) (hN : fits32 N) (hD : fits32 D)
    (hN' : N ≠ INT_MIN) (hD' : D ≠ INT_MIN) (hD0 : D ≠ 0) :
    ∃ n d, simplify_fraction ⟨N, D⟩ = .ok ⟨n, d⟩ ∧ 0 < d ∧ Int.gcd n d = 1 ∧
      (n : ℚ) / (d : ℚ) = (N : ℚ) / (D : ℚ) := by
  obtain ⟨hN1, hN2⟩ := hN
  obtain ⟨hD1, hD2⟩ := hD
  unfold INT_MIN at hN1 hD1 hN' hD'
  unfold INT_MAX at hN2 hD2
  have hg : 0 < Nat.gcd N.natAbs D.natAbs :=
    Nat.gcd_pos_of_pos_right _ (Int.natAbs_pos.mpr hD0)
  have hgz : ((Nat.gcd N.natAbs D.natAbs : Nat) : Int) ≠ 0 := by exact_mod_cast hg.ne'
  have habsN : abs N = (N.natAbs : Int) := by
    unfold abs wrap32
    omega
  have habsD : abs D = (D.natAbs : Int) := by
    unfold abs wrap32
    omega
  have hgcd : gcd (abs N) (abs D) = ((Nat.gcd N.natAbs D.natAbs : Nat) : Int) := by
    rw [habsN, habsD]
    exact compute_gcd_natCast _ _
  have hdvdN : ((Nat.gcd N.natAbs D.natAbs : Nat) : Int) ∣ N := Int.gcd_dvd_left
  have hdvdD : ((Nat.gcd N.natAbs D.natAbs : Nat) : Int) ∣ D := Int.gcd_dvd_right
  have eN := Int.tdiv_mul_cancel hdvdN
  have eD := Int.tdiv_mul_cancel hdvdD
  have aN : (N.tdiv ((Nat.gcd N.natAbs D.natAbs : Nat) : Int)).natAbs
      = N.natAbs / Nat.gcd N.natAbs D.natAbs := by
    rw [natAbs_tdiv, Int.natAbs_ofNat]
  have aD : (D.tdiv ((Nat.gcd N.natAbs D.natAbs : Nat) : Int)).natAbs
      = D.natAbs / Nat.gcd N.natAbs D.natAbs := by
    rw [natAbs_tdiv, Int.natAbs_ofNat]
  have lN : (N.tdiv ((Nat.gcd N.natAbs D.natAbs : Nat) : Int)).natAbs ≤ N.natAbs := by
    rw [aN]
    exact Nat.div_le_self _ _
  have lD : (D.tdiv ((Nat.gcd N.natAbs D.natAbs : Nat) : Int)).natAbs ≤ D.natAbs := by
    rw [aD]
    exact Nat.div_le_self _ _
  have hcop : Int.gcd (N.tdiv ((Nat.gcd N.natAbs D.natAbs : Nat) : Int))
      (D.tdiv ((Nat.gcd N.natAbs D.natAbs : Nat) : Int)) = 1 := by
    show Nat.gcd _ _ = 1
    rw [aN, aD]
    exact Nat.coprime_div_gcd_div_gcd hg
  have hd0 : D.tdiv ((Nat.gcd N.natAbs D.natAbs : Nat) : Int) ≠ 0 := by
    intro hc
    rw [hc, zero_mul] at eD
    exact hD0 eD.symm
  have htr : ¬ (gcd_traps (abs N) (abs D) = true ∨ gcd (abs N) (abs D) = 0 ∨
      ((N = INT_MIN ∨ D = INT_MIN) ∧ gcd (abs N) (abs D) = -1)) := by
    rw [hgcd]
    rintro (h | h | ⟨h | h, _⟩)
    · rw [habsN, habsD] at h
      unfold gcd_traps at h
      rw [gcd_traps_loop_natCast] at h
      cases h
    · exact hgz h
    · exact hN' h
    · exact hD' h
  unfold simplify_fraction
  dsimp only
  rw [if_neg htr, hgcd]
  generalize ((Nat.gcd N.natAbs D.natAbs : Nat) : Int) = G at *
  generalize N.tdiv G = n at *
  generalize D.tdiv G = d at *
  have hval : (n : ℚ) / (d : ℚ) = (N : ℚ) / (D : ℚ) := by
    have hGq : (G : ℚ) ≠ 0 := by exact_mod_cast hgz
    have e1 : (N : ℚ) = (n : ℚ) * (G : ℚ) := by exact_mod_cast eN.symm
    have e2 : (D : ℚ) = (d : ℚ) * (G : ℚ) := by exact_mod_cast eD.symm
    rw [e1, e2, mul_div_mul_right _ _ hGq]
  have wn : wrap32 n = n := by
    unfold wrap32
    omega
  have wd : wrap32 d = d := by
    unfold wrap32
    omega
  rw [wn, wd]
  by_cases hneg : d < 0
  · rw [if_pos hneg]
    have wn' : wrap32 (n * -1) = -n := by
      unfold wrap32
      omega
    have wd' : wrap32 (d * -1) = -d := by
      unfold wrap32
      omega
    rw [wn', wd']
    refine ⟨-n, -d, rfl, by omega, ?_, ?_⟩
    · rw [Int.neg_gcd, Int.gcd_neg]
      exact hcop
    · push_cast
      rw [neg_div_neg_eq]
      exact hval
  · rw [if_neg hneg]
    exact ⟨n, d, rfl, by omega, hcop, hval⟩

end Analysator

namespace Analysator

/-- The division of `INT_MIN` by a `common_divisor` of `-1` traps: on `-2147483648/2147483647`
the function `gcd` returns `-1` and `evaluate` ends without a result. -/
theorem evaluate_division_trap :
    gcd (abs (-2147483648)) (abs 2147483647) = -1 ∧
    evaluate "-2147483648/2147483647".toList = .error Stop.division_fault :=
  ⟨rfl, rfl⟩

end Analysator

namespace Analysator

/-- Claim C21 as stated does not hold. The expression of numerator `-2147483648` and
denominator `-1` is made of two literals that fit in 32 bits, its denominator is not zero and
`add_fractions` is not called, and the result is `-2147483648/1`, not the sum `2147483648`:
the negation in `simplify_fraction` overflows. With the literal `4294967297`, which does not fit in 32 bits, the result of
`4294967297/1` is `1/1`. An expression of 18 fractions `1/1`, none of whose intermediate values
exceeds 18, is 105 characters long: `main` reads 99 of them and prints `17/1`. -/
theorem C21_counterexample :
    expr_text (-2147483648, -1) [] = "-2147483648/-1".toList ∧
    fits32 (-2147483648) ∧ fits32 (-1) ∧ acc_fits (-2147483648, -1) [] ∧
    evaluate "-2147483648/-1".toList = .ok ⟨-2147483648, 1⟩ ∧
    ((-2147483648 : Int) : ℚ) / ((1 : Int) : ℚ) ≠ expr_sum (-2147483648, -1) [] ∧
    evaluate "4294967297/1".toList = .ok ⟨1, 1⟩ ∧
    acc_fits (1, 1) (List.replicate 17 (1, 1)) ∧
    main (expr_text (1, 1) (List.replicate 17 (1, 1)) ++ [NEWLINE]) = .ok ⟨17, 1⟩ ∧
    expr_sum (1, 1) (List.replicate 17 (1, 1)) = 18 := by
  refine ⟨rfl, ?_, ?_, trivial, rfl, ?_, rfl, ?_, ?_, ?_⟩
  · exact ⟨by decide, by decide⟩
  · exact ⟨by decide, by decide⟩
  · norm_num [expr_sum]
  · simp [List.replicate, acc_fits, fits32, INT_MIN, INT_MAX]
  · set_option maxRecDepth 20000 in rfl
  · norm_num [expr_sum, List.replicate]

/-- Claim C21, amended. For every expression `n1/d1 + n2/d2 + ... + nk/dk` (`k ≥ 1`) whose
literals fit in a 32-bit `int`, with every `d_i` non-zero, such that every cross product and
every sum computed by `add_fractions` fits in a 32-bit `int` and the numerator and the
denominator accumulated are not `INT_MIN`, the functions `tokenize`, `parse_S` and
`simplify_fraction` return the exact rational sum in lowest terms with a strictly positive
denominator; it is what `main` prints when the input read is the expression. -/
theorem C21_fraction_sum_exact (t : Int × Int) (ts : List (Int × Int))
    (hfits : ∀ u ∈ t :: ts, fits32 u.1 ∧ fits32 u.2 ∧ u.2 ≠ 0) (hacc : acc_fits t ts)
    (hN : (exact_acc t ts).1 ≠ INT_MIN) (hD : (exact_acc t ts).2 ≠ INT_MIN) :
    ∃ n d, evaluate (expr_text t ts) = .ok ⟨n, d⟩ ∧ 0 < d ∧ Int.gcd n d = 1 ∧
      (n : ℚ) / (d : ℚ) = expr_sum t ts ∧
      ∀ line, read_input line = expr_text t ts → main line = .ok ⟨n, d⟩ := by
  obtain ⟨t1, t2, t3⟩ := hfits t (List.mem_cons_self _ _)
  obtain ⟨f1, f2⟩ := exact_acc_fits ts t t1 t2 hacc
  obtain ⟨v1, v2⟩ := exact_acc_value ts t t3 (fun u hu => (hfits u (List.mem_cons_of_mem _ hu)).2.2)
  obtain ⟨n, d, s1, s2, s3, s4⟩ :=
    simplify_fraction_spec (exact_acc t ts).1 (exact_acc t ts).2 f1 f2 hN hD v1
  have hev : evaluate (expr_text t ts) = .ok ⟨n, d⟩ := by
    unfold evaluate
    rw [tokenize_expr]
    dsimp only
    rw [parse_S_expr t ts hfits hacc]
    dsimp only
    exact s1
  refine ⟨n, d, hev, s2, s3, ?_, ?_⟩
  · rw [s4, v2]
    rfl
  · intro line hline
    unfold main
    rw [hline]
    exact hev

/-- Claim C21, amended, on the example of the prompt: `1/2 + 3/4 + 5/6` gives `25/12`. -/
theorem C21_fraction_sum_exact_witness :
    expr_text (1, 2) [(3, 4), (5, 6)] = "1/2 + 3/4 + 5/6".toList ∧
    evaluate "1/2 + 3/4 + 5/6".toList = .ok ⟨25, 12⟩ ∧
    main ("1/2 + 3/4 + 5/6".toList ++ [NEWLINE]) = .ok ⟨25, 12⟩ ∧
    ∃ n d, evaluate (expr_text (1, 2) [(3, 4), (5, 6)]) = .ok ⟨n, d⟩ ∧ 0 < d ∧
      Int.gcd n d = 1 ∧ (n : ℚ) / (d : ℚ) = expr_sum (1, 2) [(3, 4), (5, 6)] ∧
      ∀ line, read_input line = expr_text (1, 2) [(3, 4), (5, 6)] → main line = .ok ⟨n, d⟩ :=
  ⟨rfl, rfl, rfl, C21_fraction_sum_exact (1, 2) [(3, 4), (5, 6)]
    (by simp [fits32, INT_MIN, INT_MAX]) (by simp [acc_fits, fits32, INT_MIN, INT_MAX])
    (by decide) (by decide)⟩

end Analysator
